import Mathlib

/-!
# Verification development for `particles/mpi.cpp`

A shallow embedding of the distributed particle simulation: the uniform bin
grid, the row partition over the MPI ranks, the force sweep of one bin, the
move/compaction sweep, the ghost flush, the root-mediated gather /
redistribute / scatter round, and the root's diagnostics.

Conventions of the embedding:

* `double` values are idealised as rationals (`ℚ`), `int` values as `Int`
  (no wrap-around is modelled; the grid has fewer than `2^31` bins);
  conversion `int(d)` truncates toward zero, `/` and `%` on `int` are the
  truncating `Int.tdiv` and `Int.tmod`.
* `std::vector<T>` is `List T`; an access `v[idx]` outside `[0, size)` is
  undefined behaviour in the source and is reported as `Fault.outOfBounds`.
* A failed `assert` is `Fault.assertFailed`, an integer division by zero is
  `Fault.divByZero`.
* The SPMD program is modelled by one value per rank (`List` indexed by rank);
  the MPI collectives are functions on these rank-indexed lists.
* The functions of the absent `common.cpp` (`move`, `apply_force`) and the
  library `sqrt` are parameters of the definitions that call them.
-/

namespace Particles

/-! ## Data model -/

/-- Modelled from the spec: `particle_t` of the absent `common.h`; position,
velocity and acceleration, six real-valued fields (sent as six doubles). -/
structure particle_t where
  x : ℚ
  y : ℚ
  vx : ℚ
  vy : ℚ
  ax : ℚ
  ay : ℚ
deriving DecidableEq, Repr

instance : Inhabited particle_t := ⟨⟨0, 0, 0, 0, 0, 0⟩⟩

/-- Modelled from the spec: `bin_t` of the absent `common.h`, a vector of
particles occupying one grid cell. -/
abbrev bin_t := List particle_t

/-- Ways in which the source can fail to produce a result. -/
inductive Fault where
  | outOfBounds
  | divByZero
  | assertFailed
  | fuel
deriving DecidableEq, Repr

/-- The conversion `int(d)` of a double: truncation toward zero. -/
def toInt (q : ℚ) : Int := q.num.tdiv q.den

/-- The constant `_cutoff` (0.01). -/
def _cutoff : ℚ := 1 / 100

/-- The constant `_density` (0.0005). -/
def _density : ℚ := 5 / 10000

/-- The three globals `binSize`, `gridSize`, `binCount`. -/
structure Globals where
  binSize : ℚ
  gridSize : ℚ
  binCount : Int
deriving DecidableEq, Repr

/-! ## Partition setup (lines 150-159) -/

/-- Line 150: `x_bins_per_proc = binCount / n_proc`. -/
def x_bins_per_proc (binCount n_proc : Int) : Int := binCount.tdiv n_proc

/-- Line 155: `my_bins_start = x_bins_per_proc * rank`. -/
def my_bins_start (binCount n_proc rank : Int) : Int :=
  x_bins_per_proc binCount n_proc * rank

/-- Lines 156-159: `my_bins_end = x_bins_per_proc * (rank + 1)`, forced to
`binCount` on the last rank. -/
def my_bins_end (binCount n_proc rank : Int) : Int :=
  if rank = n_proc - 1 then binCount else x_bins_per_proc binCount n_proc * (rank + 1)

/-- Row `x` lies in the half-open row range of `rank`. -/
def inRange (binCount n_proc rank x : Int) : Prop :=
  my_bins_start binCount n_proc rank ≤ x ∧ x < my_bins_end binCount n_proc rank

instance (binCount n_proc rank x : Int) : Decidable (inRange binCount n_proc rank x) := by
  unfold inRange; infer_instance

/-! ## Loops -/

/-- A `for` loop whose body may fault: the body is run on the values of the
list in order, threading the state; the first fault ends the loop. -/
def forEach {α σ : Type} (body : α → σ → Except Fault σ) : List α → σ → Except Fault σ
  | [], st => .ok st
  | v :: vs, st =>
    match body v st with
    | .error e => .error e
    | .ok st' => forEach body vs st'

/-- The values `lo, lo + 1, ..., hi - 1` taken by `for (v = lo; v < hi; ++v)`. -/
def intRange (lo hi : Int) : List Int :=
  (List.range (hi - lo).toNat).map (fun (n : Nat) => lo + (n : Int))

/-- One body per rank of the SPMD program: `f rank v` for the value of each
rank, the ranks counted from `rank`; a fault on any rank aborts the group. -/
def mapRanks {α β : Type} (f : Int → α → Except Fault β) : Int → List α → Except Fault (List β)
  | _, [] => .ok []
  | rank, a :: rest =>
    match f rank a with
    | .error e => .error e
    | .ok b =>
      match mapRanks f (rank + 1) rest with
      | .error e => .error e
      | .ok bs => .ok (b :: bs)

/-! ## Bins (lines 48-70) -/

/-- The access `bins[idx]` read as a value; empty outside the vector. -/
def getBin (bins : List bin_t) (idx : Int) : bin_t :=
  if 0 ≤ idx then bins.getD idx.toNat [] else []

/-- The statement `v[idx].push_back(p)` on a vector of bins. -/
def push_back_at (bins : List bin_t) (idx : Int) (p : particle_t) : Except Fault (List bin_t) :=
  if 0 ≤ idx ∧ idx < bins.length then
    .ok (bins.set idx.toNat (bins.getD idx.toNat [] ++ [p]))
  else .error .outOfBounds

/-- Lines 65-70: `push_particles_in_bin`. -/
def push_particles_in_bin (g : Globals) (particle : particle_t) (bins : List bin_t) :
    Except Fault (List bin_t) :=
  let x := toInt (particle.x / g.binSize)
  let y := toInt (particle.y / g.binSize)
  push_back_at bins (x * g.binCount + y) particle

/-- Lines 55-62: the body of the insertion loop of `create_bins`. -/
def create_bins_body (g : Globals) (p : particle_t) (bins : List bin_t) :
    Except Fault (List bin_t) :=
  let x := toInt (p.x / g.binSize)
  let y := toInt (p.y / g.binSize)
  push_back_at bins (x * g.binCount + y) p

/-- Lines 48-63: `create_bins`; `n` is the length of `particles`, and the
library square root is a parameter. Returns the globals it sets and the grid. -/
def create_bins (sqrt : ℚ → ℚ) (particles : List particle_t) :
    Except Fault (Globals × List bin_t) :=
  let n : Int := particles.length
  let gridSize := sqrt (n * _density)
  let binSize := _cutoff
  let binCount := toInt (gridSize / binSize) + 1
  let g : Globals := ⟨binSize, gridSize, binCount⟩
  match forEach (create_bins_body g) particles
      (List.replicate (binCount * binCount).toNat []) with
  | .error e => .error e
  | .ok bins => .ok (g, bins)

/-- The bin index `x * binCount + y` that lines 57-59 and 66-69 compute. -/
def binIndex (g : Globals) (p : particle_t) : Int :=
  toInt (p.x / g.binSize) * g.binCount + toInt (p.y / g.binSize)

/-- The condition of the asserts at lines 277-278 and 314. -/
def inDomain (g : Globals) (p : particle_t) : Prop :=
  0 ≤ p.x ∧ 0 ≤ p.y ∧ p.x ≤ g.gridSize ∧ p.y ≤ g.gridSize

instance (g : Globals) (p : particle_t) : Decidable (inDomain g p) := by
  unfold inDomain; infer_instance

/-! ## Move and compaction (lines 192-221) -/

/-- Lines 199-214: the swap-with-last compaction loop of one bin `(i, j)`;
the state is `bin`, `k`, `tail`, `local_move`, `remote_move`. One unit of
fuel is spent per iteration; `Fault.fuel` reports that it ran out. -/
def compact_loop (g : Globals) (move : particle_t → particle_t) (s e i j : Int) :
    Nat → bin_t → Nat → Nat → bin_t → bin_t → Except Fault (bin_t × Nat × bin_t × bin_t)
  | 0, bin, k, tail, lm, rm =>
    if k < tail then .error .fuel else .ok (bin, k, lm, rm)
  | fuel + 1, bin, k, tail, lm, rm =>
    if k < tail then
      let p := move (bin.getD k default)
      let bin1 := bin.set k p
      let x := toInt (p.x / g.binSize)
      let y := toInt (p.y / g.binSize)
      if s ≤ x ∧ x < e then
        if x = i ∧ y = j then
          compact_loop g move s e i j fuel bin1 (k + 1) tail lm rm
        else
          compact_loop g move s e i j fuel
            (bin1.set k (bin1.getD (tail - 1) default)) k (tail - 1) (lm ++ [p]) rm
      else
        compact_loop g move s e i j fuel
          (bin1.set k (bin1.getD (tail - 1) default)) k (tail - 1) lm (rm ++ [p])
    else .ok (bin, k, lm, rm)

/-- Lines 197-215: the body of the sweep for bin `(i, j)`: compaction, then
`bin.resize(k)`. The state is the grid, `local_move`, `remote_move`. -/
def compact_bin (g : Globals) (move : particle_t → particle_t) (s e i j : Int)
    (st : List bin_t × bin_t × bin_t) : Except Fault (List bin_t × bin_t × bin_t) :=
  let idx := i * g.binCount + j
  if 0 ≤ idx ∧ idx < st.1.length then
    let bin := st.1.getD idx.toNat []
    match compact_loop g move s e i j bin.length bin 0 bin.length st.2.1 st.2.2 with
    | .error err => .error err
    | .ok (bin', k, lm, rm) => .ok (st.1.set idx.toNat (bin'.take k), lm, rm)
  else .error .outOfBounds

/-- Lines 195-217: the sweep over the owned rows `[s, e)`. -/
def move_sweep (g : Globals) (move : particle_t → particle_t) (s e : Int)
    (st : List bin_t × bin_t × bin_t) : Except Fault (List bin_t × bin_t × bin_t) :=
  forEach (fun i st1 => forEach (fun j st2 => compact_bin g move s e i j st2)
    (intRange 0 g.binCount) st1) (intRange s e) st

/-! ## Ghost flush (lines 223-245) -/

/-- The statement `bins[idx].clear()`. -/
def clear_at (bins : List bin_t) (idx : Int) : Except Fault (List bin_t) :=
  if 0 ≤ idx ∧ idx < bins.length then .ok (bins.set idx.toNat []) else .error .outOfBounds

/-- Lines 224-227 and 236-239: clear every bin of row `i`. -/
def clear_row (g : Globals) (i : Int) (bins : List bin_t) : Except Fault (List bin_t) :=
  forEach (fun j b => clear_at b (i * g.binCount + j)) (intRange 0 g.binCount) bins

/-- Lines 229-231 and 241-243: append `bins[idx]` to `remote_move`, then clear it. -/
def drain_at (idx : Int) (st : List bin_t × bin_t) : Except Fault (List bin_t × bin_t) :=
  if 0 ≤ idx ∧ idx < st.1.length then
    .ok (st.1.set idx.toNat [], st.2 ++ st.1.getD idx.toNat [])
  else .error .outOfBounds

/-- Lines 228-232 and 240-244: move every bin of row `i` into `remote_move`. -/
def drain_row (g : Globals) (i : Int) (st : List bin_t × bin_t) :
    Except Fault (List bin_t × bin_t) :=
  forEach (fun j st1 => drain_at (i * g.binCount + j) st1) (intRange 0 g.binCount) st

/-- Lines 223-233: the block guarded by `rank != 0`. -/
def flush_low (g : Globals) (rank s : Int) (st : List bin_t × bin_t) :
    Except Fault (List bin_t × bin_t) :=
  if rank ≠ 0 then
    match clear_row g (s - 1) st.1 with
    | .error err => .error err
    | .ok bins => drain_row g s (bins, st.2)
  else .ok st

/-- Lines 235-245: the block guarded by `rank != n_proc - 1`. -/
def flush_high (g : Globals) (n_proc rank e : Int) (st : List bin_t × bin_t) :
    Except Fault (List bin_t × bin_t) :=
  if rank ≠ n_proc - 1 then
    match clear_row g e st.1 with
    | .error err => .error err
    | .ok bins => drain_row g (e - 1) (bins, st.2)
  else .ok st

/-- Lines 223-245: the ghost flush. -/
def ghost_flush (g : Globals) (n_proc rank s e : Int) (st : List bin_t × bin_t) :
    Except Fault (List bin_t × bin_t) :=
  match flush_low g rank s st with
  | .error err => .error err
  | .ok st1 => flush_high g n_proc rank e st1

/-- Lines 192-245 on one rank: move sweep, reinsertion of the local movers,
ghost flush. Returns the grid and `remote_move`. -/
def local_phase (g : Globals) (move : particle_t → particle_t) (n_proc rank : Int)
    (bins : List bin_t) : Except Fault (List bin_t × bin_t) :=
  let s := my_bins_start g.binCount n_proc rank
  let e := my_bins_end g.binCount n_proc rank
  match move_sweep g move s e (bins, [], []) with
  | .error err => .error err
  | .ok (bins1, local_move, remote_move) =>
    match forEach (push_particles_in_bin g) local_move bins1 with
    | .error err => .error err
    | .ok bins2 => ghost_flush g n_proc rank s e (bins2, remote_move)

/-! ## Gather, root redistribution, scatter (lines 246-316) -/

/-- Lines 257-260 and 292-295: `displs[0] = 0; displs[i] = displs[i-1] +
recv_counts[i-1]` for `i = 1 .. n_proc - 1`. -/
def compute_displs (recv_counts : List Int) (n_proc : Nat) : List Int :=
  (List.range (n_proc - 1)).foldl
    (fun displs i => displs.set (i + 1) (displs.getD i 0 + recv_counts.getD i 0))
    ((List.replicate n_proc 0).set 0 0)

/-- Line 261: `total_num = recv_counts[n_proc - 1] + displs[n_proc - 1]`. -/
def total_num (recv_counts displs : List Int) (n_proc : Nat) : Int :=
  recv_counts.getD (n_proc - 1) 0 + displs.getD (n_proc - 1) 0

/-- Copy `data` into `buf` from offset `off` on. -/
def write_block : bin_t → Nat → bin_t → bin_t
  | buf, _, [] => buf
  | buf, off, p :: ps => write_block (buf.set off p) (off + 1) ps

/-- Lines 266-268, `MPI_Gatherv` as seen by the root: the first
`recv_counts[i]` particles sent by rank `i` are stored from `displs[i]` on. -/
def MPI_Gatherv (sendbufs : List bin_t) (recv_counts displs : List Int) (recvbuf : bin_t) :
    bin_t :=
  (List.range sendbufs.length).foldl
    (fun buf i => write_block buf (displs.getD i 0).toNat
      ((sendbufs.getD i []).take (recv_counts.getD i 0).toNat))
    recvbuf

/-- Lines 275-287: the body of the redistribution loop for one gathered
particle; `w` is `x_bins_per_proc`. -/
def route_particle (g : Globals) (n_proc w : Int) (p : particle_t)
    (scatter_particles : List bin_t) : Except Fault (List bin_t) :=
  let x := toInt (p.x / g.binSize)
  if ¬ (0 ≤ p.x ∧ 0 ≤ p.y ∧ p.x ≤ g.gridSize ∧ p.y ≤ g.gridSize) then
    .error .assertFailed
  else if w = 0 then .error .divByZero
  else
    let who := min (x.tdiv w) (n_proc - 1)
    match push_back_at scatter_particles who p with
    | .error err => .error err
    | .ok sp1 =>
      let row := x.tmod w
      match (if row = 0 ∧ who ≠ 0 then push_back_at sp1 (who - 1) p else .ok sp1) with
      | .error err => .error err
      | .ok sp2 =>
        if row = w - 1 ∧ who ≠ n_proc - 1 then push_back_at sp2 (who + 1) p else .ok sp2

/-- Lines 270-288: root redistribution of the gathered particles into one
list per rank. -/
def root_redistribute (g : Globals) (n_proc : Int) (incoming_move : bin_t) :
    Except Fault (List bin_t) :=
  forEach (route_particle g n_proc (x_bins_per_proc g.binCount n_proc)) incoming_move
    (List.replicate n_proc.toNat [])

/-- Lines 303-307: the rank-ordered flattening of `scatter_particles`. -/
def scatter_particles_flatten (scatter_particles : List bin_t) : bin_t :=
  scatter_particles.foldl (fun acc b => acc ++ b) []

/-- Lines 309-310, `MPI_Scatterv` as seen by `rank`: it receives
`sendcounts[rank]` particles of the root's buffer from `displs[rank]` on. -/
def MPI_Scatterv (sendbuf : bin_t) (sendcounts displs : List Int) (rank : Nat) : bin_t :=
  (sendbuf.drop (displs.getD rank 0).toNat).take (sendcounts.getD rank 0).toNat

/-- Lines 312-316: insertion of the received particles. -/
def local_insert (g : Globals) (outgoing_move : bin_t) (bins : List bin_t) :
    Except Fault (List bin_t) :=
  forEach (fun p b =>
    if 0 ≤ p.x ∧ 0 ≤ p.y ∧ p.x ≤ g.gridSize ∧ p.y ≤ g.gridSize then
      push_particles_in_bin g p b
    else .error .assertFailed) outgoing_move bins

/-- Lines 246-268: the gather; the root's `incoming_move`, from the
`remote_move` of every rank. -/
def gather (remote_moves : List bin_t) : bin_t :=
  let recv_counts : List Int := remote_moves.map (fun b => (b.length : Int))
  let displs := compute_displs recv_counts remote_moves.length
  let total := total_num recv_counts displs remote_moves.length
  MPI_Gatherv remote_moves recv_counts displs (List.replicate total.toNat default)

/-- Lines 289-310: the scatter; what each rank receives in `outgoing_move`,
from the root's `scatter_particles`. -/
def scatter (scatter_particles : List bin_t) : List bin_t :=
  let recv_counts : List Int := scatter_particles.map (fun b => (b.length : Int))
  let displs := compute_displs recv_counts scatter_particles.length
  let flat := scatter_particles_flatten scatter_particles
  (List.range scatter_particles.length).map (fun rank =>
    MPI_Scatterv flat recv_counts displs rank)

/-- Lines 192-316: one migration round of the whole group; `world` holds the
grid replica of every rank. Returns, per rank, the grid after the local
insertion. -/
def migration_round (g : Globals) (move : particle_t → particle_t)
    (world : List (List bin_t)) : Except Fault (List (List bin_t)) :=
  let n_proc : Int := world.length
  match mapRanks (fun rank bins => local_phase g move n_proc rank bins) 0 world with
  | .error err => .error err
  | .ok locals =>
    let incoming_move := gather (locals.map Prod.snd)
    match root_redistribute g n_proc incoming_move with
    | .error err => .error err
    | .ok scatter_particles =>
      let outgoing := scatter scatter_particles
      mapRanks (fun rank st => local_insert g (outgoing.getD rank.toNat []) st.1) 0 locals

/-! ## Diagnostics (lines 92-93, 177-189, 324) -/

/-- The root's running diagnostics: `absavg`, `nabsavg`, `absmin`. -/
structure Diag where
  absavg : ℚ
  nabsavg : Int
  absmin : ℚ
deriving DecidableEq, Repr

/-- Lines 92-93: `nabsavg = 0`, `absmin = 1.0`, `absavg = 0.0`. -/
def Diag.init : Diag := ⟨0, 0, 1⟩

/-- The values `rdavg`, `rnavg`, `rdmin` that the root holds after the three
reductions of lines 178-180 in one step. -/
structure Reduced where
  rdavg : ℚ
  rnavg : Int
  rdmin : ℚ
deriving DecidableEq, Repr

/-- Lines 181-188: the root's update of the running diagnostics in one step. -/
def diag_step (d : Diag) (r : Reduced) : Diag :=
  let d1 : Diag :=
    if r.rnavg ≠ 0 then { d with absavg := d.absavg + r.rdavg / r.rnavg, nabsavg := d.nabsavg + 1 }
    else d
  if r.rdmin < d1.absmin then { d1 with absmin := r.rdmin } else d1

/-- Line 324: `if (nabsavg) absavg /= nabsavg`. -/
def diag_final (d : Diag) : Diag :=
  if d.nabsavg ≠ 0 then { d with absavg := d.absavg / d.nabsavg } else d

/-- The diagnostics reported at line 332 after the steps of `steps`: the
pair `(absmin, absavg)`. -/
def diag_report (steps : List Reduced) : ℚ × ℚ :=
  let d := diag_final (steps.foldl diag_step Diag.init)
  (d.absmin, d.absavg)

/-! ## Force sweep (lines 24-46) -/

/-- The statistics `dmin`, `davg`, `navg` that `force_compute_for_bins`
passes by reference to `apply_force`. -/
structure Stats where
  dmin : ℚ
  davg : ℚ
  navg : Int
deriving DecidableEq, Repr

/-- Line 29: `vec[k].ax = vec[k].ay = 0` for `vec = bins[idx]`. -/
def zero_acc_at (idx : Int) (k : Nat) (bins : List bin_t) : Except Fault (List bin_t) :=
  if 0 ≤ idx ∧ idx < bins.length ∧ k < (bins.getD idx.toNat []).length then
    .ok (bins.set idx.toNat ((bins.getD idx.toNat []).set k
      { (bins.getD idx.toNat []).getD k default with ax := 0, ay := 0 }))
  else .error .outOfBounds

/-- Lines 27-32: the loop that zeroes the accelerations of `vec = bins[idx]`;
the bound `vec.size()` is not changed by the body. -/
def zero_acc (idx : Int) (bins : List bin_t) : Except Fault (List bin_t) :=
  forEach (fun k b => zero_acc_at idx k b) (List.range (getBin bins idx).length) bins

/-- Line 41: the call `apply_force(vec[k], vec2[l], &dmin, &davg, &navg)` for
`vec = bins[idx]` and `vec2 = bins[idx2]`. The force law `apply_force` of the
absent `common.cpp` is a parameter: from its two particles and the statistics
it gives the new value of its first particle and of the statistics. -/
def force_call (apply_force : particle_t → particle_t → Stats → particle_t × Stats)
    (idx idx2 : Int) (k l : Nat) (st : List bin_t × Stats) : Except Fault (List bin_t × Stats) :=
  if 0 ≤ idx ∧ idx < st.1.length ∧ 0 ≤ idx2 ∧ idx2 < st.1.length then
    if k < (st.1.getD idx.toNat []).length ∧ l < (st.1.getD idx2.toNat []).length then
      let r := apply_force ((st.1.getD idx.toNat []).getD k default)
        ((st.1.getD idx2.toNat []).getD l default) st.2
      .ok (st.1.set idx.toNat ((st.1.getD idx.toNat []).set k r.1), r.2)
    else .error .outOfBounds
  else .error .outOfBounds

/-- Lines 38-41: the loops over `k` and `l` for the neighbour bin
`vec2 = bins[idx2]`; the bounds `vec.size()` and `vec2.size()` are not changed
by the calls. -/
def force_pairs (apply_force : particle_t → particle_t → Stats → particle_t × Stats)
    (idx idx2 : Int) (st : List bin_t × Stats) : Except Fault (List bin_t × Stats) :=
  if 0 ≤ idx2 ∧ idx2 < st.1.length then
    forEach (fun k st1 => forEach (fun l st2 => force_call apply_force idx idx2 k l st2)
      (List.range (getBin st.1 idx2).length) st1) (List.range (getBin st.1 idx).length) st
  else .error .outOfBounds

/-- Lines 37-43: the body of the loop over `dy`: the clipping test and the
pair loops of the neighbour bin `(i + dx, j + dy)`. -/
def force_neighbor (apply_force : particle_t → particle_t → Stats → particle_t × Stats)
    (g : Globals) (i j dx dy : Int) (st : List bin_t × Stats) :
    Except Fault (List bin_t × Stats) :=
  if i + dx ≥ 0 ∧ i + dx < g.binCount ∧ j + dy ≥ 0 ∧ j + dy < g.binCount then
    force_pairs apply_force (i * g.binCount + j) ((i + dx) * g.binCount + j + dy) st
  else .ok st

/-- Lines 24-46: `force_compute_for_bins`; the state is the grid and the
statistics. -/
def force_compute_for_bins (apply_force : particle_t → particle_t → Stats → particle_t × Stats)
    (g : Globals) (i j : Int) (st : List bin_t × Stats) : Except Fault (List bin_t × Stats) :=
  if 0 ≤ i * g.binCount + j ∧ i * g.binCount + j < st.1.length then
    match zero_acc (i * g.binCount + j) st.1 with
    | .error err => .error err
    | .ok bins1 =>
      forEach (fun dx st1 => forEach (fun dy st2 => force_neighbor apply_force g i j dx dy st2)
        (intRange (-1) 2) st1) (intRange (-1) 2) (bins1, st.2)
  else .error .outOfBounds

/-! ## Ownership -/

/-- The bin indices a rank sweeps: `i * binCount + j` for `i` in its row
range and `j` in `[0, binCount)` (the loops of lines 171-172 and 195-196). -/
def ownIndices (g : Globals) (n_proc rank : Int) : List Int :=
  (intRange (my_bins_start g.binCount n_proc rank) (my_bins_end g.binCount n_proc rank)).flatMap
    (fun i => (intRange 0 g.binCount).map (fun j => i * g.binCount + j))

/-- Number of particles a rank holds in the bins of its own row range. -/
def owned_count (g : Globals) (n_proc rank : Int) (bins : List bin_t) : Nat :=
  ((ownIndices g n_proc rank).map (fun k => (getBin bins k).length)).sum

/-- Total owned-particle count of the group, ghost copies excluded. -/
def total_owned (g : Globals) (n_proc : Int) : Int → List (List bin_t) → Nat
  | _, [] => 0
  | rank, bins :: rest => owned_count g n_proc rank bins + total_owned g n_proc (rank + 1) rest

/-! ## Vocabulary of the statements -/

/-- Globals as `create_bins` sets them from a non-negative `gridSize`. -/
def Globals.WF (g : Globals) : Prop :=
  0 < g.binSize ∧ 0 ≤ g.gridSize ∧ g.binCount = toInt (g.gridSize / g.binSize) + 1

instance (g : Globals) : Decidable g.WF := by
  unfold Globals.WF; infer_instance

/-- The destination owner computed at line 280. -/
def owner (g : Globals) (n_proc : Int) (p : particle_t) : Int :=
  min ((toInt (p.x / g.binSize)).tdiv (x_bins_per_proc g.binCount n_proc)) (n_proc - 1)

/-- Lines 280-287 send a copy of `p` to rank `r`: as its owner, as the rank
before the owner, or as the rank after the owner. -/
def receives (g : Globals) (n_proc r : Int) (p : particle_t) : Bool :=
  let x := toInt (p.x / g.binSize)
  let w := x_bins_per_proc g.binCount n_proc
  let who := min (x.tdiv w) (n_proc - 1)
  decide (r = who) || decide (r = who - 1 ∧ x.tmod w = 0 ∧ who ≠ 0) ||
    decide (r = who + 1 ∧ x.tmod w = w - 1 ∧ who ≠ n_proc - 1)

/-- Lines 203-205: the moved particle `p` is still in bin `(i, j)`. -/
def stays (g : Globals) (s e i j : Int) (p : particle_t) : Bool :=
  decide ((s ≤ toInt (p.x / g.binSize) ∧ toInt (p.x / g.binSize) < e) ∧
    (toInt (p.x / g.binSize) = i ∧ toInt (p.y / g.binSize) = j))

/-- Lines 203-208: the moved particle `p` left bin `(i, j)` for another bin
of the rows `[s, e)`. -/
def movesLocal (g : Globals) (s e i j : Int) (p : particle_t) : Bool :=
  decide ((s ≤ toInt (p.x / g.binSize) ∧ toInt (p.x / g.binSize) < e) ∧
    ¬ (toInt (p.x / g.binSize) = i ∧ toInt (p.y / g.binSize) = j))

/-- Lines 210-212: the moved particle `p` left the rows `[s, e)`. -/
def movesRemote (g : Globals) (s e : Int) (p : particle_t) : Bool :=
  decide (¬ (s ≤ toInt (p.x / g.binSize) ∧ toInt (p.x / g.binSize) < e))

/-- The pairs `(i, j)` that the sweep of lines 195-196 visits, in order. -/
def sweepPairs (g : Globals) (s e : Int) : List (Int × Int) :=
  (intRange s e).flatMap (fun i => (intRange 0 g.binCount).map (fun j => (i, j)))

/-- The bin index `i * binCount + j` of the pair `(i, j)` (lines 25, 197). -/
def pairIndex (g : Globals) (ij : Int × Int) : Int := ij.1 * g.binCount + ij.2

/-- The particles held in the bins that the sweep of rows `[s, e)` visits. -/
def sweptParticles (g : Globals) (s e : Int) (bins : List bin_t) : bin_t :=
  ((sweepPairs g s e).map (fun ij => getBin bins (pairIndex g ij))).flatten

/-- The particles of row `i` of a grid, bin after bin. -/
def rowParticles (g : Globals) (bins : List bin_t) (i : Int) : bin_t :=
  ((intRange 0 g.binCount).map (fun j => getBin bins (i * g.binCount + j))).flatten

/-- Bin index `k` belongs to row `i`. -/
def inRow (g : Globals) (i k : Int) : Prop :=
  i * g.binCount ≤ k ∧ k < i * g.binCount + g.binCount

instance (g : Globals) (i k : Int) : Decidable (inRow g i k) := by
  unfold inRow; infer_instance

/-- Bin index `k` lies in a row that the ghost flush of `rank` empties:
rows `s - 1` and `s` unless `rank = 0`, rows `e` and `e - 1` unless
`rank = n_proc - 1`. -/
def flushedIdx (g : Globals) (n_proc rank s e k : Int) : Prop :=
  (rank ≠ 0 ∧ (inRow g (s - 1) k ∨ inRow g s k)) ∨
  (rank ≠ n_proc - 1 ∧ (inRow g e k ∨ inRow g (e - 1) k))

instance (g : Globals) (n_proc rank s e k : Int) : Decidable (flushedIdx g n_proc rank s e k) := by
  unfold flushedIdx; infer_instance

/-- Bin index `k` lies in an own boundary row that the ghost flush of `rank`
moves into `remote_move`: row `start` unless `rank = 0`, row `end - 1` unless
`rank = n_proc - 1`. -/
def drainedIdx (g : Globals) (n_proc rank k : Int) : Prop :=
  (rank ≠ 0 ∧ inRow g (my_bins_start g.binCount n_proc rank) k) ∨
  (rank ≠ n_proc - 1 ∧ inRow g (my_bins_end g.binCount n_proc rank - 1) k)

instance (g : Globals) (n_proc rank k : Int) : Decidable (drainedIdx g n_proc rank k) := by
  unfold drainedIdx; infer_instance

/-- Bin index `k` lies in a ghost row of `rank`: row `start - 1` unless
`rank = 0`, row `end` unless `rank = n_proc - 1`. -/
def ghostIdx (g : Globals) (n_proc rank k : Int) : Prop :=
  (rank ≠ 0 ∧ inRow g (my_bins_start g.binCount n_proc rank - 1) k) ∨
  (rank ≠ n_proc - 1 ∧ inRow g (my_bins_end g.binCount n_proc rank) k)

instance (g : Globals) (n_proc rank k : Int) : Decidable (ghostIdx g n_proc rank k) := by
  unfold ghostIdx; infer_instance

/-- The move phase changes no particle's bin membership: on every rank the
moved image of every particle of an own bin has the index of that bin. -/
def ZeroMotion (g : Globals) (move : particle_t → particle_t) (world : List (List bin_t)) :
    Prop :=
  ∀ n, n < world.length →
    ∀ ij ∈ sweepPairs g (my_bins_start g.binCount world.length n)
      (my_bins_end g.binCount world.length n),
    ∀ q ∈ getBin (world.getD n []) (pairIndex g ij), binIndex g (move q) = pairIndex g ij

instance (g : Globals) (move : particle_t → particle_t) (world : List (List bin_t)) :
    Decidable (ZeroMotion g move world) := by
  unfold ZeroMotion; infer_instance

/-- Before the step the ghost rows agree with the rows of their owners: for
neighbouring ranks `n` and `n + 1`, every bin of the last row of `n` and of
the first row of `n + 1` holds the same particles, as a multiset, in both
replicas. -/
def GhostConsistent (g : Globals) (world : List (List bin_t)) : Prop :=
  ∀ n, n < world.length - 1 →
    ∀ k ∈ intRange ((my_bins_end g.binCount world.length n - 1) * g.binCount)
      ((my_bins_end g.binCount world.length n + 1) * g.binCount),
    (getBin (world.getD n []) k).Perm (getBin (world.getD (n + 1) []) k)

instance (g : Globals) (world : List (List bin_t)) : Decidable (GhostConsistent g world) := by
  unfold GhostConsistent; infer_instance

/-- What lines 192-245 establish on one rank, from the grid `bins` before
the step to the grid `bins3` and the `remote_move` buffer `rm` after the
ghost flush; `bins2` is the grid after the reinsertion of the local movers
and `rm0` the buffer before the flush. -/
def LocalOutcome (g : Globals) (move : particle_t → particle_t) (n_proc rank : Int)
    (bins bins3 : List bin_t) (rm : bin_t) : Prop :=
  ∃ bins2 rm0,
    bins2.length = bins.length ∧
    (∀ k, k ∉ (sweepPairs g (my_bins_start g.binCount n_proc rank)
        (my_bins_end g.binCount n_proc rank)).map (pairIndex g) →
      getBin bins2 k = getBin bins k) ∧
    (∀ k, k ∈ (sweepPairs g (my_bins_start g.binCount n_proc rank)
        (my_bins_end g.binCount n_proc rank)).map (pairIndex g) →
      (getBin bins2 k).Perm
        (((sweptParticles g (my_bins_start g.binCount n_proc rank)
          (my_bins_end g.binCount n_proc rank) bins).map move).filter
            (fun p => binIndex g p = k))) ∧
    rm0.Perm (((sweptParticles g (my_bins_start g.binCount n_proc rank)
      (my_bins_end g.binCount n_proc rank) bins).map move).filter
        (movesRemote g (my_bins_start g.binCount n_proc rank)
          (my_bins_end g.binCount n_proc rank))) ∧
    (sweptParticles g (my_bins_start g.binCount n_proc rank)
      (my_bins_end g.binCount n_proc rank) bins2 ++ rm0).Perm
      ((sweptParticles g (my_bins_start g.binCount n_proc rank)
        (my_bins_end g.binCount n_proc rank) bins).map move) ∧
    bins3.length = bins.length ∧
    (∀ k, getBin bins3 k =
      if flushedIdx g n_proc rank (my_bins_start g.binCount n_proc rank)
        (my_bins_end g.binCount n_proc rank) k then [] else getBin bins2 k) ∧
    rm = rm0 ++
      (if rank ≠ 0 then rowParticles g bins2 (my_bins_start g.binCount n_proc rank) else []) ++
      (if rank ≠ n_proc - 1 ∧ ¬ (rank ≠ 0 ∧
          my_bins_end g.binCount n_proc rank - 1 = my_bins_start g.binCount n_proc rank)
        then rowParticles g bins2 (my_bins_end g.binCount n_proc rank - 1) else [])

/-- The state before a step, as far as the step needs it: every replica
has `binCount * binCount` bins and `move` keeps the particles of the own rows
of every rank inside the domain. -/
def StepReady (g : Globals) (move : particle_t → particle_t) (world : List (List bin_t)) :
    Prop :=
  ∀ n, n < world.length →
    ((world.getD n []).length : Int) = g.binCount * g.binCount ∧
    ∀ q ∈ sweptParticles g (my_bins_start g.binCount world.length n)
      (my_bins_end g.binCount world.length n) (world.getD n []), inDomain g (move q)

instance (g : Globals) (move : particle_t → particle_t) (world : List (List bin_t)) :
    Decidable (StepReady g move world) := by
  unfold StepReady; infer_instance

/-- Every particle stored in a bin `(i, j)` of the grid has the bin
coordinates `⌊x / binSize⌋ = i` and `⌊y / binSize⌋ = j`. -/
def BinMembership (g : Globals) (bins : List bin_t) : Prop :=
  ∀ i ∈ intRange 0 g.binCount, ∀ j ∈ intRange 0 g.binCount,
    ∀ p ∈ getBin bins (i * g.binCount + j),
      ⌊p.x / g.binSize⌋ = i ∧ ⌊p.y / g.binSize⌋ = j

instance (g : Globals) (bins : List bin_t) : Decidable (BinMembership g bins) := by
  unfold BinMembership; infer_instance

/-- The per-step averages `rdavg / rnavg` of the steps with `rnavg ≠ 0`. -/
def stepAverages (steps : List Reduced) : List ℚ :=
  (steps.filter (fun r => decide (r.rnavg ≠ 0))).map (fun r => r.rdavg / r.rnavg)

/-- The particle with its acceleration set to zero (line 29). -/
def zeroed (p : particle_t) : particle_t := { p with ax := 0, ay := 0 }

/-- The calls of the loops of lines 38-41 for a neighbour bin `idx2` with
`m` particles and a centre bin with `n` particles, in order: the triple
`(k, idx2, l)` stands for the call on `vec[k]` and `vec2[l]`. -/
def pairCalls (n m : Nat) (idx2 : Int) : List (Nat × Int × Nat) :=
  (List.range n).flatMap (fun k => (List.range m).map (fun l => (k, idx2, l)))

/-- The calls made for the stencil offset `d = (dx, dy)` at bin `(i, j)`:
none when the neighbour is clipped (line 37). -/
def cellCalls (g : Globals) (bins : List bin_t) (i j : Int) (d : Int × Int) :
    List (Nat × Int × Nat) :=
  if i + d.1 ≥ 0 ∧ i + d.1 < g.binCount ∧ j + d.2 ≥ 0 ∧ j + d.2 < g.binCount then
    pairCalls (getBin bins (i * g.binCount + j)).length
      (getBin bins ((i + d.1) * g.binCount + j + d.2)).length ((i + d.1) * g.binCount + j + d.2)
  else []

/-- The nine stencil offsets in the order of the loops of lines 34-36. -/
def stencilOffsets : List (Int × Int) :=
  (intRange (-1) 2).flatMap (fun dx => (intRange (-1) 2).map (fun dy => (dx, dy)))

/-- The calls of `apply_force` at bin `(i, j)`, in order. -/
def stencilCalls (g : Globals) (bins : List bin_t) (i j : Int) : List (Nat × Int × Nat) :=
  stencilOffsets.flatMap (cellCalls g bins i j)

/-! ## Sample data -/

/-- Sample globals: `binSize = 1`, `gridSize = 2`, `binCount = 3`. -/
def g3 : Globals := ⟨1, 2, 3⟩

/-- A particle at rest at `(x, y)`. -/
def pt (x y : ℚ) : particle_t := ⟨x, y, 0, 0, 0, 0⟩

/-- The globals of a run with `n = 1`: `binSize = 0.01`, `gridSize` close to
`sqrt(0.0005)`, `binCount = 3`. -/
def g1 : Globals := ⟨_cutoff, 2236 / 100000, 3⟩

/-- The grid of a run with `n = 1`, the particle at `(0.005, 0.015)`. -/
def grid1 : List bin_t := [[], [pt (5 / 1000) (15 / 1000)], [], [], [], [], [], [], []]

/-- A 3 x 3 grid for `g3` with particles in rows 0, 1 and 2. -/
def grid3 : List bin_t :=
  [[pt 0 0], [], [], [pt 1 0, pt (3 / 2) (1 / 2)], [], [], [], [pt 2 1], [pt 2 2]]

/-- A sample motion law for `g3`: the reflection `x ↦ 2 - x` of the domain. -/
def flipX (p : particle_t) : particle_t := { p with x := 2 - p.x }

/-- A sample motion law that changes the velocity and leaves the position. -/
def speedUp (p : particle_t) : particle_t := { p with vx := p.vx + 1 }

/-- A sample motion law for `g1`: a jump by `0.016` along `x`. -/
def jumpX (p : particle_t) : particle_t := { p with x := p.x + 16 / 1000 }

/-- Reduced values of a run of three steps; the second has no interacting
pair. -/
def sampleSteps : List Reduced := [⟨3 / 2, 2, 1 / 2⟩, ⟨0, 0, 1⟩, ⟨1, 4, 3 / 4⟩]

/-- A sample force law: it adds the distance along `x` to `ax` and counts the
call in `navg`. -/
def sampleForce (p q : particle_t) (s : Stats) : particle_t × Stats :=
  ({ p with ax := p.ax + (q.x - p.x) }, { s with navg := s.navg + 1 })

instance {α : Type} [DecidableEq α] : DecidableEq (Except Fault α) := fun a b =>
  match a, b with
  | .ok x, .ok y => if h : x = y then isTrue (by rw [h]) else isFalse (fun h' => h (by cases h'; rfl))
  | .error x, .error y =>
    if h : x = y then isTrue (by rw [h]) else isFalse (fun h' => h (by cases h'; rfl))
  | .ok _, .error _ => isFalse (fun h => by cases h)
  | .error _, .ok _ => isFalse (fun h => by cases h)

/-! ## Arithmetic of the partition -/

theorem x_bins_per_proc_eq (binCount n_proc : Int) (hb : 0 ≤ binCount) (hp : 0 ≤ n_proc) :
    x_bins_per_proc binCount n_proc = binCount / n_proc := by
  unfold x_bins_per_proc
  exact Int.tdiv_eq_ediv hb hp

theorem x_bins_per_proc_nonneg (binCount n_proc : Int) (hb : 0 ≤ binCount) (hp : 0 ≤ n_proc) :
    0 ≤ x_bins_per_proc binCount n_proc := by
  rw [x_bins_per_proc_eq _ _ hb hp]
  exact Int.ediv_nonneg hb hp

theorem x_bins_per_proc_mul_le (binCount n_proc : Int) (hb : 0 ≤ binCount) (hp : 1 ≤ n_proc) :
    x_bins_per_proc binCount n_proc * n_proc ≤ binCount := by
  rw [x_bins_per_proc_eq _ _ hb (by omega)]
  exact Int.ediv_mul_le _ (by omega)

/-- A row below `w * (r + 1)` and at least `w * r` has quotient `r`. -/
theorem ediv_eq_of_between (w r x : Int) (hw : 0 < w) (h1 : w * r ≤ x) (h2 : x < w * (r + 1)) :
    x / w = r := by
  have ha : r ≤ x / w := by
    rw [Int.le_ediv_iff_mul_le hw]; linarith [mul_comm w r]
  have hb : x / w < r + 1 := by
    rw [Int.ediv_lt_iff_lt_mul hw]; linarith [mul_comm w (r + 1)]
  omega

theorem mul_ediv_le_self (w x : Int) (hw : 0 < w) : w * (x / w) ≤ x := by
  have := Int.ediv_mul_le x (ne_of_gt hw)
  linarith [mul_comm w (x / w)]

theorem lt_mul_ediv_succ (w x : Int) (hw : 0 < w) : x < w * (x / w + 1) := by
  have := Int.lt_ediv_add_one_mul_self x hw
  linarith [mul_comm w (x / w + 1)]

/-- For a positive `x_bins_per_proc`, the rank whose range holds row `x` is
`min (x / x_bins_per_proc) (n_proc - 1)`. -/
theorem inRange_iff_owner (binCount n_proc r x : Int) (hp : 1 ≤ n_proc)
    (hw : 0 < x_bins_per_proc binCount n_proc) (hb : 0 ≤ binCount)
    (hr : 0 ≤ r ∧ r < n_proc) (hx : 0 ≤ x ∧ x < binCount) :
    inRange binCount n_proc r x ↔ r = min (x / x_bins_per_proc binCount n_proc) (n_proc - 1) := by
  unfold inRange my_bins_start my_bins_end
  have hle := x_bins_per_proc_mul_le binCount n_proc hb hp
  generalize x_bins_per_proc binCount n_proc = w at hw hle ⊢
  by_cases hlast : r = n_proc - 1
  · subst hlast
    simp only [if_true]
    constructor
    · rintro ⟨h1, _⟩
      have : n_proc - 1 ≤ x / w := by
        rw [Int.le_ediv_iff_mul_le hw]; linarith [mul_comm w (n_proc - 1)]
      omega
    · intro h
      have h1 : n_proc - 1 ≤ x / w := by omega
      rw [Int.le_ediv_iff_mul_le hw] at h1
      exact ⟨by linarith [mul_comm w (n_proc - 1)], hx.2⟩
  · simp only [if_neg hlast]
    constructor
    · rintro ⟨h1, h2⟩
      have := ediv_eq_of_between w r x hw h1 h2
      omega
    · intro h
      have h1 : r = x / w := by omega
      rw [h1]
      exact ⟨mul_ediv_le_self w x hw, lt_mul_ediv_succ w x hw⟩

/-- When `x_bins_per_proc` is zero only the last rank has rows. -/
theorem inRange_iff_last (binCount n_proc r x : Int)
    (hw : x_bins_per_proc binCount n_proc = 0)
    (hx : 0 ≤ x ∧ x < binCount) :
    inRange binCount n_proc r x ↔ r = n_proc - 1 := by
  unfold inRange my_bins_start my_bins_end
  rw [hw]
  by_cases hlast : r = n_proc - 1
  · simp only [hlast, if_true]; constructor
    · intro _; trivial
    · intro _; exact ⟨by omega, hx.2⟩
  · simp only [if_neg hlast]; constructor
    · rintro ⟨h1, h2⟩; omega
    · intro h; exact absurd h hlast

/-- Every range lies inside `[0, binCount)`. -/
theorem inRange_bounds (binCount n_proc r x : Int) (hb : 0 ≤ binCount) (hp : 1 ≤ n_proc)
    (hr : 0 ≤ r ∧ r < n_proc) (h : inRange binCount n_proc r x) : 0 ≤ x ∧ x < binCount := by
  unfold inRange my_bins_start my_bins_end at h
  have hle := x_bins_per_proc_mul_le binCount n_proc hb hp
  have hw := x_bins_per_proc_nonneg binCount n_proc hb (by omega)
  generalize x_bins_per_proc binCount n_proc = w at hw hle h
  have h0 : 0 ≤ w * r := mul_nonneg hw hr.1
  refine ⟨by omega, ?_⟩
  by_cases hlast : r = n_proc - 1
  · rw [if_pos hlast] at h; exact h.2
  · rw [if_neg hlast] at h
    have : w * (r + 1) ≤ w * n_proc := mul_le_mul_of_nonneg_left (by omega) hw
    linarith [h.2]

/-! ## C1: the partition tiles the rows -/

/-- C1: for every `binCount ≥ 0` and `n_proc ≥ 1` the row ranges of the ranks
`0 .. n_proc - 1` tile `[0, binCount)` exactly once: every row belongs to the
range of exactly one rank, and no range holds a row outside `[0, binCount)`. -/
theorem partition_tiles_rows (binCount n_proc : Int) (hb : 0 ≤ binCount) (hp : 1 ≤ n_proc) :
    (∀ x, 0 ≤ x → x < binCount →
      ∃! r, (0 ≤ r ∧ r < n_proc) ∧ inRange binCount n_proc r x) ∧
    (∀ r x, 0 ≤ r → r < n_proc → inRange binCount n_proc r x → 0 ≤ x ∧ x < binCount) := by
  refine ⟨?_, fun r x h0 h1 h => inRange_bounds binCount n_proc r x hb hp ⟨h0, h1⟩ h⟩
  intro x hx0 hx1
  have hw := x_bins_per_proc_nonneg binCount n_proc hb (by omega)
  rcases eq_or_lt_of_le hw with hz | hpos
  · refine ⟨n_proc - 1, ⟨⟨by omega, by omega⟩, ?_⟩, ?_⟩
    · exact (inRange_iff_last binCount n_proc _ x hz.symm ⟨hx0, hx1⟩).2 rfl
    · rintro r ⟨_, hr⟩
      exact (inRange_iff_last binCount n_proc r x hz.symm ⟨hx0, hx1⟩).1 hr
  · have hq : 0 ≤ x / x_bins_per_proc binCount n_proc := Int.ediv_nonneg hx0 hw
    have hmin : 0 ≤ min (x / x_bins_per_proc binCount n_proc) (n_proc - 1) ∧
        min (x / x_bins_per_proc binCount n_proc) (n_proc - 1) < n_proc := by
      constructor
      · exact le_min hq (by omega)
      · have := min_le_right (x / x_bins_per_proc binCount n_proc) (n_proc - 1)
        omega
    refine ⟨min (x / x_bins_per_proc binCount n_proc) (n_proc - 1), ⟨hmin, ?_⟩, ?_⟩
    · exact (inRange_iff_owner binCount n_proc _ x hp hpos hb hmin ⟨hx0, hx1⟩).2 rfl
    · rintro r ⟨hr, hin⟩
      exact (inRange_iff_owner binCount n_proc r x hp hpos hb hr ⟨hx0, hx1⟩).1 hin

/-- C1 at `binCount = 5`, `n_proc = 2`. -/
theorem partition_tiles_rows_witness :
    (0 : Int) ≤ 5 ∧ (1 : Int) ≤ 2 ∧
    ((∀ x, 0 ≤ x → x < 5 → ∃! r, (0 ≤ r ∧ r < 2) ∧ inRange 5 2 r x) ∧
     (∀ r x, 0 ≤ r → r < 2 → inRange 5 2 r x → 0 ≤ x ∧ x < 5)) :=
  ⟨by decide, by decide, partition_tiles_rows 5 2 (by decide) (by decide)⟩

/-! ## Truncation and bin coordinates -/

theorem toInt_eq_floor (q : ℚ) (h : 0 ≤ q) : toInt q = ⌊q⌋ := by
  unfold toInt
  rw [Rat.floor_def, Int.tdiv_eq_ediv (Rat.num_nonneg.2 h) (by positivity)]

theorem toInt_nonneg (q : ℚ) (h : 0 ≤ q) : 0 ≤ toInt q := by
  rw [toInt_eq_floor q h]; exact Int.floor_nonneg.2 h

theorem toInt_mono (a b : ℚ) (ha : 0 ≤ a) (hab : a ≤ b) : toInt a ≤ toInt b := by
  rw [toInt_eq_floor a ha, toInt_eq_floor b (le_trans ha hab)]
  exact Int.floor_le_floor hab

theorem WF_binCount_pos (g : Globals) (hg : g.WF) : 1 ≤ g.binCount := by
  obtain ⟨hbs, hgs, hbc⟩ := hg
  have := toInt_nonneg (g.gridSize / g.binSize) (div_nonneg hgs hbs.le)
  omega

/-- A coordinate in `[0, gridSize]` has its bin coordinate in `[0, binCount)`. -/
theorem coord_bounds (g : Globals) (hg : g.WF) (c : ℚ) (h0 : 0 ≤ c) (h1 : c ≤ g.gridSize) :
    0 ≤ toInt (c / g.binSize) ∧ toInt (c / g.binSize) < g.binCount := by
  obtain ⟨hbs, _, hbc⟩ := hg
  refine ⟨toInt_nonneg _ (div_nonneg h0 hbs.le), ?_⟩
  have := toInt_mono (c / g.binSize) (g.gridSize / g.binSize) (div_nonneg h0 hbs.le)
    (div_le_div_of_nonneg_right h1 hbs.le)
  omega

/-- The bin index of a particle of the domain lies in `[0, binCount * binCount)`. -/
theorem binIndex_bounds (g : Globals) (hg : g.WF) (p : particle_t) (hp : inDomain g p) :
    0 ≤ binIndex g p ∧ binIndex g p < g.binCount * g.binCount := by
  obtain ⟨hx0, hy0, hx1, hy1⟩ := hp
  obtain ⟨hr0, hr1⟩ := coord_bounds g hg p.x hx0 hx1
  obtain ⟨hc0, hc1⟩ := coord_bounds g hg p.y hy0 hy1
  unfold binIndex
  constructor
  · have := mul_nonneg hr0 (le_trans hr0 hr1.le)
    omega
  · have h1 : (toInt (p.x / g.binSize) + 1) * g.binCount ≤ g.binCount * g.binCount :=
      mul_le_mul_of_nonneg_right (by omega) (by omega)
    linarith

/-! ## Loops -/

/-- Hoare rule for `forEach`: an invariant indexed by the processed prefix. -/
theorem forEach_rule {α σ : Type} (body : α → σ → Except Fault σ)
    (Inv : List α → σ → Prop) (l : List α) (st : σ) (h0 : Inv [] st)
    (hstep : ∀ pre v post s, l = pre ++ v :: post → Inv pre s →
      ∃ s', body v s = .ok s' ∧ Inv (pre ++ [v]) s') :
    ∃ s', forEach body l st = .ok s' ∧ Inv l s' := by
  induction l generalizing Inv st with
  | nil => exact ⟨st, rfl, h0⟩
  | cons v vs ih =>
    obtain ⟨s1, hs1, hinv1⟩ := hstep [] v vs st rfl h0
    have := ih (fun pre s => Inv (v :: pre) s) s1 hinv1 (by
      intro pre v' post s hl hi
      exact hstep (v :: pre) v' post s (by rw [hl]; rfl) hi)
    obtain ⟨s', hs', hinv'⟩ := this
    exact ⟨s', by simp only [forEach, hs1, hs'], hinv'⟩

theorem forEach_append {α σ : Type} (body : α → σ → Except Fault σ) (l1 l2 : List α)
    (st st1 : σ) (h : forEach body l1 st = .ok st1) :
    forEach body (l1 ++ l2) st = forEach body l2 st1 := by
  induction l1 generalizing st with
  | nil => simp only [forEach] at h; cases h; rfl
  | cons v vs ih =>
    simp only [forEach, List.cons_append] at h ⊢
    cases hb : body v st with
    | error e => rw [hb] at h; cases h
    | ok s1 => rw [hb] at h; exact ih s1 h

theorem mem_intRange (lo hi v : Int) : v ∈ intRange lo hi ↔ lo ≤ v ∧ v < hi := by
  unfold intRange
  simp only [List.mem_map, List.mem_range]
  constructor
  · rintro ⟨n, hn, rfl⟩; omega
  · rintro ⟨h1, h2⟩; exact ⟨(v - lo).toNat, by omega, by omega⟩

theorem nodup_intRange (lo hi : Int) : (intRange lo hi).Nodup := by
  unfold intRange
  exact (List.nodup_range _).map (fun a b h => by simpa using h)

/-! ## Reading and writing bins -/

theorem getBin_set (bins : List bin_t) (idx k : Int) (b : bin_t)
    (h : 0 ≤ idx ∧ idx < bins.length) :
    getBin (bins.set idx.toNat b) k = if k = idx then b else getBin bins k := by
  unfold getBin
  by_cases hk : 0 ≤ k
  · simp only [hk, if_true, List.getD_eq_getElem?_getD]
    by_cases hki : k = idx
    · subst hki
      rw [if_pos rfl, List.getElem?_set_self (by omega)]; rfl
    · rw [if_neg hki, List.getElem?_set_ne (by omega)]
  · simp only [hk, if_false]
    have : k ≠ idx := by omega
    rw [if_neg this]

theorem getBin_eq_getD (bins : List bin_t) (idx : Int) (h : 0 ≤ idx) :
    bins.getD idx.toNat [] = getBin bins idx := by
  unfold getBin; rw [if_pos h]

theorem getBin_replicate (n : Nat) (k : Int) : getBin (List.replicate n []) k = [] := by
  unfold getBin
  split
  · rw [List.getD_eq_getElem?_getD, List.getElem?_replicate]
    split <;> rfl
  · rfl

/-- Two grids of one length with the same bin at every index are equal. -/
theorem grid_ext (a b : List bin_t) (hlen : a.length = b.length)
    (h : ∀ k : Int, getBin a k = getBin b k) : a = b := by
  apply List.ext_getElem hlen
  intro n h1 h2
  have := h (n : Int)
  unfold getBin at this
  simp only [Int.natCast_nonneg, if_true, Int.toNat_ofNat] at this
  rwa [List.getD_eq_getElem _ _ h1, List.getD_eq_getElem _ _ h2] at this

theorem push_back_at_ok (bins : List bin_t) (idx : Int) (p : particle_t)
    (h : 0 ≤ idx ∧ idx < bins.length) :
    push_back_at bins idx p = .ok (bins.set idx.toNat (getBin bins idx ++ [p])) := by
  unfold push_back_at
  rw [if_pos h, getBin_eq_getD bins idx h.1]

theorem getBin_push (bins : List bin_t) (idx k : Int) (p : particle_t)
    (h : 0 ≤ idx ∧ idx < bins.length) :
    getBin (bins.set idx.toNat (getBin bins idx ++ [p])) k =
      getBin bins k ++ (if k = idx then [p] else []) := by
  rw [getBin_set bins idx k _ h]
  by_cases hk : k = idx
  · simp only [hk, if_true]
  · simp only [hk, if_false, List.append_nil]

theorem owner_bounds (g : Globals) (n_proc : Int) (p : particle_t) (hP : 1 ≤ n_proc)
    (hw : 1 ≤ x_bins_per_proc g.binCount n_proc) (hx : 0 ≤ toInt (p.x / g.binSize)) :
    0 ≤ owner g n_proc p ∧ owner g n_proc p < n_proc := by
  unfold owner
  have h1 : 0 ≤ (toInt (p.x / g.binSize)).tdiv (x_bins_per_proc g.binCount n_proc) := by
    rw [Int.tdiv_eq_ediv hx (by omega)]
    exact Int.ediv_nonneg hx (by omega)
  constructor
  · exact le_min h1 (by omega)
  · have := min_le_right ((toInt (p.x / g.binSize)).tdiv (x_bins_per_proc g.binCount n_proc))
      (n_proc - 1)
    omega

/-- A guarded `push_back` inside the vector succeeds and appends to one bin. -/
theorem cond_push_spec (c : Prop) [Decidable c] (sp : List bin_t) (idx : Int) (p : particle_t)
    (h : c → 0 ≤ idx ∧ idx < sp.length) :
    ∃ sp', (if c then push_back_at sp idx p else .ok sp) = .ok sp' ∧
      sp'.length = sp.length ∧
      ∀ k, getBin sp' k = getBin sp k ++ (if c ∧ k = idx then [p] else []) := by
  by_cases hc : c
  · refine ⟨_, by rw [if_pos hc, push_back_at_ok sp idx p (h hc)], List.length_set _ _ _, ?_⟩
    intro k
    rw [getBin_push sp idx k p (h hc)]
    simp only [hc, true_and]
  · exact ⟨sp, by rw [if_neg hc], rfl, fun k => by simp only [hc, false_and, if_false,
      List.append_nil]⟩

theorem route_particle_ok (g : Globals) (n_proc : Int) (p : particle_t) (sp : List bin_t)
    (hP : 1 ≤ n_proc) (hlen : (sp.length : Int) = n_proc)
    (hw : 1 ≤ x_bins_per_proc g.binCount n_proc) (hbs : 0 < g.binSize) (hdom : inDomain g p) :
    ∃ sp', route_particle g n_proc (x_bins_per_proc g.binCount n_proc) p sp = .ok sp' ∧
      sp'.length = sp.length ∧
      ∀ r, getBin sp' r = getBin sp r ++ (if receives g n_proc r p then [p] else []) := by
  have hx : 0 ≤ toInt (p.x / g.binSize) := toInt_nonneg _ (div_nonneg hdom.1 hbs.le)
  obtain ⟨ho0, ho1⟩ := owner_bounds g n_proc p hP hw hx
  unfold route_particle
  unfold inDomain at hdom
  simp only [hdom, not_true_eq_false, if_false, and_self]
  rw [if_neg (by omega)]
  unfold owner at ho0 ho1
  dsimp only [receives]
  generalize hwho : min ((toInt (p.x / g.binSize)).tdiv (x_bins_per_proc g.binCount n_proc))
    (n_proc - 1) = who at ho0 ho1 ⊢
  generalize (toInt (p.x / g.binSize)).tmod (x_bins_per_proc g.binCount n_proc) = row
  generalize x_bins_per_proc g.binCount n_proc = w
  have hb0 : 0 ≤ who ∧ who < (sp.length : Int) := by omega
  rw [push_back_at_ok sp who p hb0]
  have hl1 : (sp.set who.toNat (getBin sp who ++ [p])).length = sp.length := List.length_set _ _ _
  obtain ⟨sp2, h2, hl2, hg2⟩ := cond_push_spec (row = 0 ∧ who ≠ 0)
    (sp.set who.toNat (getBin sp who ++ [p])) (who - 1) p (by intro hc; rw [hl1]; omega)
  obtain ⟨sp3, h3, hl3, hg3⟩ := cond_push_spec (row = w - 1 ∧ who ≠ n_proc - 1)
    sp2 (who + 1) p (by intro hc; rw [hl2, hl1]; omega)
  refine ⟨sp3, ?_, by rw [hl3, hl2, hl1], ?_⟩
  · simp only [h2, h3]
  · intro r
    rw [hg3, hg2, getBin_push sp who r p hb0, List.append_assoc, List.append_assoc]
    congr 1
    by_cases h1 : r = who
    · have e1 : ¬ (who = who - 1) := by omega
      have e2 : ¬ (who = who + 1) := by omega
      simp [h1, e1, e2]
    · by_cases h2 : r = who - 1
      · have e2 : ¬ (who - 1 = who + 1) := by omega
        have e3 : ¬ (who - 1 = who) := by omega
        simp [h2, e2, e3]
      · by_cases h3 : r = who + 1
        · have e3 : ¬ (who + 1 = who) := by omega
          have e4 : ¬ (who + 1 = who - 1) := by omega
          simp [h3, e3, e4]
        · simp [h1, h2, h3]

theorem root_redistribute_ok (g : Globals) (n_proc : Int) (incoming : bin_t)
    (hP : 1 ≤ n_proc) (hw : 1 ≤ x_bins_per_proc g.binCount n_proc) (hbs : 0 < g.binSize)
    (hdom : ∀ p ∈ incoming, inDomain g p) :
    ∃ sp, root_redistribute g n_proc incoming = .ok sp ∧ (sp.length : Int) = n_proc ∧
      ∀ r, getBin sp r = incoming.filter (receives g n_proc r) := by
  unfold root_redistribute
  apply forEach_rule _ (fun pre sp => (sp.length : Int) = n_proc ∧
      ∀ r, getBin sp r = pre.filter (receives g n_proc r))
  · refine ⟨by rw [List.length_replicate]; omega, fun r => ?_⟩
    rw [getBin_replicate]; rfl
  · rintro pre v post sp hl ⟨hlen, hget⟩
    obtain ⟨sp', h1, h2, h3⟩ := route_particle_ok g n_proc v sp hP hlen hw hbs
      (hdom v (by rw [hl]; simp))
    refine ⟨sp', h1, by rw [h2]; exact hlen, fun r => ?_⟩
    rw [h3, hget, List.filter_append]
    congr 1
    by_cases hr : receives g n_proc r v = true
    · simp [hr]
    · simp [hr]

theorem root_redistribute_abort (g : Globals) (n_proc : Int) (incoming : bin_t)
    (sp : List bin_t) (hP : 1 ≤ n_proc) (hlen : (sp.length : Int) = n_proc)
    (hw : 1 ≤ x_bins_per_proc g.binCount n_proc) (hbs : 0 < g.binSize)
    (hbad : ∃ p ∈ incoming, ¬ inDomain g p) :
    forEach (route_particle g n_proc (x_bins_per_proc g.binCount n_proc)) incoming sp =
      .error .assertFailed := by
  induction incoming generalizing sp with
  | nil => obtain ⟨p, hp, _⟩ := hbad; cases hp
  | cons v vs ih =>
    by_cases hv : inDomain g v
    · obtain ⟨sp', h1, h2, _⟩ := route_particle_ok g n_proc v sp hP hlen hw hbs hv
      simp only [forEach, h1]
      apply ih sp' (by rw [h2]; exact hlen)
      obtain ⟨p, hp, hpb⟩ := hbad
      rcases List.mem_cons.1 hp with rfl | hp'
      · exact absurd hv hpb
      · exact ⟨p, hp', hpb⟩
    · have : route_particle g n_proc (x_bins_per_proc g.binCount n_proc) v sp =
          .error .assertFailed := by
        unfold route_particle
        unfold inDomain at hv
        simp only [hv, not_false_eq_true, if_true]
      simp only [forEach, this]

theorem receives_owner (g : Globals) (n_proc : Int) (p : particle_t) :
    receives g n_proc (owner g n_proc p) p = true := by
  simp [receives, owner]

/-- The owner of a gathered particle of the domain is the rank whose range
holds its row. -/
theorem owner_inRange (g : Globals) (n_proc : Int) (p : particle_t) (hP : 1 ≤ n_proc)
    (hw : 1 ≤ x_bins_per_proc g.binCount n_proc)
    (hx : 0 ≤ toInt (p.x / g.binSize) ∧ toInt (p.x / g.binSize) < g.binCount) (r : Int)
    (hr : 0 ≤ r ∧ r < n_proc) :
    inRange g.binCount n_proc r (toInt (p.x / g.binSize)) ↔ r = owner g n_proc p := by
  rw [inRange_iff_owner g.binCount n_proc r _ hP (by omega) (by omega) hr hx]
  unfold owner
  rw [Int.tdiv_eq_ediv hx.1 (by omega)]

/-! ## C3: owner routing -/

/-- C3, as stated, fails: a gathered particle whose row `0` lies in
`[0, binCount)` but whose `y` is negative is not appended to any rank (the
assertion of lines 277-278 aborts). -/
theorem owner_routing_counterexample :
    (0 ≤ toInt ((pt (1 / 2) (-1)).x / g3.binSize) ∧
      toInt ((pt (1 / 2) (-1)).x / g3.binSize) < g3.binCount) ∧
    1 ≤ x_bins_per_proc g3.binCount 2 ∧
    route_particle g3 2 (x_bins_per_proc g3.binCount 2) (pt (1 / 2) (-1)) [[], []] =
      .error .assertFailed := by
  refine ⟨by decide!, by decide, ?_⟩
  unfold route_particle
  rw [if_pos (by decide!)]

/-- C3 (amended): for a gathered particle that passes the domain assertion and
whose row `x` lies in `[0, binCount)`, with `x_bins_per_proc ≥ 1`, the body of
the redistribution loop succeeds, appends the particle to the list of
`who = min (x / x_bins_per_proc) (n_proc - 1)`, and `who` is the one rank
whose row range holds `x`. -/
theorem owner_routing (g : Globals) (n_proc : Int) (p : particle_t) (sp : List bin_t)
    (hP : 1 ≤ n_proc) (hlen : (sp.length : Int) = n_proc)
    (hx : 0 ≤ toInt (p.x / g.binSize) ∧ toInt (p.x / g.binSize) < g.binCount)
    (hw : 1 ≤ x_bins_per_proc g.binCount n_proc) (hbs : 0 < g.binSize)
    (hdom : inDomain g p) :
    ∃ sp', route_particle g n_proc (x_bins_per_proc g.binCount n_proc) p sp = .ok sp' ∧
      owner g n_proc p = min ((toInt (p.x / g.binSize)).tdiv
        (x_bins_per_proc g.binCount n_proc)) (n_proc - 1) ∧
      (0 ≤ owner g n_proc p ∧ owner g n_proc p < n_proc) ∧
      getBin sp' (owner g n_proc p) = getBin sp (owner g n_proc p) ++ [p] ∧
      inRange g.binCount n_proc (owner g n_proc p) (toInt (p.x / g.binSize)) ∧
      ∀ r, 0 ≤ r → r < n_proc → inRange g.binCount n_proc r (toInt (p.x / g.binSize)) →
        r = owner g n_proc p := by
  obtain ⟨sp', h1, _, h3⟩ := route_particle_ok g n_proc p sp hP hlen hw hbs hdom
  have hb := owner_bounds g n_proc p hP hw hx.1
  refine ⟨sp', h1, rfl, hb, ?_, ?_, ?_⟩
  · rw [h3, receives_owner, if_pos rfl]
  · exact (owner_inRange g n_proc p hP hw hx _ hb).2 rfl
  · intro r h0 h1 hin
    exact (owner_inRange g n_proc p hP hw hx r ⟨h0, h1⟩).1 hin

/-- C3 (amended) on a grid of 3 rows and 2 ranks, for a particle of row 1. -/
theorem owner_routing_witness :
    ∃ sp', route_particle g3 2 (x_bins_per_proc g3.binCount 2) (pt (3 / 2) 1) [[], []] =
        .ok sp' ∧
      owner g3 2 (pt (3 / 2) 1) = min ((toInt ((pt (3 / 2) 1).x / g3.binSize)).tdiv
        (x_bins_per_proc g3.binCount 2)) (2 - 1) ∧
      (0 ≤ owner g3 2 (pt (3 / 2) 1) ∧ owner g3 2 (pt (3 / 2) 1) < 2) ∧
      getBin sp' (owner g3 2 (pt (3 / 2) 1)) =
        getBin [[], []] (owner g3 2 (pt (3 / 2) 1)) ++ [pt (3 / 2) 1] ∧
      inRange g3.binCount 2 (owner g3 2 (pt (3 / 2) 1)) (toInt ((pt (3 / 2) 1).x / g3.binSize)) ∧
      ∀ r, 0 ≤ r → r < 2 →
        inRange g3.binCount 2 r (toInt ((pt (3 / 2) 1).x / g3.binSize)) →
        r = owner g3 2 (pt (3 / 2) 1) :=
  owner_routing g3 2 (pt (3 / 2) 1) [[], []] (by decide) (by decide)
    (by decide!) (by decide) (by decide!) (by decide!)

/-! ## C4: ghost duplication -/

theorem receives_prev (g : Globals) (n_proc : Int) (p : particle_t)
    (hw : 1 ≤ x_bins_per_proc g.binCount n_proc) (hx : 0 ≤ toInt (p.x / g.binSize))
    (hrow : toInt (p.x / g.binSize) = my_bins_start g.binCount n_proc (owner g n_proc p))
    (hne : owner g n_proc p ≠ 0) :
    receives g n_proc (owner g n_proc p - 1) p = true := by
  have hmod : (toInt (p.x / g.binSize)).tmod (x_bins_per_proc g.binCount n_proc) = 0 := by
    rw [Int.tmod_eq_emod hx (by omega)]
    unfold my_bins_start at hrow
    rw [hrow]
    exact Int.mul_emod_right _ _
  unfold owner at hne
  simp [receives, owner, hmod, hne]

theorem receives_next (g : Globals) (n_proc : Int) (p : particle_t)
    (hw : 1 ≤ x_bins_per_proc g.binCount n_proc) (hx : 0 ≤ toInt (p.x / g.binSize))
    (hrow : toInt (p.x / g.binSize) = my_bins_end g.binCount n_proc (owner g n_proc p) - 1)
    (hne : owner g n_proc p ≠ n_proc - 1) :
    receives g n_proc (owner g n_proc p + 1) p = true := by
  have hmod : (toInt (p.x / g.binSize)).tmod (x_bins_per_proc g.binCount n_proc) =
      x_bins_per_proc g.binCount n_proc - 1 := by
    rw [Int.tmod_eq_emod hx (by omega)]
    unfold my_bins_end at hrow
    rw [if_neg hne] at hrow
    rw [hrow]
    have : x_bins_per_proc g.binCount n_proc * (owner g n_proc p + 1) - 1 =
        (x_bins_per_proc g.binCount n_proc - 1) +
          x_bins_per_proc g.binCount n_proc * owner g n_proc p := by ring
    rw [this, Int.add_mul_emod_self_left]
    exact Int.emod_eq_of_lt (by omega) (by omega)
  unfold owner at hne
  simp [receives, owner, hmod, hne]

/-- C4: for `x_bins_per_proc ≥ 1` and a gathered particle of the domain with
owner `who`, the body of the redistribution loop succeeds; if the particle's
row is the first row of `who`'s range and `who ≠ 0`, it appends a copy to the
list of `who - 1`; if its row is the last row of `who`'s range and
`who ≠ n_proc - 1`, it appends a copy to the list of `who + 1`. -/
theorem ghost_duplication (g : Globals) (n_proc : Int) (p : particle_t) (sp : List bin_t)
    (hP : 1 ≤ n_proc) (hlen : (sp.length : Int) = n_proc)
    (hw : 1 ≤ x_bins_per_proc g.binCount n_proc) (hbs : 0 < g.binSize)
    (hdom : inDomain g p) :
    ∃ sp', route_particle g n_proc (x_bins_per_proc g.binCount n_proc) p sp = .ok sp' ∧
      (toInt (p.x / g.binSize) = my_bins_start g.binCount n_proc (owner g n_proc p) ∧
          owner g n_proc p ≠ 0 →
        getBin sp' (owner g n_proc p - 1) = getBin sp (owner g n_proc p - 1) ++ [p]) ∧
      (toInt (p.x / g.binSize) = my_bins_end g.binCount n_proc (owner g n_proc p) - 1 ∧
          owner g n_proc p ≠ n_proc - 1 →
        getBin sp' (owner g n_proc p + 1) = getBin sp (owner g n_proc p + 1) ++ [p]) := by
  obtain ⟨sp', h1, _, h3⟩ := route_particle_ok g n_proc p sp hP hlen hw hbs hdom
  have hx : 0 ≤ toInt (p.x / g.binSize) := toInt_nonneg _ (div_nonneg hdom.1 hbs.le)
  refine ⟨sp', h1, ?_, ?_⟩
  · rintro ⟨hrow, hne⟩
    rw [h3, receives_prev g n_proc p hw hx hrow hne, if_pos rfl]
  · rintro ⟨hrow, hne⟩
    rw [h3, receives_next g n_proc p hw hx hrow hne, if_pos rfl]

/-- C4 on a grid of 3 rows and 3 ranks, for a particle of row 1 (the only row
of rank 1, so that both neighbours get a copy). -/
theorem ghost_duplication_witness :
    ∃ sp', route_particle g3 3 (x_bins_per_proc g3.binCount 3) (pt (3 / 2) 1) [[], [], []] =
        .ok sp' ∧
      (toInt ((pt (3 / 2) 1).x / g3.binSize) =
            my_bins_start g3.binCount 3 (owner g3 3 (pt (3 / 2) 1)) ∧
          owner g3 3 (pt (3 / 2) 1) ≠ 0 →
        getBin sp' (owner g3 3 (pt (3 / 2) 1) - 1) =
          getBin [[], [], []] (owner g3 3 (pt (3 / 2) 1) - 1) ++ [pt (3 / 2) 1]) ∧
      (toInt ((pt (3 / 2) 1).x / g3.binSize) =
            my_bins_end g3.binCount 3 (owner g3 3 (pt (3 / 2) 1)) - 1 ∧
          owner g3 3 (pt (3 / 2) 1) ≠ 3 - 1 →
        getBin sp' (owner g3 3 (pt (3 / 2) 1) + 1) =
          getBin [[], [], []] (owner g3 3 (pt (3 / 2) 1) + 1) ++ [pt (3 / 2) 1]) :=
  ghost_duplication g3 3 (pt (3 / 2) 1) [[], [], []] (by decide) (by decide) (by decide)
    (by decide!) (by decide!)

/-! ## C9: root validation -/

/-- C9: with `x_bins_per_proc ≥ 1`, root redistribution aborts on the
assertion if and only if some gathered particle has `x < 0`, `y < 0`,
`x > gridSize` or `y > gridSize`; when every gathered particle satisfies
`0 ≤ x, y ≤ gridSize` it completes with one outgoing list per rank. -/
theorem root_validation (g : Globals) (n_proc : Int) (incoming : bin_t)
    (hP : 1 ≤ n_proc) (hw : 1 ≤ x_bins_per_proc g.binCount n_proc) (hbs : 0 < g.binSize) :
    (root_redistribute g n_proc incoming = .error .assertFailed ↔
      ∃ p ∈ incoming, p.x < 0 ∨ p.y < 0 ∨ g.gridSize < p.x ∨ g.gridSize < p.y) ∧
    ((∀ p ∈ incoming, 0 ≤ p.x ∧ 0 ≤ p.y ∧ p.x ≤ g.gridSize ∧ p.y ≤ g.gridSize) →
      ∃ sp, root_redistribute g n_proc incoming = .ok sp ∧ (sp.length : Int) = n_proc) := by
  have hok : (∀ p ∈ incoming, inDomain g p) →
      ∃ sp, root_redistribute g n_proc incoming = .ok sp ∧ (sp.length : Int) = n_proc := by
    intro h
    obtain ⟨sp, h1, h2, _⟩ := root_redistribute_ok g n_proc incoming hP hw hbs h
    exact ⟨sp, h1, h2⟩
  refine ⟨⟨?_, ?_⟩, hok⟩
  · intro herr
    by_contra hno
    have hall : ∀ p ∈ incoming, inDomain g p := by
      intro p hp
      unfold inDomain
      by_contra hbad
      apply hno
      refine ⟨p, hp, ?_⟩
      by_contra hc
      apply hbad
      simp only [not_or, not_lt] at hc
      exact ⟨hc.1, hc.2.1, hc.2.2.1, hc.2.2.2⟩
    obtain ⟨sp, h1, _⟩ := hok hall
    rw [h1] at herr
    cases herr
  · rintro ⟨p, hp, hbad⟩
    unfold root_redistribute
    apply root_redistribute_abort g n_proc incoming _ hP
      (by rw [List.length_replicate]; omega) hw hbs
    refine ⟨p, hp, ?_⟩
    unfold inDomain
    rintro ⟨h1, h2, h3, h4⟩
    rcases hbad with h | h | h | h
    · exact absurd h1 (not_le.2 h)
    · exact absurd h2 (not_le.2 h)
    · exact absurd h3 (not_le.2 h)
    · exact absurd h4 (not_le.2 h)

/-- C9 on a grid of 3 rows and 2 ranks. -/
theorem root_validation_witness :
    (root_redistribute g3 2 [pt (1 / 2) 1, pt 3 0] = .error .assertFailed ↔
      ∃ p ∈ [pt (1 / 2) 1, pt 3 0], p.x < 0 ∨ p.y < 0 ∨ g3.gridSize < p.x ∨ g3.gridSize < p.y) ∧
    ((∀ p ∈ [pt (1 / 2) 1, pt 3 0],
        0 ≤ p.x ∧ 0 ≤ p.y ∧ p.x ≤ g3.gridSize ∧ p.y ≤ g3.gridSize) →
      ∃ sp, root_redistribute g3 2 [pt (1 / 2) 1, pt 3 0] = .ok sp ∧ (sp.length : Int) = 2) :=
  root_validation g3 2 [pt (1 / 2) 1, pt 3 0] (by decide) (by decide) (by decide!)

/-! ## Counts, offsets and the flattened buffers -/

theorem getD_set_int (l : List Int) (i j : Nat) (a : Int) :
    (l.set i a).getD j 0 = if i = j ∧ j < l.length then a else l.getD j 0 := by
  simp only [List.getD_eq_getElem?_getD, List.getElem?_set]
  by_cases h : i = j
  · subst h
    by_cases h2 : i < l.length
    · simp [h2]
    · simp [h2, List.getElem?_eq_none (not_lt.1 h2)]
  · simp [h]

theorem sum_take_succ_getD (l : List Int) (i : Nat) :
    (l.take (i + 1)).sum = (l.take i).sum + l.getD i 0 := by
  by_cases h : i < l.length
  · rw [List.sum_take_succ l i h, List.getD_eq_getElem l 0 h]
  · have h' := not_lt.1 h
    rw [List.take_of_length_le (by omega), List.take_of_length_le h',
      List.getD_eq_default l 0 h', add_zero]

theorem displs_fold (counts : List Int) (P m : Nat) :
    ((List.range m).foldl
        (fun displs i => displs.set (i + 1) (displs.getD i 0 + counts.getD i 0))
        ((List.replicate P 0).set 0 0)).length = P ∧
    ∀ i, i ≤ m → i < P →
      ((List.range m).foldl
        (fun displs i => displs.set (i + 1) (displs.getD i 0 + counts.getD i 0))
        ((List.replicate P 0).set 0 0)).getD i 0 = (counts.take i).sum := by
  induction m with
  | zero =>
    refine ⟨by simp, ?_⟩
    intro i hi hP
    have : i = 0 := by omega
    subst this
    simp [getD_set_int, hP]
  | succ m ih =>
    obtain ⟨hl, hv⟩ := ih
    rw [List.range_succ, List.foldl_append]
    simp only [List.foldl_cons, List.foldl_nil]
    refine ⟨by rw [List.length_set]; exact hl, ?_⟩
    intro i hi hP
    rw [getD_set_int, hl]
    by_cases h : m + 1 = i
    · subst h
      rw [if_pos ⟨rfl, hP⟩, hv m (by omega) (by omega), sum_take_succ_getD]
    · rw [if_neg (by omega)]
      exact hv i (by omega) hP

/-- The offsets are the exclusive prefix sums of the counts. -/
theorem compute_displs_spec (counts : List Int) (P : Nat) :
    (compute_displs counts P).length = P ∧
    ∀ i, i < P → (compute_displs counts P).getD i 0 = (counts.take i).sum := by
  unfold compute_displs
  obtain ⟨hl, hv⟩ := displs_fold counts P (P - 1)
  exact ⟨hl, fun i hi => hv i (by omega) hi⟩

theorem total_num_spec (counts : List Int) (P : Nat) (hlen : counts.length = P) :
    total_num counts (compute_displs counts P) P = counts.sum := by
  unfold total_num
  rcases Nat.eq_zero_or_pos P with h0 | hpos
  · subst h0
    have : counts = [] := List.length_eq_zero.1 hlen
    subst this
    simp [compute_displs]
  · rw [(compute_displs_spec counts P).2 (P - 1) (by omega), add_comm, ← sum_take_succ_getD,
      List.take_of_length_le (by omega)]

theorem sum_take_lengths (bufs : List bin_t) (i : Nat) :
    ((bufs.map (fun b => (b.length : Int))).take i).sum =
      ((((bufs.map List.length).take i).sum : Nat) : Int) := by
  induction bufs generalizing i with
  | nil => simp
  | cons b bs ih =>
    cases i with
    | zero => simp
    | succ i => simp [ih]

theorem flatten_loop (bufs : List bin_t) (acc : bin_t) :
    bufs.foldl (fun a b => a ++ b) acc = acc ++ bufs.flatten := by
  induction bufs generalizing acc with
  | nil => simp
  | cons b bs ih => simp [ih]

theorem scatter_particles_flatten_eq (bufs : List bin_t) :
    scatter_particles_flatten bufs = bufs.flatten := by
  unfold scatter_particles_flatten
  rw [flatten_loop]; rfl

/-- The slice of the flattened buffer that `MPI_Scatterv` hands to rank `i`
is the list of rank `i`. -/
theorem scatterv_slice (bufs : List bin_t) (i : Nat) (hi : i < bufs.length) :
    MPI_Scatterv (scatter_particles_flatten bufs) (bufs.map (fun b => (b.length : Int)))
      (compute_displs (bufs.map (fun b => (b.length : Int))) bufs.length) i =
      bufs.getD i [] := by
  unfold MPI_Scatterv
  rw [(compute_displs_spec _ bufs.length).2 i hi, sum_take_lengths, Int.toNat_ofNat,
    scatter_particles_flatten_eq, List.drop_sum_flatten]
  have hc : (bufs.map (fun b => (b.length : Int))).getD i 0 = ((bufs.getD i []).length : Int) := by
    rw [List.getD_eq_getElem _ _ (by rw [List.length_map]; exact hi),
      List.getD_eq_getElem _ _ hi, List.getElem_map]
  rw [hc, Int.toNat_ofNat, List.getD_eq_getElem _ _ hi, List.drop_eq_getElem_cons hi,
    List.flatten_cons, List.take_left']
  rfl

theorem scatter_eq (bufs : List bin_t) : scatter bufs = bufs := by
  unfold scatter
  apply List.ext_getElem (by simp)
  intro n h1 h2
  rw [List.getElem_map, List.getElem_range, scatterv_slice bufs n h2,
    List.getD_eq_getElem _ _ h2]

theorem set_at_append (pre rest : bin_t) (m p : particle_t) :
    (pre ++ m :: rest).set pre.length p = pre ++ p :: rest := by
  induction pre with
  | nil => rfl
  | cons a as ih => simp only [List.cons_append, List.length_cons, List.set_cons_succ, ih]

/-- Writing `data` over a block of its own length replaces the block. -/
theorem write_block_spec (data pre mid post : bin_t) (h : mid.length = data.length) :
    write_block (pre ++ mid ++ post) pre.length data = pre ++ data ++ post := by
  induction data generalizing pre mid with
  | nil =>
    have : mid = [] := List.length_eq_zero.1 h
    subst this; rfl
  | cons p ps ih =>
    cases mid with
    | nil => cases h
    | cons m ms =>
      simp only [write_block]
      have e1 : (pre ++ m :: ms ++ post).set pre.length p = (pre ++ [p]) ++ ms ++ post := by
        rw [List.append_assoc, List.cons_append, set_at_append]; simp
      have e2 : pre.length + 1 = (pre ++ [p]).length := by simp
      rw [e1, e2, ih (pre ++ [p]) ms (by simpa using h)]
      simp

theorem sum_lengths_take_succ (bufs : List bin_t) (m : Nat) (hm : m < bufs.length) :
    ((bufs.map List.length).take (m + 1)).sum =
      ((bufs.map List.length).take m).sum + (bufs.getD m []).length := by
  rw [List.sum_take_succ _ m (by rw [List.length_map]; exact hm), List.getElem_map,
    List.getD_eq_getElem _ _ hm]

theorem sum_lengths_take_le (bufs : List bin_t) (m : Nat) :
    ((bufs.map List.length).take m).sum ≤ (bufs.map List.length).sum := by
  conv_rhs => rw [← List.take_append_drop m (bufs.map List.length), List.sum_append]
  exact Nat.le_add_right _ _

theorem gatherv_fold (bufs : List bin_t) (m : Nat) (hm : m ≤ bufs.length) :
    (List.range m).foldl
      (fun buf i => write_block buf
        ((compute_displs (bufs.map (fun b => (b.length : Int))) bufs.length).getD i 0).toNat
        ((bufs.getD i []).take ((bufs.map (fun b => (b.length : Int))).getD i 0).toNat))
      (List.replicate (bufs.map List.length).sum default) =
    (bufs.take m).flatten ++
      List.replicate ((bufs.map List.length).sum - ((bufs.map List.length).take m).sum)
        default := by
  induction m with
  | zero => simp
  | succ m ih =>
    have hm' : m < bufs.length := hm
    rw [List.range_succ, List.foldl_append, ih (by omega)]
    simp only [List.foldl_cons, List.foldl_nil]
    have hc : (bufs.map (fun b => (b.length : Int))).getD m 0 =
        ((bufs.getD m []).length : Int) := by
      rw [List.getD_eq_getElem _ _ (by rw [List.length_map]; exact hm'),
        List.getD_eq_getElem _ _ hm', List.getElem_map]
    rw [(compute_displs_spec _ bufs.length).2 m hm', sum_take_lengths, Int.toNat_ofNat, hc,
      Int.toNat_ofNat, List.take_length]
    have hsucc := sum_lengths_take_succ bufs m hm'
    have hle := sum_lengths_take_le bufs (m + 1)
    have hsplit : List.replicate ((bufs.map List.length).sum - ((bufs.map List.length).take m).sum)
        (default : particle_t) =
        List.replicate (bufs.getD m []).length default ++
          List.replicate ((bufs.map List.length).sum - ((bufs.map List.length).take (m + 1)).sum)
            default := by
      rw [← List.replicate_add]; congr 1; omega
    have hoff : ((bufs.map List.length).take m).sum = ((bufs.take m).flatten).length := by
      rw [List.length_flatten, List.map_take]
    rw [hsplit, ← List.append_assoc, hoff,
      write_block_spec (bufs.getD m []) _ _ _ (by simp)]
    congr 1
    rw [List.take_succ, List.flatten_append, List.getD_eq_getElem _ _ hm',
      List.getElem?_eq_getElem hm']
    simp

/-- The gathered `incoming_move` is the rank-ordered concatenation of the
`remote_move` buffers. -/
theorem gather_eq (bufs : List bin_t) : gather bufs = bufs.flatten := by
  unfold gather MPI_Gatherv
  have ht : total_num (bufs.map (fun b => (b.length : Int)))
      (compute_displs (bufs.map (fun b => (b.length : Int))) bufs.length) bufs.length =
      (((bufs.map List.length).sum : Nat) : Int) := by
    rw [total_num_spec _ _ (by simp)]
    have := sum_take_lengths bufs bufs.length
    rwa [List.take_of_length_le (by simp), List.take_of_length_le (by simp)] at this
  simp only [ht, Int.toNat_ofNat]
  rw [gatherv_fold bufs bufs.length le_rfl, List.take_of_length_le le_rfl,
    List.take_of_length_le (by simp)]
  simp

/-! ## C10: count-then-data exchange -/

/-- C10: for the per-rank counts of the gather and of the scatter, the offset
array is the exclusive prefix sum of the counts (`displs[0] = 0`,
`displs[i] = counts[0] + ... + counts[i-1]`) and `total_num` is the sum of
all counts; for the per-rank buffers `bufs`, the slice
`[displs[i], displs[i] + counts[i])` of the flattened rank-ordered buffer is
`bufs[i]`, so every rank receives from the scatter the list the root routed
to it, and the gathered buffer is the rank-ordered concatenation. -/
theorem count_then_data (counts : List Int) (bufs : List bin_t) :
    ((compute_displs counts counts.length).length = counts.length ∧
      (0 < counts.length → (compute_displs counts counts.length).getD 0 0 = 0) ∧
      (∀ i, i < counts.length →
        (compute_displs counts counts.length).getD i 0 = (counts.take i).sum) ∧
      total_num counts (compute_displs counts counts.length) counts.length = counts.sum) ∧
    (∀ i, i < bufs.length →
      MPI_Scatterv (scatter_particles_flatten bufs) (bufs.map (fun b => (b.length : Int)))
        (compute_displs (bufs.map (fun b => (b.length : Int))) bufs.length) i =
        bufs.getD i []) ∧
    scatter bufs = bufs ∧
    gather bufs = bufs.flatten := by
  refine ⟨⟨(compute_displs_spec counts _).1, ?_, (compute_displs_spec counts _).2,
    total_num_spec counts _ rfl⟩, scatterv_slice bufs, scatter_eq bufs, gather_eq bufs⟩
  intro h
  rw [(compute_displs_spec counts _).2 0 h]
  rfl

/-! ## Insertion into the grid -/

theorem push_particles_in_bin_eq (g : Globals) (p : particle_t) (bins : List bin_t) :
    push_particles_in_bin g p bins = push_back_at bins (binIndex g p) p := rfl

theorem create_bins_body_eq (g : Globals) (p : particle_t) (bins : List bin_t) :
    create_bins_body g p bins = push_back_at bins (binIndex g p) p := rfl

theorem flatten_set_push (bins : List bin_t) (n : Nat) (p : particle_t) (h : n < bins.length) :
    (bins.set n (bins.getD n [] ++ [p])).flatten.Perm (bins.flatten ++ [p]) := by
  induction bins generalizing n with
  | nil => cases h
  | cons b bs ih =>
    cases n with
    | zero =>
      simp only [List.set_cons_zero, List.flatten_cons, List.getD_cons_zero, List.append_assoc]
      exact List.Perm.append_left b List.perm_append_comm
    | succ n =>
      simp only [List.set_cons_succ, List.flatten_cons, List.getD_cons_succ, List.append_assoc]
      exact List.Perm.append_left b (ih n (by simpa using h))

/-- Inserting a list of particles whose bin indices are inside the grid:
every bin gains, in order, the particles that the formula sends to it. -/
theorem push_all_spec (g : Globals) (body : particle_t → List bin_t → Except Fault (List bin_t))
    (ps : bin_t) (bins : List bin_t)
    (hbody : ∀ p ∈ ps, ∀ b, body p b = push_back_at b (binIndex g p) p)
    (hidx : ∀ p ∈ ps, 0 ≤ binIndex g p ∧ binIndex g p < bins.length) :
    ∃ bins', forEach body ps bins = .ok bins' ∧ bins'.length = bins.length ∧
      (∀ k, getBin bins' k = getBin bins k ++ ps.filter (fun p => binIndex g p = k)) ∧
      bins'.flatten.Perm (bins.flatten ++ ps) := by
  have := forEach_rule body (fun pre b => b.length = bins.length ∧
      (∀ k, getBin b k = getBin bins k ++ pre.filter (fun p => binIndex g p = k)) ∧
      b.flatten.Perm (bins.flatten ++ pre)) ps bins
    ⟨rfl, fun k => by simp, by simp⟩ (by
      rintro pre v post b hl ⟨hlen, hget, hperm⟩
      have hv := hidx v (by rw [hl]; simp)
      have hb : 0 ≤ binIndex g v ∧ binIndex g v < (b.length : Int) := by rw [hlen]; exact hv
      refine ⟨_, by rw [hbody v (by rw [hl]; simp), push_back_at_ok b _ v hb], ?_, ?_, ?_⟩
      · rw [List.length_set]; exact hlen
      · intro k
        rw [getBin_push b _ k v hb, hget, List.filter_append, List.append_assoc]
        congr 2
        by_cases hk : k = binIndex g v
        · simp [hk]
        · have : ¬ (binIndex g v = k) := fun h => hk h.symm
          simp [hk, this]
      · rw [← getBin_eq_getD b _ hb.1]
        refine (flatten_set_push b _ v (by omega)).trans ?_
        rw [← List.append_assoc]
        exact List.Perm.append_right [v] hperm)
  obtain ⟨bins', h1, h2, h3, h4⟩ := this
  exact ⟨bins', h1, h2, h3, h4⟩

/-! ## C8: grid construction -/

theorem create_bins_core (gs : ℚ) (hs : 0 ≤ gs) (particles : List particle_t)
    (hdom : ∀ p ∈ particles, 0 ≤ p.x ∧ 0 ≤ p.y ∧ p.x ≤ gs ∧ p.y ≤ gs) :
    ∃ bins, forEach (create_bins_body ⟨_cutoff, gs, toInt (gs / _cutoff) + 1⟩) particles
        (List.replicate ((toInt (gs / _cutoff) + 1) * (toInt (gs / _cutoff) + 1)).toNat []) =
        .ok bins ∧
      (bins.length : Int) = (toInt (gs / _cutoff) + 1) * (toInt (gs / _cutoff) + 1) ∧
      bins.flatten.Perm particles ∧
      (∀ k, getBin bins k = particles.filter (fun p =>
        toInt (p.x / _cutoff) * (toInt (gs / _cutoff) + 1) + toInt (p.y / _cutoff) = k)) := by
  have hwf : Globals.WF ⟨_cutoff, gs, toInt (gs / _cutoff) + 1⟩ :=
    ⟨by unfold _cutoff; norm_num, hs, rfl⟩
  have hbc : 1 ≤ toInt (gs / _cutoff) + 1 := WF_binCount_pos _ hwf
  have hsq : 0 ≤ (toInt (gs / _cutoff) + 1) * (toInt (gs / _cutoff) + 1) :=
    mul_nonneg (by omega) (by omega)
  obtain ⟨bins, h1, h2, h3, h4⟩ := push_all_spec _
    (create_bins_body ⟨_cutoff, gs, toInt (gs / _cutoff) + 1⟩) particles
    (List.replicate ((toInt (gs / _cutoff) + 1) * (toInt (gs / _cutoff) + 1)).toNat [])
    (fun p _ b => create_bins_body_eq _ p b)
    (by
      intro p hp
      have := binIndex_bounds _ hwf p (hdom p hp)
      rw [List.length_replicate, Int.toNat_of_nonneg hsq]
      exact this)
  refine ⟨bins, h1, ?_, ?_, ?_⟩
  · rw [h2, List.length_replicate, Int.toNat_of_nonneg hsq]
  · simpa using h4
  · intro k
    rw [h3 k, getBin_replicate]
    rfl

theorem getD_at_append (A B : bin_t) (x d : particle_t) :
    (A ++ x :: B).getD A.length d = x := by
  rw [List.getD_eq_getElem?_getD, List.getElem?_append_right (le_refl _)]
  simp

/-- The statement `bin[k] = bin[--tail]` on the bin `pre ++ p :: U ++ post`
with `k = |pre|` and `tail = |pre| + 1 + |U|`: the segment still to visit
becomes a rearrangement of `U`. -/
theorem swap_last_state (pre U post : bin_t) (p : particle_t) :
    ∃ U2 post2,
      ((pre ++ p :: U ++ post).set pre.length
          ((pre ++ p :: U ++ post).getD (pre.length + (U.length + 1) - 1) default) =
        pre ++ U2 ++ post2 ∧ U2.length = U.length) ∧ U2.Perm U := by
  rcases List.eq_nil_or_concat U with hU | ⟨V, t, hU⟩
  · subst hU
    refine ⟨[], p :: post, ⟨?_, rfl⟩, List.Perm.refl _⟩
    have h1 : (pre ++ [p] ++ post).getD (pre.length + (([] : bin_t).length + 1) - 1) default = p := by
      simp only [List.length_nil, Nat.zero_add, Nat.add_sub_cancel, List.append_assoc,
        List.singleton_append]
      exact getD_at_append _ _ _ _
    rw [h1, List.append_assoc, List.singleton_append, set_at_append]
    simp
  · rw [List.concat_eq_append] at hU
    subst hU
    refine ⟨t :: V, t :: post, ⟨?_, by simp⟩, ?_⟩
    · have h1 : (pre ++ p :: (V ++ [t]) ++ post).getD
          (pre.length + ((V ++ [t]).length + 1) - 1) default = t := by
        have e1 : pre ++ p :: (V ++ [t]) ++ post = (pre ++ p :: V) ++ t :: post := by simp
        have e2 : pre.length + ((V ++ [t]).length + 1) - 1 = (pre ++ p :: V).length := by
          simp
        rw [e1, e2]; exact getD_at_append _ _ _ _
      rw [h1, List.append_assoc, List.cons_append, set_at_append]
      simp
    · exact (List.perm_append_singleton t V).symm

/-- The compaction loop on the segment `U` of the bin `pre ++ U ++ post`
(`k = |pre|`, `tail = |pre| + |U|`): with fuel `|U|` it ends, the kept prefix
gains the moved particles of `U` that stay, `local_move` those that move
inside the rows, `remote_move` those that leave them. -/
theorem compact_loop_spec (g : Globals) (move : particle_t → particle_t) (s e i j : Int)
    (fuel : Nat) (pre U post lm rm : bin_t) (hf : U.length ≤ fuel) :
    ∃ bin' k' lm' rm',
      compact_loop g move s e i j fuel (pre ++ U ++ post) pre.length
        (pre.length + U.length) lm rm = .ok (bin', k', lm', rm') ∧
      (bin'.take k').Perm (pre ++ (U.map move).filter (stays g s e i j)) ∧
      lm'.Perm (lm ++ (U.map move).filter (movesLocal g s e i j)) ∧
      rm'.Perm (rm ++ (U.map move).filter (movesRemote g s e)) := by
  induction fuel generalizing pre U post lm rm with
  | zero =>
    have hU : U = [] := List.length_eq_zero.1 (by omega)
    subst hU
    refine ⟨pre ++ [] ++ post, pre.length, lm, rm, ?_, ?_, ?_, ?_⟩
    · simp [compact_loop]
    · simp
    · simp
    · simp
  | succ fuel ih =>
    cases U with
    | nil =>
      refine ⟨pre ++ [] ++ post, pre.length, lm, rm, ?_, ?_, ?_, ?_⟩
      · simp [compact_loop]
      · simp
      · simp
      · simp
    | cons u U' =>
      have hlt : pre.length < pre.length + (u :: U').length := by simp
      have hget : (pre ++ u :: U' ++ post).getD pre.length default = u := by
        rw [List.append_assoc, List.cons_append]; exact getD_at_append _ _ _ _
      have hset : (pre ++ u :: U' ++ post).set pre.length (move u) =
          pre ++ move u :: U' ++ post := by
        rw [List.append_assoc, List.cons_append, set_at_append, List.append_assoc,
          List.cons_append]
      rw [compact_loop, if_pos hlt]
      simp only [hget, hset]
      by_cases hin : s ≤ toInt ((move u).x / g.binSize) ∧ toInt ((move u).x / g.binSize) < e
      · by_cases hsame : toInt ((move u).x / g.binSize) = i ∧ toInt ((move u).y / g.binSize) = j
        · -- the particle stays: `++k`
          rw [if_pos hin, if_pos hsame]
          have hst : stays g s e i j (move u) = true := decide_eq_true ⟨hin, hsame⟩
          have hlo : movesLocal g s e i j (move u) = false :=
            decide_eq_false (fun h => h.2 hsame)
          have hre : movesRemote g s e (move u) = false := decide_eq_false (fun h => h hin)
          obtain ⟨bin', k', lm', rm', h1, h2, h3, h4⟩ :=
            ih (pre ++ [move u]) U' post lm rm (by simpa using hf)
          refine ⟨bin', k', lm', rm', ?_, ?_, ?_, ?_⟩
          · rw [← h1]; simp [Nat.add_assoc, Nat.add_comm 1]
          · simpa [hst] using h2
          · simpa [hlo] using h3
          · simpa [hre] using h4
        · -- the particle moves inside the rows: swap with the last
          rw [if_pos hin, if_neg hsame]
          have hst : stays g s e i j (move u) = false := decide_eq_false (fun h => hsame h.2)
          have hlo : movesLocal g s e i j (move u) = true := decide_eq_true ⟨hin, hsame⟩
          have hre : movesRemote g s e (move u) = false := decide_eq_false (fun h => h hin)
          obtain ⟨U2, post2, hstate, hperm⟩ := swap_last_state pre U' post (move u)
          simp only [List.length_cons, Nat.add_succ_sub_one, ← Nat.add_assoc] at hstate ⊢
          obtain ⟨hb, hl2⟩ := hstate
          have hlen2 : U2.length = U'.length := hperm.length_eq
          rw [hb, ← hlen2]
          obtain ⟨bin', k', lm', rm', h1, h2, h3, h4⟩ :=
            ih pre U2 post2 (lm ++ [move u]) rm (by rw [hlen2]; simpa using hf)
          refine ⟨bin', k', lm', rm', h1, ?_, ?_, ?_⟩
          · refine h2.trans (List.Perm.append_left pre ?_)
            simpa [hst] using (hperm.map move).filter _
          · refine h3.trans ?_
            rw [List.append_assoc]
            refine List.Perm.append_left lm ?_
            simpa [hlo] using (hperm.map move).filter (movesLocal g s e i j)
          · refine h4.trans (List.Perm.append_left rm ?_)
            simpa [hre] using (hperm.map move).filter _
      · -- the particle leaves the rows: swap with the last
        rw [if_neg hin]
        have hst : stays g s e i j (move u) = false := decide_eq_false (fun h => hin h.1)
        have hlo : movesLocal g s e i j (move u) = false := decide_eq_false (fun h => hin h.1)
        have hre : movesRemote g s e (move u) = true := decide_eq_true hin
        obtain ⟨U2, post2, hstate, hperm⟩ := swap_last_state pre U' post (move u)
        simp only [List.length_cons, Nat.add_succ_sub_one, ← Nat.add_assoc] at hstate ⊢
        obtain ⟨hb, hl2⟩ := hstate
        have hlen2 : U2.length = U'.length := hperm.length_eq
        rw [hb, ← hlen2]
        obtain ⟨bin', k', lm', rm', h1, h2, h3, h4⟩ :=
          ih pre U2 post2 lm (rm ++ [move u]) (by rw [hlen2]; simpa using hf)
        refine ⟨bin', k', lm', rm', h1, ?_, ?_, ?_⟩
        · refine h2.trans (List.Perm.append_left pre ?_)
          simpa [hst] using (hperm.map move).filter _
        · refine h3.trans (List.Perm.append_left lm ?_)
          simpa [hlo] using (hperm.map move).filter _
        · refine h4.trans ?_
          rw [List.append_assoc]
          refine List.Perm.append_left rm ?_
          simpa [hre] using (hperm.map move).filter (movesRemote g s e)

theorem compact_bin_spec (g : Globals) (move : particle_t → particle_t) (s e i j : Int)
    (bins : List bin_t) (lm rm : bin_t)
    (hb : 0 ≤ i * g.binCount + j ∧ i * g.binCount + j < bins.length) :
    ∃ bin' lm' rm',
      compact_bin g move s e i j (bins, lm, rm) =
        .ok (bins.set (i * g.binCount + j).toNat bin', lm', rm') ∧
      bin'.Perm (((getBin bins (i * g.binCount + j)).map move).filter (stays g s e i j)) ∧
      lm'.Perm (lm ++ ((getBin bins (i * g.binCount + j)).map move).filter
        (movesLocal g s e i j)) ∧
      rm'.Perm (rm ++ ((getBin bins (i * g.binCount + j)).map move).filter
        (movesRemote g s e)) := by
  obtain ⟨bin', k', lm', rm', h1, h2, h3, h4⟩ := compact_loop_spec g move s e i j
    (getBin bins (i * g.binCount + j)).length [] (getBin bins (i * g.binCount + j)) [] lm rm
    le_rfl
  refine ⟨bin'.take k', lm', rm', ?_, by simpa using h2, h3, h4⟩
  unfold compact_bin
  simp only [List.nil_append, List.append_nil, List.length_nil, Nat.zero_add] at h1
  simp only [hb, and_self, if_true, getBin_eq_getD bins _ hb.1, h1]

/-! ## Loops over the bins of a grid -/

theorem forEach_append_bind {α σ : Type} (body : α → σ → Except Fault σ) (l1 l2 : List α)
    (st : σ) :
    forEach body (l1 ++ l2) st =
      match forEach body l1 st with
      | .error err => .error err
      | .ok st1 => forEach body l2 st1 := by
  induction l1 generalizing st with
  | nil => rfl
  | cons v vs ih =>
    simp only [List.cons_append, forEach]
    cases body v st with
    | error err => rfl
    | ok s1 => exact ih s1

theorem forEach_map {α β σ : Type} (body : β → σ → Except Fault σ) (h : α → β) (l : List α)
    (st : σ) : forEach body (l.map h) st = forEach (fun a => body (h a)) l st := by
  induction l generalizing st with
  | nil => rfl
  | cons v vs ih =>
    simp only [List.map_cons, forEach]
    cases body (h v) st with
    | error err => rfl
    | ok s1 => exact ih s1

/-- Two nested `for` loops are one loop over the pairs of their values. -/
theorem forEach_nested {α β σ : Type} (f : α → β → σ → Except Fault σ) (Is : List α)
    (Js : List β) (st : σ) :
    forEach (fun i st1 => forEach (fun j st2 => f i j st2) Js st1) Is st =
      forEach (fun (ij : α × β) st1 => f ij.1 ij.2 st1)
        (Is.flatMap (fun i => Js.map (fun j => (i, j)))) st := by
  induction Is generalizing st with
  | nil => rfl
  | cons i is ih =>
    rw [List.flatMap_cons, forEach_append_bind, forEach_map]
    simp only [forEach]
    cases forEach (fun j st2 => f i j st2) Js st with
    | error err => rfl
    | ok s1 => exact ih s1

/-- A loop that rewrites one bin per key, the keys having distinct bin
indices: bins that no key names are unchanged, the bin of each key satisfies
what its step established, and the invariant `Q` of the rest of the state is
carried through. -/
theorem bucket_loop {κ σ : Type} (body : κ → σ → Except Fault σ) (proj : σ → List bin_t)
    (idx : κ → Int) (L : List κ) (st0 : σ) (Rbin : κ → bin_t → Prop)
    (Q : List κ → σ → Prop) (hnd : (L.map idx).Nodup)
    (hb : ∀ key ∈ L, 0 ≤ idx key ∧ idx key < (proj st0).length)
    (hQ0 : Q [] st0)
    (hstep : ∀ pre key post st, L = pre ++ key :: post →
      (proj st).length = (proj st0).length →
      getBin (proj st) (idx key) = getBin (proj st0) (idx key) → Q pre st →
      ∃ st' bin', body key st = .ok st' ∧
        proj st' = (proj st).set (idx key).toNat bin' ∧ Rbin key bin' ∧
        Q (pre ++ [key]) st') :
    ∃ st', forEach body L st0 = .ok st' ∧ (proj st').length = (proj st0).length ∧
      (∀ k, k ∉ L.map idx → getBin (proj st') k = getBin (proj st0) k) ∧
      (∀ key ∈ L, Rbin key (getBin (proj st') (idx key))) ∧ Q L st' := by
  apply forEach_rule body (fun pre st => (proj st).length = (proj st0).length ∧
      (∀ k, k ∉ pre.map idx → getBin (proj st) k = getBin (proj st0) k) ∧
      (∀ key ∈ pre, Rbin key (getBin (proj st) (idx key))) ∧ Q pre st)
  · exact ⟨rfl, fun _ _ => rfl, fun _ h => absurd h (List.not_mem_nil _), hQ0⟩
  · rintro pre key post st hl ⟨hlen, hout, hin, hq⟩
    have hnd' : ((pre.map idx) ++ idx key :: post.map idx).Nodup := by
      rw [hl] at hnd; simpa using hnd
    have hnotin : idx key ∉ pre.map idx := by
      intro hmem
      exact (List.nodup_append.1 hnd').2.2 hmem (List.mem_cons_self _ _)
    have hkb : 0 ≤ idx key ∧ idx key < ((proj st).length : Int) := by
      rw [hlen]; exact hb key (by rw [hl]; simp)
    obtain ⟨st', bin', h1, h2, h3, h4⟩ := hstep pre key post st hl hlen (hout _ hnotin) hq
    refine ⟨st', h1, ?_, ?_, ?_, h4⟩
    · rw [h2, List.length_set]; exact hlen
    · intro k hk
      have hk1 : k ∉ pre.map idx := fun h => hk (by
        rw [List.map_append]; exact List.mem_append_left _ h)
      have hk2 : k ≠ idx key := fun h => hk (by
        rw [List.map_append]; exact List.mem_append_right _ (by simp [h]))
      rw [h2, getBin_set _ _ _ _ hkb, if_neg hk2]
      exact hout k hk1
    · intro key' hkey'
      rw [h2, getBin_set _ _ _ _ hkb]
      rcases List.mem_append.1 hkey' with hp | hp
      · have hne : idx key' ≠ idx key := by
          intro h
          exact hnotin (h ▸ List.mem_map_of_mem idx hp)
        rw [if_neg hne]
        exact hin key' hp
      · have : key' = key := by simpa using hp
        subst this
        rw [if_pos rfl]
        exact h3

/-- Distinct pairs `(i, j)` with `0 ≤ j < binCount` have distinct bin indices. -/
theorem index_inj (bc i j i' j' : Int) (hj : 0 ≤ j ∧ j < bc) (hj' : 0 ≤ j' ∧ j' < bc)
    (h : i * bc + j = i' * bc + j') : i = i' ∧ j = j' := by
  have hbc : 0 < bc := by omega
  have e1 : (i * bc + j) / bc = i := by
    rw [add_comm, Int.add_mul_ediv_right _ _ (ne_of_gt hbc), Int.ediv_eq_zero_of_lt hj.1 hj.2,
      zero_add]
  have e2 : (i' * bc + j') / bc = i' := by
    rw [add_comm, Int.add_mul_ediv_right _ _ (ne_of_gt hbc), Int.ediv_eq_zero_of_lt hj'.1 hj'.2,
      zero_add]
  have hi : i = i' := by rw [← e1, ← e2, h]
  subst hi
  exact ⟨rfl, by omega⟩

theorem mem_sweepPairs (g : Globals) (s e : Int) (ij : Int × Int) :
    ij ∈ sweepPairs g s e ↔ (s ≤ ij.1 ∧ ij.1 < e) ∧ (0 ≤ ij.2 ∧ ij.2 < g.binCount) := by
  unfold sweepPairs
  simp only [List.mem_flatMap, List.mem_map, mem_intRange]
  constructor
  · rintro ⟨i, hi, j, hj, rfl⟩; exact ⟨hi, hj⟩
  · rintro ⟨hi, hj⟩; exact ⟨ij.1, hi, ij.2, hj, rfl⟩

theorem nodup_sweepPairs_idx (g : Globals) (s e : Int) :
    ((sweepPairs g s e).map (fun ij => ij.1 * g.binCount + ij.2)).Nodup := by
  unfold sweepPairs
  rw [List.map_flatMap]
  simp only [List.map_map]
  rw [List.nodup_flatMap]
  constructor
  · intro i _
    apply (nodup_intRange 0 g.binCount).map
    intro a b h
    simpa using h
  · apply (nodup_intRange s e).imp_of_mem
    intro i i' _ _ hne
    intro k hk hk'
    simp only [List.mem_map, mem_intRange, Function.comp] at hk hk'
    obtain ⟨j, hj, rfl⟩ := hk
    obtain ⟨j', hj', h⟩ := hk'
    exact hne (index_inj g.binCount i j i' j' hj hj' h.symm).1

theorem nodup_pairIndex (g : Globals) (s e : Int) :
    ((sweepPairs g s e).map (pairIndex g)).Nodup :=
  nodup_sweepPairs_idx g s e

theorem pairIndex_bounds (g : Globals) (s e : Int) (n : Nat) (hs : 0 ≤ s) (he : e ≤ g.binCount)
    (hlen : (n : Int) = g.binCount * g.binCount) (ij : Int × Int) (h : ij ∈ sweepPairs g s e) :
    0 ≤ pairIndex g ij ∧ pairIndex g ij < n := by
  obtain ⟨hi, hj⟩ := (mem_sweepPairs g s e ij).1 h
  unfold pairIndex
  rw [hlen]
  have h0 : 0 ≤ ij.1 * g.binCount := mul_nonneg (by omega) (by omega)
  have h1 : (ij.1 + 1) * g.binCount ≤ g.binCount * g.binCount :=
    mul_le_mul_of_nonneg_right (by omega) (by omega)
  constructor
  · omega
  · linarith

/-- Lines 195-217: the sweep over the rows `[s, e)` succeeds; every swept
bin keeps (up to order) its moved particles that stay, `local_move` collects
those that move inside the rows, `remote_move` those that leave them; the
other bins are untouched. -/
theorem move_sweep_spec (g : Globals) (move : particle_t → particle_t) (s e : Int)
    (bins : List bin_t) (hs : 0 ≤ s) (he : e ≤ g.binCount)
    (hlen : (bins.length : Int) = g.binCount * g.binCount) :
    ∃ bins1 lm rm, move_sweep g move s e (bins, [], []) = .ok (bins1, lm, rm) ∧
      bins1.length = bins.length ∧
      (∀ k, k ∉ (sweepPairs g s e).map (pairIndex g) → getBin bins1 k = getBin bins k) ∧
      (∀ ij ∈ sweepPairs g s e, (getBin bins1 (pairIndex g ij)).Perm
        (((getBin bins (pairIndex g ij)).map move).filter (stays g s e ij.1 ij.2))) ∧
      lm.Perm ((sweepPairs g s e).map (fun ij =>
        ((getBin bins (pairIndex g ij)).map move).filter (movesLocal g s e ij.1 ij.2))).flatten ∧
      rm.Perm ((sweepPairs g s e).map (fun ij =>
        ((getBin bins (pairIndex g ij)).map move).filter (movesRemote g s e))).flatten := by
  unfold move_sweep
  rw [forEach_nested (fun i j st => compact_bin g move s e i j st)]
  have := bucket_loop (fun (ij : Int × Int) st => compact_bin g move s e ij.1 ij.2 st)
    (fun st => st.1) (pairIndex g) (sweepPairs g s e) (bins, [], [])
    (fun ij bin' => bin'.Perm
      (((getBin bins (pairIndex g ij)).map move).filter (stays g s e ij.1 ij.2)))
    (fun pre st =>
      st.2.1.Perm (pre.map (fun ij =>
        ((getBin bins (pairIndex g ij)).map move).filter (movesLocal g s e ij.1 ij.2))).flatten ∧
      st.2.2.Perm (pre.map (fun ij =>
        ((getBin bins (pairIndex g ij)).map move).filter (movesRemote g s e))).flatten)
    (nodup_pairIndex g s e) (pairIndex_bounds g s e _ hs he hlen)
    ⟨List.Perm.refl _, List.Perm.refl _⟩ (by
      rintro pre ij post ⟨b, lm, rm⟩ hl hlen' hcur ⟨hq1, hq2⟩
      have hb : 0 ≤ pairIndex g ij ∧ pairIndex g ij < (b.length : Int) := by
        have := pairIndex_bounds g s e bins.length hs he hlen ij (by rw [hl]; simp)
        simp only at hlen'
        rw [hlen']; exact this
      obtain ⟨bin', lm', rm', h1, h2, h3, h4⟩ :=
        compact_bin_spec g move s e ij.1 ij.2 b lm rm hb
      simp only at hcur
      refine ⟨_, bin', h1, rfl, ?_, ?_, ?_⟩
      · show bin'.Perm _
        rw [← hcur]; exact h2
      · show lm'.Perm _
        rw [List.map_append, List.flatten_append]
        simp only [List.map_cons, List.map_nil, List.flatten_cons, List.flatten_nil,
          List.append_nil]
        refine h3.trans ?_
        rw [← hcur]
        exact List.Perm.append_right _ hq1
      · show rm'.Perm _
        rw [List.map_append, List.flatten_append]
        simp only [List.map_cons, List.map_nil, List.flatten_cons, List.flatten_nil,
          List.append_nil]
        refine h4.trans ?_
        rw [← hcur]
        exact List.Perm.append_right _ hq2)
  obtain ⟨⟨bins1, lm, rm⟩, h1, h2, h3, h4, h5, h6⟩ := this
  exact ⟨bins1, lm, rm, h1, h2, h3, h4, h5, h6⟩

/-! ## Rearrangements of bucketed lists -/

theorem flatten_map_append_perm {κ : Type} (L : List κ) (f h : κ → bin_t) :
    ((L.map f).flatten ++ (L.map h).flatten).Perm (L.map (fun x => f x ++ h x)).flatten := by
  induction L with
  | nil => simp
  | cons a as ih =>
    simp only [List.map_cons, List.flatten_cons]
    have e1 : (f a ++ (as.map f).flatten ++ (h a ++ (as.map h).flatten)).Perm
        (f a ++ (h a ++ ((as.map f).flatten ++ (as.map h).flatten))) := by
      rw [List.append_assoc]
      refine List.Perm.append_left (f a) ?_
      rw [← List.append_assoc, ← List.append_assoc]
      exact List.Perm.append_right _ List.perm_append_comm
    refine e1.trans ?_
    rw [List.append_assoc]
    exact List.Perm.append_left _ (List.Perm.append_left _ ih)

theorem flatten_map_perm {κ : Type} (L : List κ) (f h : κ → bin_t)
    (hp : ∀ x ∈ L, (f x).Perm (h x)) : (L.map f).flatten.Perm (L.map h).flatten := by
  induction L with
  | nil => simp
  | cons a as ih =>
    simp only [List.map_cons, List.flatten_cons]
    exact (hp a (List.mem_cons_self _ _)).append
      (ih (fun x hx => hp x (List.mem_cons_of_mem _ hx)))

theorem filter_flatten_map {κ : Type} (L : List κ) (f : κ → bin_t) (P : particle_t → Bool) :
    ((L.map f).flatten).filter P = (L.map (fun x => (f x).filter P)).flatten := by
  induction L with
  | nil => rfl
  | cons a as ih => simp only [List.map_cons, List.flatten_cons, List.filter_append, ih]

/-- A list filtered by two exclusive conditions gives, together, the list
filtered by their disjunction. -/
theorem filter_split (l : bin_t) (P Q R : particle_t → Bool)
    (h : ∀ a ∈ l, (R a = true ↔ (P a = true ∨ Q a = true)) ∧ ¬ (P a = true ∧ Q a = true)) :
    (l.filter P ++ l.filter Q).Perm (l.filter R) := by
  induction l with
  | nil => simp
  | cons a as ih =>
    have ih' := ih (fun x hx => h x (List.mem_cons_of_mem _ hx))
    obtain ⟨h1, h2⟩ := h a (List.mem_cons_self _ _)
    by_cases hP : P a = true
    · have hQ : Q a = false := by
        cases hq : Q a with
        | false => rfl
        | true => exact absurd ⟨hP, hq⟩ h2
      have hR : R a = true := h1.2 (Or.inl hP)
      simp only [List.filter_cons, hP, hQ, hR, if_true, List.cons_append]
      exact List.Perm.cons a ih'
    · have hP' : P a = false := by simpa using hP
      by_cases hQ : Q a = true
      · have hR : R a = true := h1.2 (Or.inr hQ)
        simp only [List.filter_cons, hP', hQ, hR, if_true]
        exact (List.perm_middle).trans (List.Perm.cons a ih')
      · have hQ' : Q a = false := by simpa using hQ
        have hR : R a = false := by
          cases hr : R a with
          | false => rfl
          | true => rcases h1.1 hr with h | h
                    · exact absurd h hP
                    · exact absurd h hQ
        simp only [List.filter_cons, hP', hQ', hR]
        exact ih'

/-- In a concatenation of buckets with distinct keys, each holding only
particles of its own key, filtering by a key gives back its bucket. -/
theorem filter_flatten_key {κ : Type} (L : List κ) (idx : κ → Int) (B : κ → bin_t)
    (pidx : particle_t → Int) (hnd : (L.map idx).Nodup)
    (hB : ∀ x ∈ L, ∀ p ∈ B x, pidx p = idx x) :
    (∀ x0 ∈ L, ((L.map B).flatten).filter (fun p => pidx p = idx x0) = B x0) ∧
    (∀ k, k ∉ L.map idx → ((L.map B).flatten).filter (fun p => pidx p = k) = []) := by
  induction L with
  | nil =>
    exact ⟨fun _ h => absurd h (List.not_mem_nil _), fun _ _ => rfl⟩
  | cons a as ih =>
    rw [List.map_cons, List.nodup_cons] at hnd
    obtain ⟨ih1, ih2⟩ := ih hnd.2 (fun x hx => hB x (List.mem_cons_of_mem _ hx))
    have hself : ∀ k, k = idx a → (B a).filter (fun p => pidx p = k) = B a := by
      intro k hk
      apply List.filter_eq_self.2
      intro p hp
      simp [hk, hB a (List.mem_cons_self _ _) p hp]
    have hother : ∀ k, k ≠ idx a → (B a).filter (fun p => pidx p = k) = [] := by
      intro k hk
      apply List.filter_eq_nil_iff.2
      intro p hp
      rw [decide_eq_true_eq, hB a (List.mem_cons_self _ _) p hp]
      exact fun h => hk h.symm
    constructor
    · intro x0 hx0
      simp only [List.map_cons, List.flatten_cons, List.filter_append]
      rcases List.mem_cons.1 hx0 with rfl | hx
      · rw [hself _ rfl, ih2 _ hnd.1, List.append_nil]
      · have hne : idx x0 ≠ idx a := by
          intro h
          exact hnd.1 (h ▸ List.mem_map_of_mem idx hx)
        rw [hother _ hne, ih1 x0 hx, List.nil_append]
    · intro k hk
      simp only [List.map_cons, List.flatten_cons, List.filter_append]
      have hk1 : k ≠ idx a := fun h => hk (by simp [h])
      have hk2 : k ∉ as.map idx := fun h => hk (by simp at h ⊢; exact Or.inr h)
      rw [hother k hk1, ih2 k hk2, List.append_nil]

/-- Splitting a list into the buckets of distinct keys that cover it is a
rearrangement of the list. -/
theorem bucket_partition (K : List Int) (hnd : K.Nodup) (l : bin_t) (pidx : particle_t → Int)
    (h : ∀ p ∈ l, pidx p ∈ K) :
    ((K.map (fun k => l.filter (fun p => pidx p = k))).flatten).Perm l := by
  induction K generalizing l with
  | nil =>
    cases l with
    | nil => simp
    | cons p ps => exact absurd (h p (List.mem_cons_self _ _)) (List.not_mem_nil _)
  | cons k ks ih =>
    rw [List.nodup_cons] at hnd
    simp only [List.map_cons, List.flatten_cons]
    have hrest : ks.map (fun k' => l.filter (fun p => pidx p = k')) =
        ks.map (fun k' => (l.filter (fun p => !decide (pidx p = k))).filter
          (fun p => pidx p = k')) := by
      apply List.map_congr_left
      intro k' hk'
      rw [List.filter_filter]
      apply List.filter_congr
      intro p _
      by_cases hp : pidx p = k'
      · have : k' ≠ k := fun h => hnd.1 (h ▸ hk')
        simp [hp, this]
      · simp [hp]
    rw [hrest]
    have ih' := ih hnd.2 (l.filter (fun p => !decide (pidx p = k))) (by
      intro p hp
      rw [List.mem_filter] at hp
      have hne : pidx p ≠ k := by simpa using hp.2
      rcases List.mem_cons.1 (h p hp.1) with h1 | h1
      · exact absurd h1 hne
      · exact h1)
    exact (List.Perm.append_left _ ih').trans (List.filter_append_perm _ l)

/-! ## The move phase as a rebinning -/

theorem binIndex_eq_pairIndex_iff (g : Globals) (hg : g.WF) (p : particle_t)
    (hp : inDomain g p) (ij : Int × Int) (hj : 0 ≤ ij.2 ∧ ij.2 < g.binCount) :
    binIndex g p = pairIndex g ij ↔
      toInt (p.x / g.binSize) = ij.1 ∧ toInt (p.y / g.binSize) = ij.2 := by
  unfold binIndex pairIndex
  constructor
  · intro h
    exact index_inj g.binCount _ _ _ _ (coord_bounds g hg p.y hp.2.1 hp.2.2.2) hj h
  · rintro ⟨h1, h2⟩
    rw [h1, h2]

theorem mem_sweptParticles (g : Globals) (s e : Int) (bins : List bin_t) (q : particle_t) :
    q ∈ sweptParticles g s e bins ↔
      ∃ ij ∈ sweepPairs g s e, q ∈ getBin bins (pairIndex g ij) := by
  unfold sweptParticles
  simp only [List.mem_flatten, List.mem_map]
  constructor
  · rintro ⟨l, ⟨ij, hij, rfl⟩, hq⟩; exact ⟨ij, hij, hq⟩
  · rintro ⟨ij, hij, hq⟩; exact ⟨_, ⟨ij, hij, rfl⟩, hq⟩

theorem map_sweptParticles (g : Globals) (move : particle_t → particle_t) (s e : Int)
    (bins : List bin_t) :
    (sweptParticles g s e bins).map move =
      ((sweepPairs g s e).map (fun ij => (getBin bins (pairIndex g ij)).map move)).flatten := by
  unfold sweptParticles
  rw [List.map_flatten, List.map_map]
  rfl

/-- A particle of the domain whose row lies in `[s, e)` has the bin index of
a swept pair. -/
theorem binIndex_mem_sweep (g : Globals) (hg : g.WF) (s e : Int) (p : particle_t)
    (hp : inDomain g p)
    (hrow : s ≤ toInt (p.x / g.binSize) ∧ toInt (p.x / g.binSize) < e) :
    binIndex g p ∈ (sweepPairs g s e).map (pairIndex g) := by
  refine List.mem_map.2 ⟨(toInt (p.x / g.binSize), toInt (p.y / g.binSize)), ?_, rfl⟩
  exact (mem_sweepPairs g s e _).2 ⟨hrow, coord_bounds g hg p.y hp.2.1 hp.2.2.2⟩

/-- Lines 192-221: the move sweep and the reinsertion of the local movers
succeed when the moved particles are in the domain. Afterwards every swept
bin `k` holds, up to order, the moved particles whose new bin index is `k`;
`remote_move` holds those whose new row is outside `[s, e)`; no other bin
changed; the swept bins and `remote_move` together are a rearrangement of
the moved particles. -/
theorem rebin_spec (g : Globals) (hg : g.WF) (move : particle_t → particle_t) (s e : Int)
    (bins : List bin_t) (hs : 0 ≤ s) (he : e ≤ g.binCount)
    (hlen : (bins.length : Int) = g.binCount * g.binCount)
    (hD : ∀ q ∈ sweptParticles g s e bins, inDomain g (move q)) :
    ∃ bins1 lm rm bins2, move_sweep g move s e (bins, [], []) = .ok (bins1, lm, rm) ∧
      forEach (push_particles_in_bin g) lm bins1 = .ok bins2 ∧
      bins2.length = bins.length ∧
      (∀ k, k ∉ (sweepPairs g s e).map (pairIndex g) → getBin bins2 k = getBin bins k) ∧
      (∀ k, k ∈ (sweepPairs g s e).map (pairIndex g) → (getBin bins2 k).Perm
        (((sweptParticles g s e bins).map move).filter (fun p => binIndex g p = k))) ∧
      rm.Perm (((sweptParticles g s e bins).map move).filter (movesRemote g s e)) ∧
      (sweptParticles g s e bins2 ++ rm).Perm ((sweptParticles g s e bins).map move) := by
  obtain ⟨bins1, lm, rm, h1, hl1, hN, hS, hL, hR⟩ := move_sweep_spec g move s e bins hs he hlen
  -- the moved particles of one swept bin
  have hmoved : ∀ ij ∈ sweepPairs g s e, ∀ p ∈ (getBin bins (pairIndex g ij)).map move,
      inDomain g p := by
    intro ij hij p hp
    obtain ⟨q, hq, rfl⟩ := List.mem_map.1 hp
    exact hD q ((mem_sweptParticles g s e bins q).2 ⟨ij, hij, hq⟩)
  -- the local movers are in the domain, with a row in `[s, e)`
  have hlm : ∀ p ∈ lm, inDomain g p ∧
      (s ≤ toInt (p.x / g.binSize) ∧ toInt (p.x / g.binSize) < e) := by
    intro p hp
    have hp' := hL.subset hp
    simp only [List.mem_flatten, List.mem_map] at hp'
    obtain ⟨l, ⟨ij, hij, rfl⟩, hpl⟩ := hp'
    rw [List.mem_filter] at hpl
    exact ⟨hmoved ij hij p hpl.1, (of_decide_eq_true hpl.2).1⟩
  obtain ⟨bins2, h2, hl2, hget2, _⟩ := push_all_spec g (push_particles_in_bin g)
    lm bins1 (fun p _ b => push_particles_in_bin_eq g p b) (by
      intro p hp
      have := binIndex_bounds g hg p (hlm p hp).1
      rw [hl1, hlen]; exact this)
  -- the kept particles of every swept bin carry its index
  have hkeep : ∀ ij ∈ sweepPairs g s e, ∀ p ∈ getBin bins1 (pairIndex g ij),
      binIndex g p = pairIndex g ij := by
    intro ij hij p hp
    have hp' := (hS ij hij).subset hp
    rw [List.mem_filter] at hp'
    have hst := of_decide_eq_true hp'.2
    exact (binIndex_eq_pairIndex_iff g hg p (hmoved ij hij p hp'.1) ij
      ((mem_sweepPairs g s e ij).1 hij).2).2 hst.2
  -- kept and local movers together: the moved particles with a row in `[s, e)`
  have hall : (((sweepPairs g s e).map (fun ij => getBin bins1 (pairIndex g ij))).flatten ++
      lm).Perm (((sweptParticles g s e bins).map move).filter
        (fun p => !movesRemote g s e p)) := by
    rw [map_sweptParticles, filter_flatten_map]
    refine ((flatten_map_perm _ _ _ hS).append hL).trans ?_
    refine (flatten_map_append_perm _ _ _).trans ?_
    apply flatten_map_perm
    intro ij _
    apply filter_split
    intro a _
    simp only [stays, movesLocal, movesRemote, decide_eq_true_eq, Bool.not_eq_true',
      decide_eq_false_iff_not, not_not]
    constructor
    · constructor
      · intro h
        by_cases hc : toInt (a.x / g.binSize) = ij.1 ∧ toInt (a.y / g.binSize) = ij.2
        · exact Or.inl ⟨h, hc⟩
        · exact Or.inr ⟨h, hc⟩
      · rintro (h | h) <;> exact h.1
    · rintro ⟨h1, h2⟩
      exact h2.2 h1.2
  have hR' : rm.Perm (((sweptParticles g s e bins).map move).filter (movesRemote g s e)) := by
    rw [map_sweptParticles, filter_flatten_map]
    exact hR
  refine ⟨bins1, lm, rm, bins2, h1, h2, by rw [hl2, hl1], ?_, ?_, hR', ?_⟩
  · intro k hk
    rw [hget2, hN k hk]
    have : lm.filter (fun p => binIndex g p = k) = [] := by
      apply List.filter_eq_nil_iff.2
      intro p hp
      rw [decide_eq_true_eq]
      intro h
      exact hk (h ▸ binIndex_mem_sweep g hg s e p (hlm p hp).1 (hlm p hp).2)
    rw [this, List.append_nil]
  · intro k hk
    obtain ⟨ij0, hij0, rfl⟩ := List.mem_map.1 hk
    have hj0 := ((mem_sweepPairs g s e ij0).1 hij0)
    have hFF := (filter_flatten_key (sweepPairs g s e) (pairIndex g)
      (fun ij => getBin bins1 (pairIndex g ij)) (binIndex g) (nodup_pairIndex g s e) hkeep).1
      ij0 hij0
    rw [hget2, ← hFF, ← List.filter_append]
    refine (hall.filter _).trans ?_
    rw [List.filter_filter]
    apply List.Perm.of_eq
    apply List.filter_congr
    intro p hp
    obtain ⟨q, hq, rfl⟩ := List.mem_map.1 hp
    have hdom := hD q hq
    by_cases hidx : binIndex g (move q) = pairIndex g ij0
    · have hc := (binIndex_eq_pairIndex_iff g hg _ hdom ij0 hj0.2).1 hidx
      have : movesRemote g s e (move q) = false := by
        apply decide_eq_false
        intro hno
        exact hno (by rw [hc.1]; exact hj0.1)
      simp [hidx, this]
    · simp [hidx]
  · -- the swept bins after the reinsertion: the kept particles and the local movers
    have hown : (sweptParticles g s e bins2).Perm
        (((sweepPairs g s e).map (fun ij => getBin bins1 (pairIndex g ij))).flatten ++ lm) := by
      unfold sweptParticles
      have e1 : (sweepPairs g s e).map (fun ij => getBin bins2 (pairIndex g ij)) =
          (sweepPairs g s e).map (fun ij => getBin bins1 (pairIndex g ij) ++
            lm.filter (fun p => binIndex g p = pairIndex g ij)) :=
        List.map_congr_left (fun ij _ => hget2 _)
      rw [e1]
      refine (flatten_map_append_perm _ _ _).symm.trans (List.Perm.append_left _ ?_)
      have e2 : (sweepPairs g s e).map (fun ij =>
          lm.filter (fun p => binIndex g p = pairIndex g ij)) =
          ((sweepPairs g s e).map (pairIndex g)).map (fun k =>
            lm.filter (fun p => binIndex g p = k)) := by
        rw [List.map_map]; rfl
      rw [e2]
      exact bucket_partition _ (nodup_pairIndex g s e) lm (binIndex g)
        (fun p hp => binIndex_mem_sweep g hg s e p (hlm p hp).1 (hlm p hp).2)
    refine ((hown.trans hall).append hR').trans ?_
    have := List.filter_append_perm (movesRemote g s e) ((sweptParticles g s e bins).map move)
    refine (List.perm_append_comm.trans ?_).trans this
    apply List.Perm.append_left
    apply List.Perm.of_eq
    apply List.filter_congr
    intro p _
    simp

/-! ## The ghost flush -/

theorem inRow_iff (g : Globals) (i k : Int) :
    inRow g i k ↔ k ∈ (intRange 0 g.binCount).map (fun j => i * g.binCount + j) := by
  unfold inRow
  simp only [List.mem_map, mem_intRange]
  constructor
  · rintro ⟨h1, h2⟩; exact ⟨k - i * g.binCount, ⟨by omega, by omega⟩, by omega⟩
  · rintro ⟨j, ⟨h1, h2⟩, rfl⟩; exact ⟨by omega, by omega⟩

theorem nodup_row (g : Globals) (i : Int) :
    ((intRange 0 g.binCount).map (fun j => i * g.binCount + j)).Nodup := by
  apply (nodup_intRange 0 g.binCount).map
  intro a b h
  simpa using h

theorem row_bounds (g : Globals) (i : Int) (n : Nat) (hi : 0 ≤ i ∧ i < g.binCount)
    (hlen : (n : Int) = g.binCount * g.binCount) (j : Int) (hj : j ∈ intRange 0 g.binCount) :
    0 ≤ i * g.binCount + j ∧ i * g.binCount + j < n := by
  rw [mem_intRange] at hj
  rw [hlen]
  have h0 : 0 ≤ i * g.binCount := mul_nonneg (by omega) (by omega)
  have h1 : (i + 1) * g.binCount ≤ g.binCount * g.binCount :=
    mul_le_mul_of_nonneg_right (by omega) (by omega)
  constructor
  · omega
  · linarith

/-- A bin index lies in one row only. -/
theorem inRow_unique (g : Globals) (i i' k : Int) (h : inRow g i k) (h' : inRow g i' k) :
    i = i' := by
  unfold inRow at h h'
  exact (index_inj g.binCount i (k - i * g.binCount) i' (k - i' * g.binCount)
    ⟨by omega, by omega⟩ ⟨by omega, by omega⟩ (by omega)).1

theorem rowParticles_congr (g : Globals) (a b : List bin_t) (i : Int)
    (h : ∀ k, inRow g i k → getBin a k = getBin b k) :
    rowParticles g a i = rowParticles g b i := by
  unfold rowParticles
  congr 1
  apply List.map_congr_left
  intro j hj
  exact h _ ((inRow_iff g i _).2 (List.mem_map_of_mem _ hj))

theorem rowParticles_nil (g : Globals) (a : List bin_t) (i : Int)
    (h : ∀ k, inRow g i k → getBin a k = []) : rowParticles g a i = [] := by
  unfold rowParticles
  rw [List.flatten_eq_nil_iff]
  intro l hl
  obtain ⟨j, hj, rfl⟩ := List.mem_map.1 hl
  exact h _ ((inRow_iff g i _).2 (List.mem_map_of_mem _ hj))

/-- Lines 224-227, 236-239: clearing row `i` empties its bins and leaves the
other bins alone. -/
theorem clear_row_spec (g : Globals) (i : Int) (bins : List bin_t)
    (hi : 0 ≤ i ∧ i < g.binCount) (hlen : (bins.length : Int) = g.binCount * g.binCount) :
    ∃ bins', clear_row g i bins = .ok bins' ∧ bins'.length = bins.length ∧
      ∀ k, getBin bins' k = if inRow g i k then [] else getBin bins k := by
  unfold clear_row
  obtain ⟨bins', h1, h2, h3, h4, _⟩ := bucket_loop
    (fun j b => clear_at b (i * g.binCount + j)) (fun b => b)
    (fun j => i * g.binCount + j) (intRange 0 g.binCount) bins
    (fun _ bin' => bin' = []) (fun _ _ => True) (nodup_row g i)
    (row_bounds g i _ hi hlen) trivial (by
      intro pre j post b hl hlen' _ _
      have hb : 0 ≤ i * g.binCount + j ∧ i * g.binCount + j < (b.length : Int) := by
        simp only at hlen'
        rw [hlen']; exact row_bounds g i _ hi hlen j (by rw [hl]; simp)
      exact ⟨b.set (i * g.binCount + j).toNat [], [],
        by simp only [clear_at]; rw [if_pos hb], rfl, rfl, trivial⟩)
  refine ⟨bins', h1, h2, fun k => ?_⟩
  by_cases hk : inRow g i k
  · rw [if_pos hk]
    obtain ⟨j, hj, rfl⟩ := List.mem_map.1 ((inRow_iff g i k).1 hk)
    exact h4 j hj
  · rw [if_neg hk]
    exact h3 k (fun h => hk ((inRow_iff g i k).2 h))

/-- Lines 228-232, 240-244: draining row `i` appends its particles, bin
after bin, to `remote_move`, empties its bins and leaves the other bins
alone. -/
theorem drain_row_spec (g : Globals) (i : Int) (bins : List bin_t) (rm : bin_t)
    (hi : 0 ≤ i ∧ i < g.binCount) (hlen : (bins.length : Int) = g.binCount * g.binCount) :
    ∃ bins', drain_row g i (bins, rm) = .ok (bins', rm ++ rowParticles g bins i) ∧
      bins'.length = bins.length ∧
      ∀ k, getBin bins' k = if inRow g i k then [] else getBin bins k := by
  unfold drain_row
  obtain ⟨⟨bins', rm'⟩, h1, h2, h3, h4, h5⟩ := bucket_loop
    (fun j st => drain_at (i * g.binCount + j) st) (fun st => st.1)
    (fun j => i * g.binCount + j) (intRange 0 g.binCount) (bins, rm)
    (fun _ bin' => bin' = [])
    (fun pre st => st.2 = rm ++ (pre.map (fun j => getBin bins (i * g.binCount + j))).flatten)
    (nodup_row g i) (row_bounds g i _ hi hlen) (by simp) (by
      rintro pre j post ⟨b, r⟩ hl hlen' hcur hq
      simp only at hlen' hcur hq
      have hb : 0 ≤ i * g.binCount + j ∧ i * g.binCount + j < (b.length : Int) := by
        rw [hlen']; exact row_bounds g i _ hi hlen j (by rw [hl]; simp)
      refine ⟨(b.set (i * g.binCount + j).toNat [], r ++ b.getD (i * g.binCount + j).toNat []),
        [], by simp only [drain_at]; rw [if_pos hb], rfl, rfl, ?_⟩
      simp only [List.map_append, List.flatten_append, List.map_cons, List.map_nil,
        List.flatten_cons, List.flatten_nil, List.append_nil]
      rw [getBin_eq_getD b _ hb.1, hcur, hq, List.append_assoc])
  simp only at h5
  refine ⟨bins', by rw [h1, h5]; rfl, h2, fun k => ?_⟩
  by_cases hk : inRow g i k
  · rw [if_pos hk]
    obtain ⟨j, hj, rfl⟩ := List.mem_map.1 ((inRow_iff g i k).1 hk)
    exact h4 j hj
  · rw [if_neg hk]
    exact h3 k (fun h => hk ((inRow_iff g i k).2 h))

theorem flush_low_spec (g : Globals) (rank s : Int) (bins : List bin_t) (rm : bin_t)
    (hlen : (bins.length : Int) = g.binCount * g.binCount)
    (hlo : rank ≠ 0 → 1 ≤ s ∧ s < g.binCount) :
    ∃ bins', flush_low g rank s (bins, rm) =
        .ok (bins', rm ++ (if rank ≠ 0 then rowParticles g bins s else [])) ∧
      bins'.length = bins.length ∧
      ∀ k, getBin bins' k =
        if rank ≠ 0 ∧ (inRow g (s - 1) k ∨ inRow g s k) then [] else getBin bins k := by
  unfold flush_low
  by_cases hr : rank ≠ 0
  · obtain ⟨h1, h2⟩ := hlo hr
    obtain ⟨b1, hc, hl1, hg1⟩ := clear_row_spec g (s - 1) bins ⟨by omega, by omega⟩ hlen
    obtain ⟨b2, hd, hl2, hg2⟩ := drain_row_spec g s b1 rm ⟨by omega, h2⟩ (by rw [hl1]; exact hlen)
    have hrow : rowParticles g b1 s = rowParticles g bins s := by
      apply rowParticles_congr
      intro k hk
      rw [hg1, if_neg]
      intro hk'
      have := inRow_unique g _ _ k hk hk'
      omega
    refine ⟨b2, ?_, by rw [hl2, hl1], fun k => ?_⟩
    · simp only [if_pos hr, hc, hd, hrow]
    · rw [hg2, hg1]
      by_cases ha : inRow g s k
      · simp [ha, hr]
      · by_cases hb : inRow g (s - 1) k
        · simp [hb, hr]
        · simp [ha, hb]
  · refine ⟨bins, ?_, rfl, fun k => ?_⟩
    · simp only [if_neg hr, List.append_nil]
    · simp only [hr, false_and, if_false]

theorem flush_high_spec (g : Globals) (n_proc rank e : Int) (bins : List bin_t) (rm : bin_t)
    (hlen : (bins.length : Int) = g.binCount * g.binCount)
    (hhi : rank ≠ n_proc - 1 → 1 ≤ e ∧ e < g.binCount) :
    ∃ bins', flush_high g n_proc rank e (bins, rm) =
        .ok (bins', rm ++ (if rank ≠ n_proc - 1 then rowParticles g bins (e - 1) else [])) ∧
      bins'.length = bins.length ∧
      ∀ k, getBin bins' k =
        if rank ≠ n_proc - 1 ∧ (inRow g e k ∨ inRow g (e - 1) k) then [] else getBin bins k := by
  unfold flush_high
  by_cases hr : rank ≠ n_proc - 1
  · obtain ⟨h1, h2⟩ := hhi hr
    obtain ⟨b1, hc, hl1, hg1⟩ := clear_row_spec g e bins ⟨by omega, h2⟩ hlen
    obtain ⟨b2, hd, hl2, hg2⟩ := drain_row_spec g (e - 1) b1 rm ⟨by omega, by omega⟩
      (by rw [hl1]; exact hlen)
    have hrow : rowParticles g b1 (e - 1) = rowParticles g bins (e - 1) := by
      apply rowParticles_congr
      intro k hk
      rw [hg1, if_neg]
      intro hk'
      have := inRow_unique g _ _ k hk hk'
      omega
    refine ⟨b2, ?_, by rw [hl2, hl1], fun k => ?_⟩
    · simp only [if_pos hr, hc, hd, hrow]
    · rw [hg2, hg1]
      by_cases ha : inRow g (e - 1) k
      · simp [ha, hr]
      · by_cases hb : inRow g e k
        · simp [hb, hr]
        · simp [ha, hb]
  · refine ⟨bins, ?_, rfl, fun k => ?_⟩
    · simp only [if_neg hr, List.append_nil]
    · simp only [hr, false_and, if_false]

/-- Lines 223-245: the ghost flush empties the rows `s - 1`, `s` (unless
`rank = 0`) and `e`, `e - 1` (unless `rank = n_proc - 1`); `remote_move`
gains the particles of the own rows `s` and `e - 1` only. -/
theorem ghost_flush_spec (g : Globals) (n_proc rank s e : Int) (bins : List bin_t) (rm : bin_t)
    (hlen : (bins.length : Int) = g.binCount * g.binCount) (hse : s < e)
    (hlo : rank ≠ 0 → 1 ≤ s ∧ s < g.binCount)
    (hhi : rank ≠ n_proc - 1 → 1 ≤ e ∧ e < g.binCount) :
    ∃ bins', ghost_flush g n_proc rank s e (bins, rm) =
        .ok (bins', rm ++ (if rank ≠ 0 then rowParticles g bins s else []) ++
          (if rank ≠ n_proc - 1 ∧ ¬ (rank ≠ 0 ∧ e - 1 = s) then rowParticles g bins (e - 1)
            else [])) ∧
      bins'.length = bins.length ∧
      ∀ k, getBin bins' k = if flushedIdx g n_proc rank s e k then [] else getBin bins k := by
  obtain ⟨b1, h1, hl1, hg1⟩ := flush_low_spec g rank s bins rm hlen hlo
  obtain ⟨b2, h2, hl2, hg2⟩ := flush_high_spec g n_proc rank e b1
    (rm ++ (if rank ≠ 0 then rowParticles g bins s else [])) (by rw [hl1]; exact hlen) hhi
  have hrow : (if rank ≠ n_proc - 1 then rowParticles g b1 (e - 1) else []) =
      (if rank ≠ n_proc - 1 ∧ ¬ (rank ≠ 0 ∧ e - 1 = s) then rowParticles g bins (e - 1)
        else []) := by
    by_cases hr : rank ≠ n_proc - 1
    · by_cases hc : rank ≠ 0 ∧ e - 1 = s
      · rw [if_pos hr, if_neg (by tauto)]
        apply rowParticles_nil
        intro k hk
        rw [hg1, if_pos ⟨hc.1, Or.inr (hc.2 ▸ hk)⟩]
      · rw [if_pos hr, if_pos ⟨hr, hc⟩]
        apply rowParticles_congr
        intro k hk
        rw [hg1, if_neg]
        rintro ⟨h0, hk' | hk'⟩
        · have := inRow_unique g _ _ k hk hk'
          omega
        · have := inRow_unique g _ _ k hk hk'
          exact hc ⟨h0, this⟩
    · rw [if_neg hr, if_neg (by tauto)]
  refine ⟨b2, ?_, by rw [hl2, hl1], fun k => ?_⟩
  · unfold ghost_flush
    simp only [h1, h2, hrow]
  · rw [hg2, hg1]
    unfold flushedIdx
    by_cases ha : rank ≠ n_proc - 1 ∧ (inRow g e k ∨ inRow g (e - 1) k)
    · rw [if_pos ha, if_pos (Or.inr ha)]
    · rw [if_neg ha]
      by_cases hb : rank ≠ 0 ∧ (inRow g (s - 1) k ∨ inRow g s k)
      · rw [if_pos hb, if_pos (Or.inl hb)]
      · rw [if_neg hb, if_neg (by tauto)]

/-- Facts of the partition for `x_bins_per_proc ≥ 1`: the range of a rank is
not empty and lies in the grid, with a row below it unless `rank = 0` and a
row above it unless `rank = n_proc - 1`. -/
theorem partition_facts (binCount n_proc rank : Int) (hP : 1 ≤ n_proc)
    (hr : 0 ≤ rank ∧ rank < n_proc) (hw : 1 ≤ x_bins_per_proc binCount n_proc)
    (hb : 0 ≤ binCount) :
    0 ≤ my_bins_start binCount n_proc rank ∧
    my_bins_start binCount n_proc rank < my_bins_end binCount n_proc rank ∧
    my_bins_end binCount n_proc rank ≤ binCount ∧
    (rank ≠ 0 → 1 ≤ my_bins_start binCount n_proc rank) ∧
    (rank ≠ n_proc - 1 → my_bins_end binCount n_proc rank < binCount) := by
  have hle := x_bins_per_proc_mul_le binCount n_proc hb hP
  unfold my_bins_start my_bins_end
  generalize x_bins_per_proc binCount n_proc = w at hw hle ⊢
  have h0 : 0 ≤ w * rank := mul_nonneg (by omega) hr.1
  have h1 : w * (rank + 1) = w * rank + w := by ring
  have h2 : w * (rank + 1) ≤ w * n_proc := mul_le_mul_of_nonneg_left (by omega) (by omega)
  by_cases hlast : rank = n_proc - 1
  · rw [if_pos hlast]
    have h3 : w * rank + w = w * n_proc := by rw [hlast]; ring
    refine ⟨h0, by linarith, le_refl _, ?_, fun h => absurd hlast h⟩
    intro hne
    have : w * 1 ≤ w * rank := mul_le_mul_of_nonneg_left (by omega) (by omega)
    linarith
  · rw [if_neg hlast]
    refine ⟨h0, by linarith, by linarith, ?_, ?_⟩
    · intro hne
      have : w * 1 ≤ w * rank := mul_le_mul_of_nonneg_left (by omega) (by omega)
      linarith
    · intro _
      have : w * (rank + 1 + 1) ≤ w * n_proc := mul_le_mul_of_nonneg_left (by omega) (by omega)
      have : w * (rank + 1 + 1) = w * (rank + 1) + w := by ring
      linarith

/-! ## C6: ghost flush -/

/-- C6, as stated, fails: on rank 0 of 2 the ghost row `end = 1` holds a
particle before the flush; the flush empties the row but `remote_move` stays
empty, so the particle is discarded, not appended. -/
theorem ghost_flush_counterexample :
    rowParticles g3 [[], [], [], [pt (3 / 2) 0], [], [], [], [], []]
      (my_bins_end g3.binCount 2 0) = [pt (3 / 2) 0] ∧
    ghost_flush g3 2 0 (my_bins_start g3.binCount 2 0) (my_bins_end g3.binCount 2 0)
      ([[], [], [], [pt (3 / 2) 0], [], [], [], [], []], []) =
      .ok ([[], [], [], [], [], [], [], [], []], []) := by
  constructor
  · rfl
  · rfl

/-- C6 (amended): with `x_bins_per_proc ≥ 1`, in every step each rank empties
the two rows just outside its range (`start - 1` unless `rank = 0`, `end`
unless `rank = n_proc - 1`), whose contents are discarded, and also its own
boundary rows `start` (unless `rank = 0`) and `end - 1` (unless
`rank = n_proc - 1`); the pending buffer after the flush is `remote_move`
followed by the former contents of these own boundary rows. -/
theorem ghost_flush_drains_own_rows (g : Globals) (n_proc rank : Int) (bins : List bin_t)
    (rm : bin_t) (hP : 1 ≤ n_proc) (hr : 0 ≤ rank ∧ rank < n_proc)
    (hw : 1 ≤ x_bins_per_proc g.binCount n_proc) (hb : 0 ≤ g.binCount)
    (hlen : (bins.length : Int) = g.binCount * g.binCount) :
    ∃ bins', ghost_flush g n_proc rank (my_bins_start g.binCount n_proc rank)
        (my_bins_end g.binCount n_proc rank) (bins, rm) =
        .ok (bins', rm ++
          (if rank ≠ 0 then rowParticles g bins (my_bins_start g.binCount n_proc rank) else []) ++
          (if rank ≠ n_proc - 1 ∧ ¬ (rank ≠ 0 ∧
              my_bins_end g.binCount n_proc rank - 1 = my_bins_start g.binCount n_proc rank)
            then rowParticles g bins (my_bins_end g.binCount n_proc rank - 1) else [])) ∧
      bins'.length = bins.length ∧
      ∀ k, getBin bins' k =
        if (rank ≠ 0 ∧ (inRow g (my_bins_start g.binCount n_proc rank - 1) k ∨
              inRow g (my_bins_start g.binCount n_proc rank) k)) ∨
            (rank ≠ n_proc - 1 ∧ (inRow g (my_bins_end g.binCount n_proc rank) k ∨
              inRow g (my_bins_end g.binCount n_proc rank - 1) k))
        then [] else getBin bins k := by
  obtain ⟨h0, h1, h2, h3, h4⟩ := partition_facts g.binCount n_proc rank hP hr hw hb
  exact ghost_flush_spec g n_proc rank _ _ bins rm hlen h1
    (fun h => ⟨h3 h, by omega⟩) (fun h => ⟨by omega, h4 h⟩)

/-- C6 (amended) on rank 1 of 3, each rank owning one row of a 3 x 3 grid. -/
theorem ghost_flush_drains_own_rows_witness :
    ∃ bins', ghost_flush g3 3 1 (my_bins_start g3.binCount 3 1) (my_bins_end g3.binCount 3 1)
        ([[pt 0 0], [], [], [pt (3 / 2) 0], [], [], [], [pt 2 1], []], [pt 2 2]) =
        .ok (bins', [pt 2 2] ++
          (if (1 : Int) ≠ 0 then rowParticles g3
            [[pt 0 0], [], [], [pt (3 / 2) 0], [], [], [], [pt 2 1], []]
            (my_bins_start g3.binCount 3 1) else []) ++
          (if (1 : Int) ≠ 3 - 1 ∧ ¬ ((1 : Int) ≠ 0 ∧
              my_bins_end g3.binCount 3 1 - 1 = my_bins_start g3.binCount 3 1)
            then rowParticles g3 [[pt 0 0], [], [], [pt (3 / 2) 0], [], [], [], [pt 2 1], []]
              (my_bins_end g3.binCount 3 1 - 1) else [])) ∧
      bins'.length =
        ([[pt 0 0], [], [], [pt (3 / 2) 0], [], [], [], [pt 2 1], []] : List bin_t).length ∧
      ∀ k, getBin bins' k =
        if ((1 : Int) ≠ 0 ∧ (inRow g3 (my_bins_start g3.binCount 3 1 - 1) k ∨
              inRow g3 (my_bins_start g3.binCount 3 1) k)) ∨
            ((1 : Int) ≠ 3 - 1 ∧ (inRow g3 (my_bins_end g3.binCount 3 1) k ∨
              inRow g3 (my_bins_end g3.binCount 3 1 - 1) k))
        then [] else getBin [[pt 0 0], [], [], [pt (3 / 2) 0], [], [], [], [pt 2 1], []] k :=
  ghost_flush_drains_own_rows g3 3 1 _ _ (by decide) (by decide) (by decide) (by decide)
    (by decide)

/-! ## One rank up to the ghost flush -/

/-- Lines 192-245 on one rank succeed when `x_bins_per_proc ≥ 1` and the
moved particles are in the domain. -/
theorem local_phase_spec (g : Globals) (hg : g.WF) (move : particle_t → particle_t)
    (n_proc rank : Int) (bins : List bin_t) (hP : 1 ≤ n_proc)
    (hr : 0 ≤ rank ∧ rank < n_proc) (hw : 1 ≤ x_bins_per_proc g.binCount n_proc)
    (hlen : (bins.length : Int) = g.binCount * g.binCount)
    (hD : ∀ q ∈ sweptParticles g (my_bins_start g.binCount n_proc rank)
      (my_bins_end g.binCount n_proc rank) bins, inDomain g (move q)) :
    ∃ bins3 rm, local_phase g move n_proc rank bins = .ok (bins3, rm) ∧
      LocalOutcome g move n_proc rank bins bins3 rm := by
  have hbc := WF_binCount_pos g hg
  obtain ⟨h0, h1, h2, h3, h4⟩ := partition_facts g.binCount n_proc rank hP hr hw (by omega)
  obtain ⟨bins1, lm, rm0, bins2, e1, e2, hl2, hN, hO, hR, hT⟩ :=
    rebin_spec g hg move _ _ bins h0 h2 hlen hD
  obtain ⟨bins3, e3, hl3, hF⟩ := ghost_flush_spec g n_proc rank _ _ bins2 rm0
    (by rw [hl2]; exact hlen) h1 (fun h => ⟨h3 h, by omega⟩) (fun h => ⟨by omega, h4 h⟩)
  refine ⟨bins3, _, ?_, bins2, rm0, hl2, hN, hO, hR, hT, by rw [hl3, hl2], hF, rfl⟩
  unfold local_phase
  simp only [e1, e2, e3]

theorem swept_eq_rows (g : Globals) (s e : Int) (bins : List bin_t) :
    sweptParticles g s e bins = ((intRange s e).map (rowParticles g bins)).flatten := by
  unfold sweptParticles sweepPairs rowParticles
  generalize intRange s e = Is
  induction Is with
  | nil => rfl
  | cons i is ih =>
    rw [List.flatMap_cons, List.map_append, List.flatten_append, ih, List.map_cons,
      List.flatten_cons, List.map_map]
    rfl

theorem mem_rowParticles (g : Globals) (bins : List bin_t) (i : Int) (p : particle_t) :
    p ∈ rowParticles g bins i ↔
      ∃ j, (0 ≤ j ∧ j < g.binCount) ∧ p ∈ getBin bins (i * g.binCount + j) := by
  unfold rowParticles
  simp only [List.mem_flatten, List.mem_map, mem_intRange]
  constructor
  · rintro ⟨l, ⟨j, hj, rfl⟩, hp⟩; exact ⟨j, hj, hp⟩
  · rintro ⟨j, hj, hp⟩; exact ⟨_, ⟨j, hj, rfl⟩, hp⟩

theorem cond_filter_eq (c : Prop) [Decidable c] (l : bin_t) (f : particle_t → Int) (a : Int) :
    (if c then l.filter (fun p => f p = a) else []) =
      l.filter (fun p => decide (c ∧ f p = a)) := by
  by_cases hc : c
  · rw [if_pos hc]
    apply List.filter_congr
    intro p _
    simp [hc]
  · rw [if_neg hc]
    symm
    apply List.filter_eq_nil_iff.2
    intro p _
    simp [hc]

/-- The ghost flush keeps the particles of the own rows: what it removes from
the rows `s` and `e - 1` is what it appends to `remote_move`. -/
theorem flush_conservation (g : Globals) (n_proc rank s e : Int) (bins2 bins3 : List bin_t)
    (hse : s < e)
    (hrow : ∀ i, s ≤ i ∧ i < e → ∀ p ∈ rowParticles g bins2 i, toInt (p.x / g.binSize) = i)
    (hF : ∀ k, getBin bins3 k =
      if flushedIdx g n_proc rank s e k then [] else getBin bins2 k) :
    (sweptParticles g s e bins3 ++
      ((if rank ≠ 0 then rowParticles g bins2 s else []) ++
       (if rank ≠ n_proc - 1 ∧ ¬ (rank ≠ 0 ∧ e - 1 = s) then rowParticles g bins2 (e - 1)
          else []))).Perm (sweptParticles g s e bins2) := by
  have hR : ∀ i ∈ intRange s e, ∀ p ∈ rowParticles g bins2 i, toInt (p.x / g.binSize) = i :=
    fun i hi => hrow i ((mem_intRange s e i).1 hi)
  have hnd : ((intRange s e).map (fun i => i)).Nodup := by
    rw [List.map_id']; exact nodup_intRange s e
  have hFF := filter_flatten_key (intRange s e) (fun i => i) (rowParticles g bins2)
    (fun p => toInt (p.x / g.binSize)) hnd hR
  -- the rows of `bins3`
  have h3 : sweptParticles g s e bins3 = (sweptParticles g s e bins2).filter
      (fun p => !decide ((rank ≠ 0 ∧ toInt (p.x / g.binSize) = s) ∨
        (rank ≠ n_proc - 1 ∧ toInt (p.x / g.binSize) = e - 1))) := by
    rw [swept_eq_rows, swept_eq_rows, filter_flatten_map]
    congr 1
    apply List.map_congr_left
    intro i hi
    have hi' := (mem_intRange s e i).1 hi
    by_cases hd : (rank ≠ 0 ∧ i = s) ∨ (rank ≠ n_proc - 1 ∧ i = e - 1)
    · have e1 : rowParticles g bins3 i = [] := by
        apply rowParticles_nil
        intro k hk
        rw [hF, if_pos]
        unfold flushedIdx
        rcases hd with ⟨h1, h2⟩ | ⟨h1, h2⟩
        · exact Or.inl ⟨h1, Or.inr (h2 ▸ hk)⟩
        · exact Or.inr ⟨h1, Or.inr (h2 ▸ hk)⟩
      rw [e1]
      symm
      apply List.filter_eq_nil_iff.2
      intro p hp
      rw [hR i hi p hp]
      simp [hd]
    · have e1 : rowParticles g bins3 i = rowParticles g bins2 i := by
        apply rowParticles_congr
        intro k hk
        rw [hF, if_neg]
        unfold flushedIdx
        rintro (⟨h1, hk' | hk'⟩ | ⟨h1, hk' | hk'⟩)
        · have := inRow_unique g _ _ k hk hk'; omega
        · have := inRow_unique g _ _ k hk hk'; exact hd (Or.inl ⟨h1, this⟩)
        · have := inRow_unique g _ _ k hk hk'; omega
        · have := inRow_unique g _ _ k hk hk'; exact hd (Or.inr ⟨h1, this⟩)
      rw [e1]
      symm
      apply List.filter_eq_self.2
      intro p hp
      rw [hR i hi p hp]
      simp [hd]
  have hX1 : (if rank ≠ 0 then rowParticles g bins2 s else []) =
      (sweptParticles g s e bins2).filter
        (fun p => decide (rank ≠ 0 ∧ toInt (p.x / g.binSize) = s)) := by
    rw [← cond_filter_eq, swept_eq_rows, hFF.1 s ((mem_intRange s e s).2 ⟨le_refl _, hse⟩)]
  have hX2 : (if rank ≠ n_proc - 1 ∧ ¬ (rank ≠ 0 ∧ e - 1 = s) then rowParticles g bins2 (e - 1)
      else []) = (sweptParticles g s e bins2).filter
        (fun p => decide ((rank ≠ n_proc - 1 ∧ ¬ (rank ≠ 0 ∧ e - 1 = s)) ∧
          toInt (p.x / g.binSize) = e - 1)) := by
    rw [← cond_filter_eq, swept_eq_rows,
      hFF.1 (e - 1) ((mem_intRange s e (e - 1)).2 ⟨by omega, by omega⟩)]
  rw [h3, hX1, hX2]
  have s1 := filter_split (sweptParticles g s e bins2)
    (fun p => decide (rank ≠ 0 ∧ toInt (p.x / g.binSize) = s))
    (fun p => decide ((rank ≠ n_proc - 1 ∧ ¬ (rank ≠ 0 ∧ e - 1 = s)) ∧
      toInt (p.x / g.binSize) = e - 1))
    (fun p => decide ((rank ≠ 0 ∧ toInt (p.x / g.binSize) = s) ∨
      (rank ≠ n_proc - 1 ∧ toInt (p.x / g.binSize) = e - 1))) (by
      intro a _
      simp only [decide_eq_true_eq]
      constructor
      · constructor
        · rintro (h | h)
          · exact Or.inl h
          · by_cases hc : rank ≠ 0 ∧ e - 1 = s
            · exact Or.inl ⟨hc.1, by rw [h.2]; exact hc.2⟩
            · exact Or.inr ⟨⟨h.1, hc⟩, h.2⟩
        · rintro (h | h)
          · exact Or.inl h
          · exact Or.inr ⟨h.1.1, h.2⟩
      · rintro ⟨h1, h2⟩
        exact h2.1.2 ⟨h1.1, by rw [← h2.2, h1.2]⟩)
  have s2 := filter_split (sweptParticles g s e bins2)
    (fun p => !decide ((rank ≠ 0 ∧ toInt (p.x / g.binSize) = s) ∨
      (rank ≠ n_proc - 1 ∧ toInt (p.x / g.binSize) = e - 1)))
    (fun p => decide ((rank ≠ 0 ∧ toInt (p.x / g.binSize) = s) ∨
      (rank ≠ n_proc - 1 ∧ toInt (p.x / g.binSize) = e - 1)))
    (fun _ => true) (by
      intro a _
      by_cases h : (rank ≠ 0 ∧ toInt (a.x / g.binSize) = s) ∨
        (rank ≠ n_proc - 1 ∧ toInt (a.x / g.binSize) = e - 1)
      · simp [h]
      · simp [h])
  rw [List.filter_true] at s2
  exact (List.Perm.append_left _ s1).trans s2

/-- After the reinsertion every particle of an own bin is a moved particle of
the domain that carries the index of the bin. -/
theorem own_bins_consistent (g : Globals) (hg : g.WF) (move : particle_t → particle_t)
    (s e : Int) (bins bins2 : List bin_t)
    (hD : ∀ q ∈ sweptParticles g s e bins, inDomain g (move q))
    (hO : ∀ k, k ∈ (sweepPairs g s e).map (pairIndex g) → (getBin bins2 k).Perm
      (((sweptParticles g s e bins).map move).filter (fun p => binIndex g p = k)))
    (ij : Int × Int) (hij : ij ∈ sweepPairs g s e) (p : particle_t)
    (hp : p ∈ getBin bins2 (pairIndex g ij)) :
    inDomain g p ∧ binIndex g p = pairIndex g ij ∧ toInt (p.x / g.binSize) = ij.1 := by
  have hp' := (hO _ (List.mem_map_of_mem _ hij)).subset hp
  rw [List.mem_filter] at hp'
  obtain ⟨q, hq, rfl⟩ := List.mem_map.1 hp'.1
  have hidx := of_decide_eq_true hp'.2
  exact ⟨hD q hq, hidx, ((binIndex_eq_pairIndex_iff g hg _ (hD q hq) ij
    ((mem_sweepPairs g s e ij).1 hij).2).1 hidx).1⟩

theorem own_rows_consistent (g : Globals) (hg : g.WF) (move : particle_t → particle_t)
    (s e : Int) (bins bins2 : List bin_t)
    (hD : ∀ q ∈ sweptParticles g s e bins, inDomain g (move q))
    (hO : ∀ k, k ∈ (sweepPairs g s e).map (pairIndex g) → (getBin bins2 k).Perm
      (((sweptParticles g s e bins).map move).filter (fun p => binIndex g p = k)))
    (i : Int) (hi : s ≤ i ∧ i < e) (p : particle_t) (hp : p ∈ rowParticles g bins2 i) :
    inDomain g p ∧ toInt (p.x / g.binSize) = i := by
  obtain ⟨j, hj, hpj⟩ := (mem_rowParticles g bins2 i p).1 hp
  have := own_bins_consistent g hg move s e bins bins2 hD hO (i, j)
    ((mem_sweepPairs g s e (i, j)).2 ⟨hi, hj⟩) p hpj
  exact ⟨this.1, this.2.2⟩

/-- Particle conservation on one rank, lines 192-245: the particles of the
own rows after the ghost flush, together with `remote_move`, are a
rearrangement of the moved particles of the own rows before the step; and
every particle of `remote_move` is in the domain. -/
theorem local_conservation (g : Globals) (hg : g.WF) (move : particle_t → particle_t)
    (n_proc rank : Int) (bins bins3 : List bin_t) (rm : bin_t) (hP : 1 ≤ n_proc)
    (hr : 0 ≤ rank ∧ rank < n_proc) (hw : 1 ≤ x_bins_per_proc g.binCount n_proc)
    (hD : ∀ q ∈ sweptParticles g (my_bins_start g.binCount n_proc rank)
      (my_bins_end g.binCount n_proc rank) bins, inDomain g (move q))
    (h : LocalOutcome g move n_proc rank bins bins3 rm) :
    (sweptParticles g (my_bins_start g.binCount n_proc rank)
      (my_bins_end g.binCount n_proc rank) bins3 ++ rm).Perm
      ((sweptParticles g (my_bins_start g.binCount n_proc rank)
        (my_bins_end g.binCount n_proc rank) bins).map move) ∧
    ∀ p ∈ rm, inDomain g p := by
  have hbc := WF_binCount_pos g hg
  obtain ⟨h0, h1, h2, h3, h4⟩ := partition_facts g.binCount n_proc rank hP hr hw (by omega)
  obtain ⟨bins2, rm0, hl2, hN, hO, hR, hT, hl3, hF, hrm⟩ := h
  have hrows := own_rows_consistent g hg move _ _ bins bins2 hD hO
  have hfl := flush_conservation g n_proc rank _ _ bins2 bins3 h1
    (fun i hi p hp => (hrows i hi p hp).2) hF
  constructor
  · rw [hrm, List.append_assoc rm0]
    refine (List.Perm.trans ?_ (hfl.append_right rm0)).trans hT
    rw [List.append_assoc]
    exact List.Perm.append_left _ List.perm_append_comm
  · intro p hp
    rw [hrm] at hp
    rcases List.mem_append.1 hp with hp | hp
    · rcases List.mem_append.1 hp with hp | hp
      · have := hR.subset hp
        rw [List.mem_filter] at this
        obtain ⟨q, hq, rfl⟩ := List.mem_map.1 this.1
        exact hD q hq
      · by_cases hc : rank ≠ 0
        · rw [if_pos hc] at hp
          exact (hrows _ ⟨le_refl _, h1⟩ p hp).1
        · rw [if_neg hc] at hp; cases hp
    · by_cases hc : rank ≠ n_proc - 1 ∧ ¬ (rank ≠ 0 ∧
          my_bins_end g.binCount n_proc rank - 1 = my_bins_start g.binCount n_proc rank)
      · rw [if_pos hc] at hp
        exact (hrows _ ⟨by omega, by omega⟩ p hp).1
      · rw [if_neg hc] at hp; cases hp

/-! ## All ranks -/

/-- When the body succeeds on every rank, `mapRanks` returns the list of the
results. -/
theorem mapRanks_spec {α β : Type} [Inhabited α] [Inhabited β]
    (f : Int → α → Except Fault β) (R : Int → α → β → Prop)
    (r0 : Int) (l : List α)
    (h : ∀ n, n < l.length → ∃ b, f (r0 + n) (l.getD n default) = .ok b ∧
      R (r0 + n) (l.getD n default) b) :
    ∃ bs, mapRanks f r0 l = .ok bs ∧ bs.length = l.length ∧
      ∀ n, n < l.length → R (r0 + n) (l.getD n default) (bs.getD n default) := by
  induction l generalizing r0 with
  | nil => exact ⟨[], rfl, rfl, fun n hn => absurd hn (Nat.not_lt_zero n)⟩
  | cons a as ih =>
    obtain ⟨b, hb, hRb⟩ := h 0 (by simp)
    simp only [Nat.cast_zero, add_zero, List.getD_cons_zero] at hb hRb
    obtain ⟨bs, hbs, hlen, hR⟩ := ih (r0 + 1) (by
      intro n hn
      have := h (n + 1) (by simpa using hn)
      simp only [List.getD_cons_succ, Nat.cast_add, Nat.cast_one] at this
      rw [show r0 + 1 + (n : Int) = r0 + ((n : Int) + 1) by ring]
      exact this)
    refine ⟨b :: bs, by simp only [mapRanks, hb, hbs], by simp [hlen], ?_⟩
    intro n hn
    cases n with
    | zero => simpa using hRb
    | succ n =>
      have := hR n (by simpa using hn)
      simp only [List.getD_cons_succ, Nat.cast_add, Nat.cast_one]
      rw [show r0 + ((n : Int) + 1) = r0 + 1 + (n : Int) by ring]
      exact this

/-- Lines 312-316: the insertion of received particles of the domain
succeeds; every bin gains, in order, the particles that the formula sends to
it. -/
theorem local_insert_spec (g : Globals) (hg : g.WF) (ps : bin_t) (bins : List bin_t)
    (hlen : (bins.length : Int) = g.binCount * g.binCount)
    (hdom : ∀ p ∈ ps, inDomain g p) :
    ∃ bins', local_insert g ps bins = .ok bins' ∧ bins'.length = bins.length ∧
      ∀ k, getBin bins' k = getBin bins k ++ ps.filter (fun p => binIndex g p = k) := by
  unfold local_insert
  obtain ⟨bins', h1, h2, h3, _⟩ := push_all_spec g
    (fun p b =>
      if 0 ≤ p.x ∧ 0 ≤ p.y ∧ p.x ≤ g.gridSize ∧ p.y ≤ g.gridSize then
        push_particles_in_bin g p b
      else .error .assertFailed) ps bins
    (by
      intro p hp b
      have := hdom p hp
      unfold inDomain at this
      simp only [this, and_self, if_true]
      rfl)
    (by
      intro p hp
      rw [hlen]
      exact binIndex_bounds g hg p (hdom p hp))
  exact ⟨bins', h1, h2, h3⟩

/-- Lines 192-316: with `x_bins_per_proc ≥ 1` and moved particles in the
domain, one migration round succeeds on every rank; the final grid of rank
`n` is its grid after the ghost flush, each bin `k` extended by the gathered
particles with bin index `k` that the root sends to `n`. -/
theorem round_spec (g : Globals) (hg : g.WF) (move : particle_t → particle_t)
    (world : List (List bin_t)) (hP : 0 < world.length)
    (hw : 1 ≤ x_bins_per_proc g.binCount world.length) (hready : StepReady g move world) :
    ∃ locals world',
      mapRanks (fun rank bins => local_phase g move world.length rank bins) 0 world =
        .ok locals ∧
      locals.length = world.length ∧
      (∀ n, n < world.length → LocalOutcome g move world.length n (world.getD n [])
        (locals.getD n default).1 (locals.getD n default).2) ∧
      (∀ p ∈ (locals.map Prod.snd).flatten, inDomain g p) ∧
      migration_round g move world = .ok world' ∧
      world'.length = world.length ∧
      ∀ n, n < world.length →
        (world'.getD n []).length = (world.getD n []).length ∧
        ∀ k, getBin (world'.getD n []) k = getBin (locals.getD n default).1 k ++
          ((locals.map Prod.snd).flatten.filter (receives g world.length n)).filter
            (fun p => binIndex g p = k) := by
  have hP' : (1 : Int) ≤ world.length := by exact_mod_cast hP
  -- every rank up to the ghost flush
  obtain ⟨locals, hloc, hloclen, hout⟩ := mapRanks_spec
    (fun rank bins => local_phase g move world.length rank bins)
    (fun rank bins st => LocalOutcome g move world.length rank bins st.1 st.2) 0 world (by
      intro n hn
      obtain ⟨hl, hD⟩ := hready n hn
      obtain ⟨bins3, rm, h1, h2⟩ := local_phase_spec g hg move world.length (0 + n) _ hP'
        ⟨by omega, by omega⟩ hw hl (by rw [zero_add]; exact hD)
      exact ⟨(bins3, rm), h1, h2⟩)
  simp only [zero_add] at hout
  -- the gathered particles are in the domain
  have hdom : ∀ p ∈ (locals.map Prod.snd).flatten, inDomain g p := by
    intro p hp
    simp only [List.mem_flatten, List.mem_map] at hp
    obtain ⟨l, ⟨st, hst, rfl⟩, hpl⟩ := hp
    obtain ⟨n, hn, rfl⟩ := List.getElem_of_mem hst
    have hn' : n < world.length := by rw [← hloclen]; exact hn
    have ho := hout n hn'
    rw [List.getD_eq_getElem _ _ hn] at ho
    exact (local_conservation g hg move world.length n _ _ _ hP' ⟨by omega, by omega⟩ hw
      (hready n hn').2 ho).2 p hpl
  -- root redistribution
  obtain ⟨sp, hsp, hsplen, hspget⟩ := root_redistribute_ok g world.length
    (locals.map Prod.snd).flatten hP' hw hg.1 hdom
  -- insertion on every rank
  obtain ⟨world', hw', hwlen, hfin⟩ := mapRanks_spec
    (fun (rank : Int) (st : List bin_t × bin_t) =>
      local_insert g ((scatter sp).getD rank.toNat []) st.1)
    (fun rank st bins' => bins'.length = st.1.length ∧
      ∀ k, getBin bins' k = getBin st.1 k ++
        ((locals.map Prod.snd).flatten.filter (receives g world.length rank)).filter
          (fun p => binIndex g p = k)) 0 locals (by
      intro n hn
      have hn' : n < world.length := by rw [← hloclen]; exact hn
      obtain ⟨bins2, rm0, hl2, _, _, _, _, hl3, _, _⟩ := hout n hn'
      have hrecv : (scatter sp).getD (0 + (n : Int)).toNat [] =
          (locals.map Prod.snd).flatten.filter (receives g world.length (0 + (n : Int))) := by
        rw [scatter_eq, ← hspget, zero_add, Int.toNat_ofNat]
        unfold getBin
        simp
      obtain ⟨bins', h1, h2, h3⟩ := local_insert_spec g hg
        ((locals.map Prod.snd).flatten.filter (receives g world.length (0 + (n : Int))))
        (locals.getD n default).1 (by rw [hl3]; exact (hready n hn').1)
        (fun p hp => hdom p (List.mem_of_mem_filter hp))
      refine ⟨bins', ?_, h2, h3⟩
      simp only [hrecv]
      exact h1)
  simp only [zero_add] at hfin
  refine ⟨locals, world', hloc, hloclen, hout, hdom, ?_, by rw [hwlen, hloclen], ?_⟩
  · unfold migration_round
    simp only [hloc, gather_eq, hsp]
    exact hw'
  · intro n hn
    have hn' : n < locals.length := by rw [hloclen]; exact hn
    obtain ⟨h1, h2⟩ := hfin n hn'
    obtain ⟨bins2, rm0, hl2, _, _, _, _, hl3, _, _⟩ := hout n hn
    exact ⟨h1.trans hl3, h2⟩

/-! ## Owned-particle counts -/

theorem ownIndices_eq (g : Globals) (n_proc rank : Int) :
    ownIndices g n_proc rank =
      (sweepPairs g (my_bins_start g.binCount n_proc rank)
        (my_bins_end g.binCount n_proc rank)).map (pairIndex g) := by
  unfold ownIndices sweepPairs
  rw [List.map_flatMap]
  simp only [List.map_map]
  rfl

theorem owned_count_eq (g : Globals) (n_proc rank : Int) (bins : List bin_t) :
    owned_count g n_proc rank bins =
      (sweptParticles g (my_bins_start g.binCount n_proc rank)
        (my_bins_end g.binCount n_proc rank) bins).length := by
  unfold owned_count sweptParticles
  rw [ownIndices_eq, List.length_flatten, List.map_map, List.map_map]
  rfl

theorem total_owned_eq_sum (g : Globals) (n_proc r0 : Int) (world : List (List bin_t)) :
    total_owned g n_proc r0 world =
      ((List.range world.length).map
        (fun (n : Nat) => owned_count g n_proc (r0 + (n : Int)) (world.getD n []))).sum := by
  induction world generalizing r0 with
  | nil => rfl
  | cons b bs ih =>
    rw [total_owned, ih, List.length_cons, List.range_succ_eq_map, List.map_cons, List.sum_cons,
      List.map_map]
    simp only [Nat.cast_zero, add_zero, List.getD_cons_zero]
    congr 2
    apply List.map_congr_left
    intro n _
    simp only [Function.comp, List.getD_cons_succ, Nat.cast_succ]
    rw [show r0 + 1 + (n : Int) = r0 + ((n : Int) + 1) by ring]

theorem map_eq_range_map {α β : Type} (l : List α) (f : α → β) (d : α) :
    l.map f = (List.range l.length).map (fun n => f (l.getD n d)) := by
  apply List.ext_getElem (by simp)
  intro n h1 h2
  simp only [List.getElem_map, List.getElem_range]
  rw [List.getD_eq_getElem l d (by simpa using h1)]

/-- The gathered particles that the root sends to rank `n` and that fall in
the own bins of `n` are those whose owner is `n`. -/
theorem received_owned_iff (g : Globals) (hg : g.WF) (n_proc n : Int) (hP : 1 ≤ n_proc)
    (hn : 0 ≤ n ∧ n < n_proc) (hw : 1 ≤ x_bins_per_proc g.binCount n_proc) (p : particle_t)
    (hp : inDomain g p) :
    (receives g n_proc n p = true ∧
      binIndex g p ∈ (sweepPairs g (my_bins_start g.binCount n_proc n)
        (my_bins_end g.binCount n_proc n)).map (pairIndex g)) ↔ owner g n_proc p = n := by
  have hx := coord_bounds g hg p.x hp.1 hp.2.2.1
  constructor
  · rintro ⟨_, hmem⟩
    obtain ⟨ij, hij, hidx⟩ := List.mem_map.1 hmem
    have hm := (mem_sweepPairs g _ _ ij).1 hij
    have hc := (binIndex_eq_pairIndex_iff g hg p hp ij hm.2).1 hidx.symm
    have : inRange g.binCount n_proc n (toInt (p.x / g.binSize)) := by
      unfold inRange; rw [hc.1]; exact hm.1
    exact ((owner_inRange g n_proc p hP hw hx n hn).1 this).symm
  · intro h
    subst h
    refine ⟨receives_owner g n_proc p, ?_⟩
    have := (owner_inRange g n_proc p hP hw hx _ hn).2 rfl
    exact binIndex_mem_sweep g hg _ _ p hp this

/-- The own bins after the insertion: the own bins before it and the
gathered particles whose owner is the rank. -/
theorem swept_insert_perm (g : Globals) (hg : g.WF) (n_proc n : Int) (hP : 1 ≤ n_proc)
    (hn : 0 ≤ n ∧ n < n_proc) (hw : 1 ≤ x_bins_per_proc g.binCount n_proc)
    (A B : List bin_t) (G : bin_t) (hG : ∀ p ∈ G, inDomain g p)
    (hB : ∀ k, getBin B k = getBin A k ++
      (G.filter (receives g n_proc n)).filter (fun p => binIndex g p = k)) :
    (sweptParticles g (my_bins_start g.binCount n_proc n) (my_bins_end g.binCount n_proc n)
      B).Perm
      (sweptParticles g (my_bins_start g.binCount n_proc n) (my_bins_end g.binCount n_proc n) A
        ++ G.filter (fun p => owner g n_proc p = n)) := by
  generalize hs : my_bins_start g.binCount n_proc n = s
  generalize he : my_bins_end g.binCount n_proc n = e
  unfold sweptParticles
  have e1 : (sweepPairs g s e).map (fun ij => getBin B (pairIndex g ij)) =
      (sweepPairs g s e).map (fun ij => getBin A (pairIndex g ij) ++
        (G.filter (receives g n_proc n)).filter (fun p => binIndex g p = pairIndex g ij)) :=
    List.map_congr_left (fun ij _ => hB _)
  rw [e1]
  refine (flatten_map_append_perm _ _ _).symm.trans (List.Perm.append_left _ ?_)
  -- the received particles that fall in the own bins
  have e2 : (sweepPairs g s e).map (fun ij =>
      (G.filter (receives g n_proc n)).filter (fun p => binIndex g p = pairIndex g ij)) =
      ((sweepPairs g s e).map (pairIndex g)).map (fun k =>
        (G.filter (fun p => owner g n_proc p = n)).filter (fun p => binIndex g p = k)) := by
    rw [List.map_map]
    apply List.map_congr_left
    intro ij hij
    simp only [Function.comp, List.filter_filter]
    apply List.filter_congr
    intro p hp
    have hiff := received_owned_iff g hg n_proc n hP hn hw p (hG p hp)
    rw [hs, he] at hiff
    by_cases hidx : binIndex g p = pairIndex g ij
    · have hmem : binIndex g p ∈ (sweepPairs g s e).map (pairIndex g) :=
        hidx ▸ List.mem_map_of_mem _ hij
      by_cases ho : owner g n_proc p = n
      · have := (hiff.2 ho).1
        simp [hidx, ho, this]
      · have : receives g n_proc n p = false := by
          cases hr : receives g n_proc n p with
          | false => rfl
          | true => exact absurd (hiff.1 ⟨hr, hmem⟩) ho
        simp [hidx, ho, this]
    · simp [hidx]
  rw [e2]
  apply bucket_partition _ (nodup_pairIndex g s e)
  intro p hp
  rw [List.mem_filter] at hp
  have hiff := received_owned_iff g hg n_proc n hP hn hw p (hG p hp.1)
  rw [hs, he] at hiff
  exact (hiff.2 (of_decide_eq_true hp.2)).2

/-- Every gathered particle of the domain has exactly one owner among the
ranks. -/
theorem sum_owned_received (g : Globals) (n_proc : Nat) (hP : 1 ≤ n_proc)
    (hw : 1 ≤ x_bins_per_proc g.binCount n_proc) (hbs : 0 < g.binSize) (G : bin_t)
    (hG : ∀ p ∈ G, inDomain g p) :
    ((List.range n_proc).map (fun (n : Nat) =>
      (G.filter (fun p => owner g n_proc p = (n : Int))).length)).sum = G.length := by
  have hnd : ((List.range n_proc).map (fun (n : Nat) => (n : Int))).Nodup :=
    (List.nodup_range n_proc).map (fun a b h => by simpa using h)
  have := bucket_partition _ hnd G (owner g n_proc) (by
    intro p hp
    have hx : 0 ≤ toInt (p.x / g.binSize) := toInt_nonneg _ (div_nonneg (hG p hp).1 hbs.le)
    obtain ⟨h0, h1⟩ := owner_bounds g n_proc p (by exact_mod_cast hP) hw hx
    refine List.mem_map.2 ⟨(owner g n_proc p).toNat, List.mem_range.2 ?_, ?_⟩
    · omega
    · omega)
  have hlen := this.length_eq
  rw [List.length_flatten, List.map_map, List.map_map] at hlen
  rw [← hlen]
  rfl

/-! ## C2: particle conservation -/

/-- C2, as stated, fails: a run with `n = 1` (a 3 x 3 grid) on 4 ranks has
`x_bins_per_proc = 0`; rank 0 then accesses bin `-3` in its ghost flush and
the round has no result, so no owned-particle count is conserved. -/
theorem particle_conservation_counterexample :
    g1.WF ∧ StepReady g1 id [grid1, grid1, grid1, grid1] ∧
    x_bins_per_proc g1.binCount 4 = 0 ∧
    total_owned g1 4 0 [grid1, grid1, grid1, grid1] = 1 ∧
    migration_round g1 id [grid1, grid1, grid1, grid1] = .error .outOfBounds := by
  refine ⟨by decide!, by decide!, by decide, by decide, by decide!⟩

/-- C2 (amended): for every worker count `P ≥ 1` with
`x_bins_per_proc = binCount / P ≥ 1`, when the grid replicas have
`binCount * binCount` bins and `move` keeps the own particles of every rank
in the domain, one full migration round (move and compaction, ghost flush,
gather, root redistribution, scatter, local insertion) succeeds and leaves
the total owned-particle count unchanged. -/
theorem particle_conservation (g : Globals) (hg : g.WF) (move : particle_t → particle_t)
    (world : List (List bin_t)) (hP : 0 < world.length)
    (hw : 1 ≤ x_bins_per_proc g.binCount world.length) (hready : StepReady g move world) :
    ∃ world', migration_round g move world = .ok world' ∧ world'.length = world.length ∧
      total_owned g world.length 0 world' = total_owned g world.length 0 world := by
  have hP' : (1 : Int) ≤ world.length := by exact_mod_cast hP
  obtain ⟨locals, world', hloc, hloclen, hout, hdom, hround, hwlen, hfin⟩ :=
    round_spec g hg move world hP hw hready
  refine ⟨world', hround, hwlen, ?_⟩
  rw [total_owned_eq_sum, total_owned_eq_sum, hwlen]
  simp only [zero_add, owned_count_eq]
  -- per rank: the own rows after the round
  have hafter : ∀ n ∈ List.range world.length,
      (sweptParticles g (my_bins_start g.binCount world.length n)
        (my_bins_end g.binCount world.length n) (world'.getD n [])).length =
      (sweptParticles g (my_bins_start g.binCount world.length n)
        (my_bins_end g.binCount world.length n) (locals.getD n default).1).length +
      ((locals.map Prod.snd).flatten.filter
        (fun p => owner g world.length p = (n : Int))).length := by
    intro n hn
    have hn' := List.mem_range.1 hn
    have := (swept_insert_perm g hg world.length n hP' ⟨by omega, by omega⟩ hw
      (locals.getD n default).1 (world'.getD n []) _ hdom (hfin n hn').2).length_eq
    rw [this, List.length_append]
  -- per rank: the own rows before the round
  have hbefore : ∀ n ∈ List.range world.length,
      (sweptParticles g (my_bins_start g.binCount world.length n)
        (my_bins_end g.binCount world.length n) (world.getD n [])).length =
      (sweptParticles g (my_bins_start g.binCount world.length n)
        (my_bins_end g.binCount world.length n) (locals.getD n default).1).length +
      (locals.getD n default).2.length := by
    intro n hn
    have hn' := List.mem_range.1 hn
    have := (local_conservation g hg move world.length n _ _ _ hP' ⟨by omega, by omega⟩ hw
      (hready n hn').2 (hout n hn')).1.length_eq
    rw [List.length_append, List.length_map] at this
    exact this.symm
  rw [List.map_congr_left hafter, List.map_congr_left hbefore, List.sum_map_add,
    List.sum_map_add]
  congr 1
  rw [sum_owned_received g world.length hP hw hg.1 _ hdom, List.length_flatten, List.map_map,
    map_eq_range_map locals _ default, hloclen]
  rfl

/-- C2 (amended) on 3 ranks, one row each, the particles of rows 0 and 2
changing owner. -/
theorem particle_conservation_witness :
    ∃ world', migration_round g3 flipX [grid3, grid3, grid3] = .ok world' ∧
      world'.length = ([grid3, grid3, grid3] : List (List bin_t)).length ∧
      total_owned g3 ([grid3, grid3, grid3] : List (List bin_t)).length 0 world' =
        total_owned g3 ([grid3, grid3, grid3] : List (List bin_t)).length 0
          [grid3, grid3, grid3] :=
  particle_conservation g3 (by decide!) flipX [grid3, grid3, grid3] (by decide) (by decide)
    (by decide!)

/-! ## Ghost rows after the round -/

theorem row_of_index (g : Globals) (hg : g.WF) (p : particle_t) (hp : inDomain g p)
    (i k : Int) (hk : inRow g i k) (hidx : binIndex g p = k) :
    toInt (p.x / g.binSize) = i := by
  unfold inRow at hk
  have := (binIndex_eq_pairIndex_iff g hg p hp (i, k - i * g.binCount)
    ⟨by simp only; omega, by simp only; omega⟩).1 (by unfold pairIndex; simp only; omega)
  exact this.1

theorem my_bins_end_eq_start (binCount n_proc rank : Int) (h : rank ≠ n_proc - 1) :
    my_bins_end binCount n_proc rank = my_bins_start binCount n_proc (rank + 1) := by
  unfold my_bins_end my_bins_start
  rw [if_neg h]

/-- A gathered particle in the first row of rank `m + 1` is sent to `m + 1`
(its owner) and to `m`. -/
theorem received_first_row (g : Globals) (hg : g.WF) (n_proc m : Int) (hP : 1 ≤ n_proc)
    (hm : 0 ≤ m ∧ m + 1 < n_proc) (hw : 1 ≤ x_bins_per_proc g.binCount n_proc)
    (p : particle_t) (hp : inDomain g p)
    (hrow : toInt (p.x / g.binSize) = my_bins_start g.binCount n_proc (m + 1)) :
    receives g n_proc (m + 1) p = true ∧ receives g n_proc m p = true := by
  have hbc := WF_binCount_pos g hg
  have hx := coord_bounds g hg p.x hp.1 hp.2.2.1
  obtain ⟨_, h1, _, _, _⟩ := partition_facts g.binCount n_proc (m + 1) hP ⟨by omega, by omega⟩ hw
    (by omega)
  have ho : owner g n_proc p = m + 1 :=
    ((owner_inRange g n_proc p hP hw hx (m + 1) ⟨by omega, by omega⟩).1
      ⟨by rw [hrow], by rw [hrow]; exact h1⟩).symm
  constructor
  · rw [← ho]; exact receives_owner g n_proc p
  · have := receives_prev g n_proc p hw hx.1 (by rw [ho]; exact hrow) (by rw [ho]; omega)
    rw [ho] at this
    simpa using this

/-- A gathered particle in the last row of rank `m`, `m` not the last rank,
is sent to `m` (its owner) and to `m + 1`. -/
theorem received_last_row (g : Globals) (hg : g.WF) (n_proc m : Int) (hP : 1 ≤ n_proc)
    (hm : 0 ≤ m ∧ m + 1 < n_proc) (hw : 1 ≤ x_bins_per_proc g.binCount n_proc)
    (p : particle_t) (hp : inDomain g p)
    (hrow : toInt (p.x / g.binSize) = my_bins_end g.binCount n_proc m - 1) :
    receives g n_proc m p = true ∧ receives g n_proc (m + 1) p = true := by
  have hbc := WF_binCount_pos g hg
  have hx := coord_bounds g hg p.x hp.1 hp.2.2.1
  obtain ⟨_, h1, _, _, _⟩ := partition_facts g.binCount n_proc m hP ⟨by omega, by omega⟩ hw
    (by omega)
  have ho : owner g n_proc p = m :=
    ((owner_inRange g n_proc p hP hw hx m ⟨by omega, by omega⟩).1
      ⟨by rw [hrow]; omega, by rw [hrow]; omega⟩).symm
  constructor
  · rw [← ho]; exact receives_owner g n_proc p
  · have := receives_next g n_proc p hw hx.1 (by rw [ho]; exact hrow) (by rw [ho]; omega)
    rw [ho] at this
    exact this

/-- A bin of a flushed row holds, after the round, the gathered particles
with its index that the root sent to the rank. -/
theorem final_flushed_bin (g : Globals) (move : particle_t → particle_t) (n_proc n : Int)
    (bins bins3 final : List bin_t) (rm G : bin_t)
    (hout : LocalOutcome g move n_proc n bins bins3 rm)
    (hfin : ∀ k, getBin final k = getBin bins3 k ++
      (G.filter (receives g n_proc n)).filter (fun p => binIndex g p = k))
    (k : Int) (hk : flushedIdx g n_proc n (my_bins_start g.binCount n_proc n)
      (my_bins_end g.binCount n_proc n) k) :
    getBin final k = (G.filter (receives g n_proc n)).filter (fun p => binIndex g p = k) := by
  obtain ⟨bins2, rm0, _, _, _, _, _, _, hF, _⟩ := hout
  rw [hfin, hF, if_pos hk, List.nil_append]

theorem filter_received_eq (g : Globals) (n_proc n : Int) (G : bin_t) (k : Int)
    (h : ∀ p ∈ G, binIndex g p = k → receives g n_proc n p = true) :
    (G.filter (receives g n_proc n)).filter (fun p => binIndex g p = k) =
      G.filter (fun p => binIndex g p = k) := by
  rw [List.filter_filter]
  apply List.filter_congr
  intro p hp
  by_cases hidx : binIndex g p = k
  · simp [hidx, h p hp hidx]
  · simp [hidx]

/-- After the round, in the two rows on either side of the boundary between
the ranks `m` and `m + 1`, both ranks hold in every bin the gathered
particles with the index of the bin. -/
theorem boundary_rows_after_round (g : Globals) (hg : g.WF) (move : particle_t → particle_t)
    (locals : List (List bin_t × bin_t)) (world' : List (List bin_t)) (n_proc : Int)
    (hP : 1 ≤ n_proc) (hw : 1 ≤ x_bins_per_proc g.binCount n_proc)
    (binsOf : Nat → List bin_t)
    (hout : ∀ n : Nat, (n : Int) < n_proc → LocalOutcome g move n_proc n (binsOf n)
      (locals.getD n default).1 (locals.getD n default).2)
    (hdom : ∀ p ∈ (locals.map Prod.snd).flatten, inDomain g p)
    (hfin : ∀ n : Nat, (n : Int) < n_proc →
      ∀ k, getBin (world'.getD n []) k = getBin (locals.getD n default).1 k ++
        ((locals.map Prod.snd).flatten.filter (receives g n_proc n)).filter
          (fun p => binIndex g p = k))
    (m : Nat) (hm : (m : Int) + 1 < n_proc) (k : Int)
    (hk : inRow g (my_bins_end g.binCount n_proc m) k ∨
      inRow g (my_bins_end g.binCount n_proc m - 1) k) :
    getBin (world'.getD m []) k =
      (locals.map Prod.snd).flatten.filter (fun p => binIndex g p = k) ∧
    getBin (world'.getD (m + 1) []) k =
      (locals.map Prod.snd).flatten.filter (fun p => binIndex g p = k) := by
  have hne : (m : Int) ≠ n_proc - 1 := by omega
  have hes := my_bins_end_eq_start g.binCount n_proc m hne
  have hcast : ((m + 1 : Nat) : Int) = (m : Int) + 1 := by push_cast; rfl
  have hrecv : ∀ p ∈ (locals.map Prod.snd).flatten, binIndex g p = k →
      receives g n_proc m p = true ∧ receives g n_proc ((m : Int) + 1) p = true := by
    intro p hp hidx
    rcases hk with hk | hk
    · have hrow := row_of_index g hg p (hdom p hp) _ k hk hidx
      rw [hes] at hrow
      exact (received_first_row g hg n_proc m hP ⟨by omega, hm⟩ hw p (hdom p hp) hrow).symm
    · have hrow := row_of_index g hg p (hdom p hp) _ k hk hidx
      exact received_last_row g hg n_proc m hP ⟨by omega, hm⟩ hw p (hdom p hp) hrow
  constructor
  · rw [final_flushed_bin g move n_proc m _ _ _ _ _ (hout m (by omega)) (hfin m (by omega)) k
      (Or.inr ⟨hne, hk⟩)]
    exact filter_received_eq g n_proc m _ k (fun p hp hidx => (hrecv p hp hidx).1)
  · have hfl : flushedIdx g n_proc ((m + 1 : Nat) : Int)
        (my_bins_start g.binCount n_proc ((m + 1 : Nat) : Int))
        (my_bins_end g.binCount n_proc ((m + 1 : Nat) : Int)) k := by
      rw [hcast, ← hes]
      exact Or.inl ⟨by omega, hk.symm⟩
    rw [final_flushed_bin g move n_proc ((m + 1 : Nat) : Int) _ _ _ _ _
      (hout (m + 1) (by omega)) (hfin (m + 1) (by omega)) k hfl, hcast]
    exact filter_received_eq g n_proc _ _ k (fun p hp hidx => (hrecv p hp hidx).2)

/-! ## C5: ghost consistency -/

/-- C5, as stated, fails: a run with `n = 1` (a 3 x 3 grid) on 5 ranks
starts from consistent replicas, but `x_bins_per_proc = 0` and the step does
not reach the local insertion: the ghost flush of rank 0 accesses bin `-3`. -/
theorem ghost_consistency_counterexample :
    g1.WF ∧ StepReady g1 id [grid1, grid1, grid1, grid1, grid1] ∧
    GhostConsistent g1 [grid1, grid1, grid1, grid1, grid1] ∧
    x_bins_per_proc g1.binCount 5 = 0 ∧
    migration_round g1 id [grid1, grid1, grid1, grid1, grid1] = .error .outOfBounds := by
  refine ⟨by decide!, by decide!, by decide!, by decide, by decide!⟩

/-- C5 (amended): with `x_bins_per_proc ≥ 1`, grid replicas of
`binCount * binCount` bins and `move` keeping the own particles in the
domain, one full step succeeds, and after its local insertion the ghost rows
of every rank `r` (row `end(r)` unless `r` is the last rank, row
`start(r) - 1` unless `r = 0`) hold, bin by bin and as multisets, the same
particles as the neighbouring owner holds in that row, and every particle
they hold has that bin row. -/
theorem ghost_consistency (g : Globals) (hg : g.WF) (move : particle_t → particle_t)
    (world : List (List bin_t)) (hP : 0 < world.length)
    (hw : 1 ≤ x_bins_per_proc g.binCount world.length) (hready : StepReady g move world) :
    ∃ world', migration_round g move world = .ok world' ∧
      ∀ r, r < world.length →
        (r + 1 < world.length → ∀ k, inRow g (my_bins_end g.binCount world.length r) k →
          (getBin (world'.getD r []) k).Perm (getBin (world'.getD (r + 1) []) k) ∧
          ∀ p ∈ getBin (world'.getD r []) k, binIndex g p = k ∧
            toInt (p.x / g.binSize) = my_bins_end g.binCount world.length r) ∧
        (0 < r → ∀ k, inRow g (my_bins_start g.binCount world.length r - 1) k →
          (getBin (world'.getD r []) k).Perm (getBin (world'.getD (r - 1) []) k) ∧
          ∀ p ∈ getBin (world'.getD r []) k, binIndex g p = k ∧
            toInt (p.x / g.binSize) = my_bins_start g.binCount world.length r - 1) := by
  have hP' : (1 : Int) ≤ world.length := by exact_mod_cast hP
  obtain ⟨locals, world', hloc, hloclen, hout, hdom, hround, hwlen, hfin⟩ :=
    round_spec g hg move world hP hw hready
  refine ⟨world', hround, ?_⟩
  have hpair := boundary_rows_after_round g hg move locals world' world.length hP' hw
    (fun n => world.getD n []) (fun n hn => hout n (by exact_mod_cast hn)) hdom
    (fun n hn => (hfin n (by exact_mod_cast hn)).2)
  have hmem : ∀ (k i : Int) (l : bin_t), inRow g i k →
      l = (locals.map Prod.snd).flatten.filter (fun p => binIndex g p = k) →
      ∀ p ∈ l, binIndex g p = k ∧ toInt (p.x / g.binSize) = i := by
    intro k i l hk hl p hp
    rw [hl, List.mem_filter] at hp
    have hidx := of_decide_eq_true hp.2
    exact ⟨hidx, row_of_index g hg p (hdom p hp.1) i k hk hidx⟩
  intro r hr
  constructor
  · intro hr1 k hk
    obtain ⟨h1, h2⟩ := hpair r (by exact_mod_cast hr1) k (Or.inl hk)
    exact ⟨by rw [h1, h2], hmem k _ _ hk h1⟩
  · intro hr0 k hk
    obtain ⟨m, rfl⟩ : ∃ m, r = m + 1 := ⟨r - 1, by omega⟩
    have hm : (m : Int) + 1 < world.length := by exact_mod_cast hr
    have hes := my_bins_end_eq_start g.binCount world.length m (by omega)
    have hcast : ((m + 1 : Nat) : Int) = (m : Int) + 1 := by push_cast; rfl
    rw [hcast, ← hes] at hk
    obtain ⟨h1, h2⟩ := hpair m hm k (Or.inr hk)
    rw [hcast, ← hes, Nat.add_sub_cancel]
    exact ⟨by rw [h1, h2], hmem k _ _ hk h2⟩

/-- C5 (amended) on 3 ranks, one row each, the particles of rows 0 and 2
changing owner. -/
theorem ghost_consistency_witness :
    ∃ world', migration_round g3 flipX [grid3, grid3, grid3] = .ok world' ∧
      ∀ r, r < ([grid3, grid3, grid3] : List (List bin_t)).length →
        (r + 1 < ([grid3, grid3, grid3] : List (List bin_t)).length →
          ∀ k, inRow g3 (my_bins_end g3.binCount
              ([grid3, grid3, grid3] : List (List bin_t)).length r) k →
          (getBin (world'.getD r []) k).Perm (getBin (world'.getD (r + 1) []) k) ∧
          ∀ p ∈ getBin (world'.getD r []) k, binIndex g3 p = k ∧
            toInt (p.x / g3.binSize) = my_bins_end g3.binCount
              ([grid3, grid3, grid3] : List (List bin_t)).length r) ∧
        (0 < r → ∀ k, inRow g3 (my_bins_start g3.binCount
              ([grid3, grid3, grid3] : List (List bin_t)).length r - 1) k →
          (getBin (world'.getD r []) k).Perm (getBin (world'.getD (r - 1) []) k) ∧
          ∀ p ∈ getBin (world'.getD r []) k, binIndex g3 p = k ∧
            toInt (p.x / g3.binSize) = my_bins_start g3.binCount
              ([grid3, grid3, grid3] : List (List bin_t)).length r - 1) :=
  ghost_consistency g3 (by decide!) flipX [grid3, grid3, grid3] (by decide) (by decide)
    (by decide!)

/-! ## Zero motion -/

theorem rowParticles_filter (g : Globals) (bins : List bin_t) (i k : Int)
    (h : ∀ j, 0 ≤ j ∧ j < g.binCount → ∀ p ∈ getBin bins (i * g.binCount + j),
      binIndex g p = i * g.binCount + j) :
    (rowParticles g bins i).filter (fun p => binIndex g p = k) =
      if inRow g i k then getBin bins k else [] := by
  have hFF := filter_flatten_key (intRange 0 g.binCount) (fun j => i * g.binCount + j)
    (fun j => getBin bins (i * g.binCount + j)) (binIndex g) (nodup_row g i)
    (fun j hj p hp => h j ((mem_intRange 0 g.binCount j).1 hj) p hp)
  unfold rowParticles
  by_cases hk : inRow g i k
  · rw [if_pos hk]
    obtain ⟨j, hj, rfl⟩ := List.mem_map.1 ((inRow_iff g i k).1 hk)
    exact hFF.1 j hj
  · rw [if_neg hk]
    exact hFF.2 k (fun hmem => hk ((inRow_iff g i k).2 hmem))

theorem inRow_mem_sweep (g : Globals) (s e i k : Int) (hi : s ≤ i ∧ i < e) (hk : inRow g i k) :
    k ∈ (sweepPairs g s e).map (pairIndex g) := by
  unfold inRow at hk
  refine List.mem_map.2 ⟨(i, k - i * g.binCount), ?_, ?_⟩
  · exact (mem_sweepPairs g s e _).2 ⟨hi, by simp only; omega, by simp only; omega⟩
  · unfold pairIndex; simp only; omega

theorem mem_sweep_inRow (g : Globals) (s e k : Int)
    (hk : k ∈ (sweepPairs g s e).map (pairIndex g)) :
    ∃ i, (s ≤ i ∧ i < e) ∧ inRow g i k := by
  obtain ⟨ij, hij, rfl⟩ := List.mem_map.1 hk
  obtain ⟨h1, h2⟩ := (mem_sweepPairs g s e ij).1 hij
  exact ⟨ij.1, h1, by unfold inRow pairIndex; omega⟩

/-- Lines 192-245 on one rank when the move phase changes no bin membership:
`local_move` and the remote movers are empty; the own bins that the flush
does not drain hold the moved images of their particles; `remote_move` holds
the moved images of the particles of the drained own rows. -/
theorem zero_motion_local (g : Globals) (hg : g.WF) (move : particle_t → particle_t)
    (n_proc rank : Int) (bins bins3 : List bin_t) (rm : bin_t) (hP : 1 ≤ n_proc)
    (hr : 0 ≤ rank ∧ rank < n_proc) (hw : 1 ≤ x_bins_per_proc g.binCount n_proc)
    (hD : ∀ q ∈ sweptParticles g (my_bins_start g.binCount n_proc rank)
      (my_bins_end g.binCount n_proc rank) bins, inDomain g (move q))
    (hZ : ∀ ij ∈ sweepPairs g (my_bins_start g.binCount n_proc rank)
        (my_bins_end g.binCount n_proc rank),
      ∀ q ∈ getBin bins (pairIndex g ij), binIndex g (move q) = pairIndex g ij)
    (h : LocalOutcome g move n_proc rank bins bins3 rm) :
    (∀ k, flushedIdx g n_proc rank (my_bins_start g.binCount n_proc rank)
        (my_bins_end g.binCount n_proc rank) k → getBin bins3 k = []) ∧
    (∀ k, k ∉ (sweepPairs g (my_bins_start g.binCount n_proc rank)
        (my_bins_end g.binCount n_proc rank)).map (pairIndex g) →
      ¬ flushedIdx g n_proc rank (my_bins_start g.binCount n_proc rank)
        (my_bins_end g.binCount n_proc rank) k →
      getBin bins3 k = getBin bins k) ∧
    (∀ k, k ∈ (sweepPairs g (my_bins_start g.binCount n_proc rank)
        (my_bins_end g.binCount n_proc rank)).map (pairIndex g) →
      ¬ flushedIdx g n_proc rank (my_bins_start g.binCount n_proc rank)
        (my_bins_end g.binCount n_proc rank) k →
      (getBin bins3 k).Perm ((getBin bins k).map move)) ∧
    (∀ k, (rm.filter (fun p => binIndex g p = k)).Perm
      (if drainedIdx g n_proc rank k then (getBin bins k).map move else [])) ∧
    rm.Perm (((if rank ≠ 0 then rowParticles g bins (my_bins_start g.binCount n_proc rank)
        else []) ++
      (if rank ≠ n_proc - 1 ∧ ¬ (rank ≠ 0 ∧
          my_bins_end g.binCount n_proc rank - 1 = my_bins_start g.binCount n_proc rank)
        then rowParticles g bins (my_bins_end g.binCount n_proc rank - 1) else [])).map
      move) := by
  have hbc := WF_binCount_pos g hg
  obtain ⟨h0, h1, h2, h3, h4⟩ := partition_facts g.binCount n_proc rank hP hr hw (by omega)
  obtain ⟨bins2, rm0, hl2, hN, hO, hR, hT, hl3, hF, hrm⟩ := h
  generalize hs : my_bins_start g.binCount n_proc rank = s at *
  generalize he : my_bins_end g.binCount n_proc rank = e at *
  have hdr : ∀ k, drainedIdx g n_proc rank k ↔
      (rank ≠ 0 ∧ inRow g s k) ∨ (rank ≠ n_proc - 1 ∧ inRow g (e - 1) k) := by
    intro k; unfold drainedIdx; rw [hs, he]
  -- the moved particles of a swept bin keep its index
  have hbucket : ∀ ij ∈ sweepPairs g s e, ∀ p ∈ (getBin bins (pairIndex g ij)).map move,
      binIndex g p = pairIndex g ij := by
    intro ij hij p hp
    obtain ⟨q, hq, rfl⟩ := List.mem_map.1 hp
    exact hZ ij hij q hq
  have hFF := filter_flatten_key (sweepPairs g s e) (pairIndex g)
    (fun ij => (getBin bins (pairIndex g ij)).map move) (binIndex g) (nodup_pairIndex g s e)
    hbucket
  -- every own bin after the reinsertion: the moved images of its particles
  have hown : ∀ k, k ∈ (sweepPairs g s e).map (pairIndex g) →
      (getBin bins2 k).Perm ((getBin bins k).map move) := by
    intro k hk
    have := hO k hk
    obtain ⟨ij, hij, rfl⟩ := List.mem_map.1 hk
    rw [map_sweptParticles, hFF.1 ij hij] at this
    exact this
  -- no remote mover
  have hrm0 : rm0 = [] := by
    apply List.Perm.eq_nil
    refine hR.trans (List.Perm.of_eq ?_)
    apply List.filter_eq_nil_iff.2
    intro p hp
    obtain ⟨q, hq, rfl⟩ := List.mem_map.1 hp
    obtain ⟨ij, hij, hqb⟩ := (mem_sweptParticles g s e bins q).1 hq
    have hm := (mem_sweepPairs g s e ij).1 hij
    have hc := (binIndex_eq_pairIndex_iff g hg _ (hD q hq) ij hm.2).1 (hZ ij hij q hqb)
    simp only [movesRemote, decide_eq_true_eq, not_not]
    rw [hc.1]; exact hm.1
  have hcons := own_bins_consistent g hg move s e bins bins2 hD hO
  have hrowfilter : ∀ i, s ≤ i ∧ i < e → ∀ k,
      (rowParticles g bins2 i).filter (fun p => binIndex g p = k) =
        if inRow g i k then getBin bins2 k else [] := by
    intro i hi k
    apply rowParticles_filter
    intro j hj p hp
    exact (hcons (i, j) ((mem_sweepPairs g s e (i, j)).2 ⟨hi, hj⟩) p hp).2.1
  have hrowperm : ∀ i, s ≤ i ∧ i < e →
      (rowParticles g bins2 i).Perm ((rowParticles g bins i).map move) := by
    intro i hi
    unfold rowParticles
    rw [List.map_flatten, List.map_map]
    apply flatten_map_perm
    intro j hj
    exact hown _ (inRow_mem_sweep g s e i _ hi
      ((inRow_iff g i _).2 (List.mem_map_of_mem _ hj)))
  refine ⟨?_, ?_, ?_, ?_, ?_⟩
  · intro k hfl
    rw [hF, if_pos hfl]
  · intro k hk hfl
    rw [hF, if_neg hfl]
    exact hN k hk
  · intro k hk hfl
    rw [hF, if_neg hfl]
    exact hown k hk
  · intro k
    rw [hrm, hrm0, List.nil_append, List.filter_append]
    by_cases hc1 : rank ≠ 0 ∧ inRow g s k
    · have hd : drainedIdx g n_proc rank k := (hdr k).2 (Or.inl hc1)
      rw [if_pos hd, if_pos hc1.1, hrowfilter s ⟨le_refl _, h1⟩, if_pos hc1.2]
      have hx2 : (if rank ≠ n_proc - 1 ∧ ¬ (rank ≠ 0 ∧ e - 1 = s) then rowParticles g bins2 (e - 1)
          else []).filter (fun p => binIndex g p = k) = [] := by
        by_cases hc : rank ≠ n_proc - 1 ∧ ¬ (rank ≠ 0 ∧ e - 1 = s)
        · rw [if_pos hc, hrowfilter (e - 1) ⟨by omega, by omega⟩, if_neg]
          intro hk'
          exact hc.2 ⟨hc1.1, inRow_unique g _ _ k hk' hc1.2⟩
        · rw [if_neg hc]; rfl
      rw [hx2, List.append_nil]
      exact hown k (inRow_mem_sweep g s e s k ⟨le_refl _, h1⟩ hc1.2)
    · have hx1 : (if rank ≠ 0 then rowParticles g bins2 s else []).filter
          (fun p => binIndex g p = k) = [] := by
        by_cases hc : rank ≠ 0
        · rw [if_pos hc, hrowfilter s ⟨le_refl _, h1⟩, if_neg (fun hk' => hc1 ⟨hc, hk'⟩)]
        · rw [if_neg hc]; rfl
      rw [hx1, List.nil_append]
      by_cases hc2 : rank ≠ n_proc - 1 ∧ inRow g (e - 1) k
      · have hd : drainedIdx g n_proc rank k := (hdr k).2 (Or.inr hc2)
        have hcond : rank ≠ n_proc - 1 ∧ ¬ (rank ≠ 0 ∧ e - 1 = s) :=
          ⟨hc2.1, fun hh => hc1 ⟨hh.1, hh.2 ▸ hc2.2⟩⟩
        rw [if_pos hd, if_pos hcond, hrowfilter (e - 1) ⟨by omega, by omega⟩, if_pos hc2.2]
        exact hown k (inRow_mem_sweep g s e (e - 1) k ⟨by omega, by omega⟩ hc2.2)
      · have hd : ¬ drainedIdx g n_proc rank k := by
          rw [hdr k]; rintro (hh | hh)
          · exact hc1 hh
          · exact hc2 hh
        rw [if_neg hd]
        by_cases hc : rank ≠ n_proc - 1 ∧ ¬ (rank ≠ 0 ∧ e - 1 = s)
        · rw [if_pos hc, hrowfilter (e - 1) ⟨by omega, by omega⟩,
            if_neg (fun hk' => hc2 ⟨hc.1, hk'⟩)]
        · rw [if_neg hc]; rfl
  · rw [hrm, hrm0, List.nil_append, List.map_append]
    apply List.Perm.append
    · by_cases hc : rank ≠ 0
      · rw [if_pos hc, if_pos hc]; exact hrowperm s ⟨le_refl _, h1⟩
      · rw [if_neg hc, if_neg hc]; rfl
    · by_cases hc : rank ≠ n_proc - 1 ∧ ¬ (rank ≠ 0 ∧ e - 1 = s)
      · rw [if_pos hc, if_pos hc]; exact hrowperm (e - 1) ⟨by omega, by omega⟩
      · rw [if_neg hc, if_neg hc]; rfl

theorem tmod_first_row (w j row : Int) (hw : 1 ≤ w) (hrow0 : 0 ≤ row) (h : row = w * j) :
    row.tmod w = 0 := by
  rw [Int.tmod_eq_emod hrow0 (by omega), h]
  exact Int.mul_emod_right _ _

theorem tmod_last_row (w j row : Int) (hw : 1 ≤ w) (hrow0 : 0 ≤ row)
    (h : row = w * (j + 1) - 1) : row.tmod w = w - 1 := by
  rw [Int.tmod_eq_emod hrow0 (by omega), h]
  have : w * (j + 1) - 1 = (w - 1) + w * j := by ring
  rw [this, Int.add_mul_emod_self_left]
  exact Int.emod_eq_of_lt (by omega) (by omega)

/-- A gathered particle that sits in a drained own row of rank `j` is sent
only to ranks for which its bin lies in a flushed row. -/
theorem routing_of_drained (g : Globals) (hg : g.WF) (n_proc j n : Int) (hP : 1 ≤ n_proc)
    (hj : 0 ≤ j ∧ j < n_proc)
    (hw : 1 ≤ x_bins_per_proc g.binCount n_proc) (p : particle_t) (hp : inDomain g p)
    (hd : drainedIdx g n_proc j (binIndex g p)) (hrecv : receives g n_proc n p = true) :
    flushedIdx g n_proc n (my_bins_start g.binCount n_proc n)
      (my_bins_end g.binCount n_proc n) (binIndex g p) := by
  have hbc := WF_binCount_pos g hg
  have hx := coord_bounds g hg p.x hp.1 hp.2.2.1
  obtain ⟨_, h1, _, _, _⟩ := partition_facts g.binCount n_proc j hP hj hw (by omega)
  -- the row of the particle and its owner
  have hrowcases : (j ≠ 0 ∧ toInt (p.x / g.binSize) = my_bins_start g.binCount n_proc j) ∨
      (j ≠ n_proc - 1 ∧ toInt (p.x / g.binSize) = my_bins_end g.binCount n_proc j - 1) := by
    rcases hd with ⟨h, hk⟩ | ⟨h, hk⟩
    · exact Or.inl ⟨h, row_of_index g hg p hp _ _ hk rfl⟩
    · exact Or.inr ⟨h, row_of_index g hg p hp _ _ hk rfl⟩
  have ho : owner g n_proc p = j := by
    refine ((owner_inRange g n_proc p hP hw hx j hj).1 ?_).symm
    rcases hrowcases with ⟨_, h⟩ | ⟨_, h⟩
    · exact ⟨by rw [h], by rw [h]; exact h1⟩
    · exact ⟨by rw [h]; omega, by rw [h]; omega⟩
  have hrowk : ∀ i, toInt (p.x / g.binSize) = i → inRow g i (binIndex g p) := by
    intro i hi
    have hy := coord_bounds g hg p.y hp.2.1 hp.2.2.2
    unfold inRow binIndex
    rw [hi]; omega
  have hstart : my_bins_start g.binCount n_proc j = x_bins_per_proc g.binCount n_proc * j := rfl
  have hend : j ≠ n_proc - 1 →
      my_bins_end g.binCount n_proc j = x_bins_per_proc g.binCount n_proc * (j + 1) := by
    intro h; unfold my_bins_end; rw [if_neg h]
  have hwho : min ((toInt (p.x / g.binSize)).tdiv (x_bins_per_proc g.binCount n_proc))
      (n_proc - 1) = j := ho
  simp only [receives, hwho, Bool.or_eq_true, decide_eq_true_eq] at hrecv
  rcases hrecv with (hnj | ⟨hnj, hmod, hj0⟩) | ⟨hnj, hmod, hjl⟩
  · -- the owner itself
    subst hnj
    rcases hd with ⟨h, hk⟩ | ⟨h, hk⟩
    · exact Or.inl ⟨h, Or.inr hk⟩
    · exact Or.inr ⟨h, Or.inr hk⟩
  · -- the rank before the owner: the particle is in the first row of the owner
    have hrow : toInt (p.x / g.binSize) = my_bins_start g.binCount n_proc j := by
      rcases hrowcases with ⟨_, h⟩ | ⟨hl, h⟩
      · exact h
      · have := tmod_last_row _ j _ hw hx.1 (by rw [h, hend hl])
        rw [h, hend hl, hstart]
        have hw1 : x_bins_per_proc g.binCount n_proc = 1 := by omega
        rw [hw1]; ring
    have hne : n ≠ n_proc - 1 := by omega
    refine Or.inr ⟨hne, Or.inl ?_⟩
    rw [my_bins_end_eq_start _ _ _ hne, hnj, sub_add_cancel]
    exact hrowk _ hrow
  · -- the rank after the owner: the particle is in the last row of the owner
    have hrow : toInt (p.x / g.binSize) = my_bins_end g.binCount n_proc j - 1 := by
      rcases hrowcases with ⟨_, h⟩ | ⟨_, h⟩
      · have := tmod_first_row _ j _ hw hx.1 (by rw [h, hstart])
        rw [h, hend hjl, hstart]
        have hw1 : x_bins_per_proc g.binCount n_proc = 1 := by omega
        rw [hw1]; ring
      · exact h
    refine Or.inl ⟨by omega, Or.inl ?_⟩
    rw [hnj, ← my_bins_end_eq_start _ _ _ hjl]
    exact hrowk _ hrow

theorem drained_mem_sweep (g : Globals) (n_proc m k : Int) (hP : 1 ≤ n_proc)
    (hm : 0 ≤ m ∧ m < n_proc) (hw : 1 ≤ x_bins_per_proc g.binCount n_proc)
    (hb : 0 ≤ g.binCount) (hd : drainedIdx g n_proc m k) :
    k ∈ (sweepPairs g (my_bins_start g.binCount n_proc m)
      (my_bins_end g.binCount n_proc m)).map (pairIndex g) := by
  obtain ⟨_, h1, _, _, _⟩ := partition_facts g.binCount n_proc m hP hm hw hb
  rcases hd with ⟨_, hk⟩ | ⟨_, hk⟩
  · exact inRow_mem_sweep g _ _ _ k ⟨le_refl _, h1⟩ hk
  · exact inRow_mem_sweep g _ _ _ k ⟨by omega, by omega⟩ hk

/-- The gathered particles when the move phase changes no bin membership:
each comes from a drained own row of its owner, and those with the index of
a bin of rank `m` are the moved images of the particles of that bin if the
bin is drained, none otherwise. -/
theorem zero_motion_gathered (g : Globals) (hg : g.WF) (move : particle_t → particle_t)
    (world : List (List bin_t)) (locals : List (List bin_t × bin_t))
    (hP : 0 < world.length) (hw : 1 ≤ x_bins_per_proc g.binCount world.length)
    (hready : StepReady g move world) (hZ : ZeroMotion g move world)
    (hloclen : locals.length = world.length)
    (hout : ∀ n, n < world.length → LocalOutcome g move world.length n (world.getD n [])
      (locals.getD n default).1 (locals.getD n default).2)
    (hdom : ∀ p ∈ (locals.map Prod.snd).flatten, inDomain g p) :
    (∀ p ∈ (locals.map Prod.snd).flatten, ∃ j, j < world.length ∧
      drainedIdx g world.length j (binIndex g p)) ∧
    (∀ m, m < world.length → ∀ k,
      k ∈ (sweepPairs g (my_bins_start g.binCount world.length m)
        (my_bins_end g.binCount world.length m)).map (pairIndex g) →
      ((locals.map Prod.snd).flatten.filter (fun p => binIndex g p = k)).Perm
        (if drainedIdx g world.length m k then (getBin (world.getD m []) k).map move
          else [])) := by
  have hP' : (1 : Int) ≤ world.length := by exact_mod_cast hP
  have hbc := WF_binCount_pos g hg
  -- per rank
  have hloc : ∀ n, n < world.length →
      (∀ k, ((locals.getD n default).2.filter (fun p => binIndex g p = k)).Perm
        (if drainedIdx g world.length n k then (getBin (world.getD n []) k).map move
          else [])) := by
    intro n hn
    exact (zero_motion_local g hg move world.length n _ _ _ hP' ⟨by omega, by omega⟩ hw
      (hready n hn).2 (hZ n hn) (hout n hn)).2.2.2.1
  have hrmdr : ∀ n, n < world.length → ∀ p ∈ (locals.getD n default).2,
      drainedIdx g world.length n (binIndex g p) := by
    intro n hn p hp
    have hmem : p ∈ (locals.getD n default).2.filter
        (fun q => binIndex g q = binIndex g p) := by
      rw [List.mem_filter]; exact ⟨hp, by simp⟩
    have := (hloc n hn (binIndex g p)).subset hmem
    by_contra hnd
    rw [if_neg hnd] at this
    cases this
  have hmemG : ∀ p, p ∈ (locals.map Prod.snd).flatten ↔
      ∃ n, n < world.length ∧ p ∈ (locals.getD n default).2 := by
    intro p
    simp only [List.mem_flatten, List.mem_map]
    constructor
    · rintro ⟨l, ⟨st, hst, rfl⟩, hpl⟩
      obtain ⟨n, hn, rfl⟩ := List.getElem_of_mem hst
      exact ⟨n, by rw [← hloclen]; exact hn, by rw [List.getD_eq_getElem _ _ hn]; exact hpl⟩
    · rintro ⟨n, hn, hp⟩
      have hn' : n < locals.length := by rw [hloclen]; exact hn
      rw [List.getD_eq_getElem _ _ hn'] at hp
      exact ⟨_, ⟨locals[n], List.getElem_mem _, rfl⟩, hp⟩
  -- the owner of a particle of `remote_move` of rank `n` is `n`
  have hown : ∀ n, n < world.length → ∀ p ∈ (locals.getD n default).2,
      owner g world.length p = (n : Int) := by
    intro n hn p hp
    have hpd := hdom p ((hmemG p).2 ⟨n, hn, hp⟩)
    have hx := coord_bounds g hg p.x hpd.1 hpd.2.2.1
    have hmem := drained_mem_sweep g world.length n _ hP' ⟨by omega, by omega⟩ hw (by omega)
      (hrmdr n hn p hp)
    exact ((received_owned_iff g hg world.length n hP' ⟨by omega, by omega⟩ hw p hpd).1
      ⟨by
        by_contra hne
        obtain ⟨i, hi, hk⟩ := mem_sweep_inRow g _ _ _ hmem
        have hrow := row_of_index g hg p hpd i _ hk rfl
        have := (owner_inRange g world.length p hP' hw hx n ⟨by omega, by omega⟩).1
          (by unfold inRange; rw [hrow]; exact hi)
        rw [this] at hne
        exact hne (receives_owner g world.length p), hmem⟩)
  constructor
  · intro p hp
    obtain ⟨n, hn, hpn⟩ := (hmemG p).1 hp
    exact ⟨n, hn, hrmdr n hn p hpn⟩
  · intro m hm k hk
    have hsplit : (locals.map Prod.snd).flatten.filter (fun p => owner g world.length p = (m : Int)) =
        (locals.getD m default).2 := by
      rw [map_eq_range_map locals Prod.snd default, hloclen]
      have hnd : ((List.range world.length).map (fun (n : Nat) => (n : Int))).Nodup :=
        (List.nodup_range _).map (fun a b h => by simpa using h)
      exact (filter_flatten_key (List.range world.length) (fun (n : Nat) => (n : Int))
        (fun n => (locals.getD n default).2) (owner g world.length) hnd
        (fun n hn p hp => hown n (List.mem_range.1 hn) p hp)).1 m (List.mem_range.2 hm)
    have hfilter : (locals.map Prod.snd).flatten.filter (fun p => binIndex g p = k) =
        (locals.getD m default).2.filter (fun p => binIndex g p = k) := by
      rw [← hsplit, List.filter_filter]
      apply List.filter_congr
      intro p hp
      by_cases hidx : binIndex g p = k
      · have ho : owner g world.length p = (m : Int) :=
          (received_owned_iff g hg world.length m hP' ⟨by omega, by omega⟩ hw p (hdom p hp)).1
            ⟨by
              obtain ⟨i, hi, hki⟩ := mem_sweep_inRow g _ _ _ (hidx ▸ hk)
              have hrow := row_of_index g hg p (hdom p hp) i _ hki rfl
              have hx := coord_bounds g hg p.x (hdom p hp).1 (hdom p hp).2.2.1
              have := (owner_inRange g world.length p hP' hw hx m ⟨by omega, by omega⟩).1
                (by unfold inRange; rw [hrow]; exact hi)
              rw [this]
              exact receives_owner g world.length p, hidx ▸ hk⟩
        simp [hidx, ho]
      · simp [hidx]
    rw [hfilter]
    exact hloc m hm k

theorem inRow_mem_pair_range (g : Globals) (hb : 0 ≤ g.binCount) (e k : Int)
    (hk : inRow g e k ∨ inRow g (e - 1) k) :
    k ∈ intRange ((e - 1) * g.binCount) ((e + 1) * g.binCount) := by
  rw [mem_intRange]
  have h1 : (e - 1) * g.binCount = e * g.binCount - g.binCount := by ring
  have h2 : (e + 1) * g.binCount = e * g.binCount + g.binCount := by ring
  unfold inRow at hk
  rw [h1, h2]
  rcases hk with hk | hk
  · omega
  · rw [h1] at hk; omega

theorem flushed_iff (g : Globals) (n_proc n k : Int) :
    flushedIdx g n_proc n (my_bins_start g.binCount n_proc n)
      (my_bins_end g.binCount n_proc n) k ↔
      drainedIdx g n_proc n k ∨ ghostIdx g n_proc n k := by
  unfold flushedIdx drainedIdx ghostIdx
  tauto

/-! ## C7: zero-motion idempotence -/

/-- C7, as stated, fails: on 2 ranks with a consistent 3 x 3 grid and
particles at rest (no particle changes its bin), the pending buffer of rank 1
after the ghost flush is not empty: it holds the two particles of its first
own row. -/
theorem zero_motion_counterexample :
    g3.WF ∧ StepReady g3 id [grid3, grid3] ∧ ZeroMotion g3 id [grid3, grid3] ∧
    GhostConsistent g3 [grid3, grid3] ∧
    local_phase g3 id 2 1 grid3 =
      .ok ([[], [], [], [], [], [], [], [pt 2 1], [pt 2 2]], [pt 1 0, pt (3 / 2) (1 / 2)]) := by
  refine ⟨by decide!, by decide!, by decide!, by decide!, by decide!⟩

/-- C7 (amended): for every worker count `P ≥ 1` with `x_bins_per_proc ≥ 1`
and every consistent grid (replicas of `binCount * binCount` bins, ghost rows
agreeing with their owners, moved particles in the domain), if the move phase
changes no particle's bin membership, then after the ghost flush the pending
buffer of every rank holds exactly (up to order) the moved particles of its
own boundary rows (row `start` unless `rank = 0`, row `end - 1` unless
`rank = P - 1`), so it is empty for `P = 1`; and after the full migration
round every bin of the own and ghost rows of every rank holds, up to order,
the moved images of the particles it held, and every other bin is
unchanged. -/
theorem zero_motion_round (g : Globals) (hg : g.WF) (move : particle_t → particle_t)
    (world : List (List bin_t)) (hP : 0 < world.length)
    (hw : 1 ≤ x_bins_per_proc g.binCount world.length) (hready : StepReady g move world)
    (hZ : ZeroMotion g move world) (hC : GhostConsistent g world) :
    (∀ n, n < world.length →
      ∃ bins3 rm, local_phase g move world.length n (world.getD n []) = .ok (bins3, rm) ∧
        rm.Perm (((if (n : Int) ≠ 0 then
            rowParticles g (world.getD n []) (my_bins_start g.binCount world.length n)
            else []) ++
          (if (n : Int) ≠ world.length - 1 ∧ ¬ ((n : Int) ≠ 0 ∧
              my_bins_end g.binCount world.length n - 1 =
                my_bins_start g.binCount world.length n)
            then rowParticles g (world.getD n []) (my_bins_end g.binCount world.length n - 1)
            else [])).map move) ∧
        (world.length = 1 → rm = [])) ∧
    ∃ world', migration_round g move world = .ok world' ∧
      ∀ n, n < world.length → ∀ k,
        (k ∈ ownIndices g world.length n ∨ ghostIdx g world.length n k →
          (getBin (world'.getD n []) k).Perm ((getBin (world.getD n []) k).map move)) ∧
        (k ∉ ownIndices g world.length n ∧ ¬ ghostIdx g world.length n k →
          getBin (world'.getD n []) k = getBin (world.getD n []) k) := by
  have hP' : (1 : Int) ≤ world.length := by exact_mod_cast hP
  have hbc := WF_binCount_pos g hg
  constructor
  · intro n hn
    obtain ⟨bins3, rm, h1, h2⟩ := local_phase_spec g hg move world.length n _ hP'
      ⟨by omega, by omega⟩ hw (hready n hn).1 (hready n hn).2
    have hz := (zero_motion_local g hg move world.length n _ _ _ hP' ⟨by omega, by omega⟩ hw
      (hready n hn).2 (hZ n hn) h2).2.2.2.2
    refine ⟨bins3, rm, h1, hz, ?_⟩
    intro hone
    have h0 : n = 0 := by omega
    subst h0
    rw [if_neg (by simp), if_neg (by rw [hone]; simp)] at hz
    exact List.Perm.eq_nil hz
  · obtain ⟨locals, world', hloc, hloclen, hout, hdom, hround, hwlen, hfin⟩ :=
      round_spec g hg move world hP hw hready
    obtain ⟨hsrc, hGF⟩ := zero_motion_gathered g hg move world locals hP hw hready hZ hloclen
      hout hdom
    refine ⟨world', hround, ?_⟩
    have hpair := boundary_rows_after_round g hg move locals world' world.length hP' hw
      (fun n => world.getD n []) (fun n hn => hout n (by exact_mod_cast hn)) hdom
      (fun n hn => (hfin n (by exact_mod_cast hn)).2)
    intro n hn k
    obtain ⟨zl1, zl2, zl3, _, _⟩ := zero_motion_local g hg move world.length n _ _ _ hP'
      ⟨by omega, by omega⟩ hw (hready n hn).2 (hZ n hn) (hout n hn)
    -- nothing is received in a bin outside the flushed rows
    have hnone : ¬ flushedIdx g world.length n (my_bins_start g.binCount world.length n)
        (my_bins_end g.binCount world.length n) k →
        ((locals.map Prod.snd).flatten.filter (receives g world.length n)).filter
          (fun p => binIndex g p = k) = [] := by
      intro hfl
      apply List.filter_eq_nil_iff.2
      intro p hp
      rw [List.mem_filter] at hp
      rw [decide_eq_true_eq]
      intro hidx
      obtain ⟨j, hj, hd⟩ := hsrc p hp.1
      exact hfl (hidx ▸ routing_of_drained g hg world.length j n hP' ⟨by omega, by omega⟩ hw p
        (hdom p hp.1) hd hp.2)
    -- a drained own bin comes back with the moved images of its particles
    have hdrained : drainedIdx g world.length n k →
        ((locals.map Prod.snd).flatten.filter (fun p => binIndex g p = k)).Perm
          ((getBin (world.getD n []) k).map move) := by
      intro hd
      have := hGF n hn k (drained_mem_sweep g world.length n k hP' ⟨by omega, by omega⟩ hw
        (by omega) hd)
      rwa [if_pos hd] at this
    rw [ownIndices_eq]
    constructor
    · intro hog
      by_cases hfl : flushedIdx g world.length n (my_bins_start g.binCount world.length n)
          (my_bins_end g.binCount world.length n) k
      · rcases (flushed_iff g world.length n k).1 hfl with hd | hgh
        · -- a drained own row
          have hfin' : getBin (world'.getD n []) k =
              (locals.map Prod.snd).flatten.filter (fun p => binIndex g p = k) := by
            rcases hd with ⟨h0, hk⟩ | ⟨hl, hk⟩
            · obtain ⟨m, rfl⟩ : ∃ m, n = m + 1 := ⟨n - 1, by
                have : n ≠ 0 := fun h => h0 (by rw [h]; rfl)
                omega⟩
              have hm : (m : Int) + 1 < world.length := by exact_mod_cast hn
              have hcast : ((m + 1 : Nat) : Int) = (m : Int) + 1 := by push_cast; rfl
              rw [hcast, ← my_bins_end_eq_start _ _ _ (by omega)] at hk
              exact (hpair m hm k (Or.inl hk)).2
            · have hm : (n : Int) + 1 < world.length := by omega
              exact (hpair n hm k (Or.inr hk)).1
          rw [hfin']
          exact hdrained hd
        · -- a ghost row: the owner is a neighbour
          rcases hgh with ⟨h0, hk⟩ | ⟨hl, hk⟩
          · obtain ⟨m, rfl⟩ : ∃ m, n = m + 1 := ⟨n - 1, by
              have : n ≠ 0 := fun h => h0 (by rw [h]; rfl)
              omega⟩
            have hm : (m : Int) + 1 < world.length := by exact_mod_cast hn
            have hm' : m < world.length := by omega
            have hcast : ((m + 1 : Nat) : Int) = (m : Int) + 1 := by push_cast; rfl
            have hne : (m : Int) ≠ world.length - 1 := by omega
            rw [hcast, ← my_bins_end_eq_start _ _ _ hne] at hk
            rw [(hpair m hm k (Or.inr hk)).2]
            have hdm : drainedIdx g world.length m k := Or.inr ⟨hne, hk⟩
            have h1 := hGF m hm' k (drained_mem_sweep g world.length m k hP'
              ⟨by omega, by omega⟩ hw (by omega) hdm)
            rw [if_pos hdm] at h1
            have h2 := hC m (by omega) k (inRow_mem_pair_range g (by omega) _ k (Or.inr hk))
            exact h1.trans (h2.map move)
          · have hm : (n : Int) + 1 < world.length := by omega
            have hn1 : n + 1 < world.length := by exact_mod_cast hm
            have hcast : ((n + 1 : Nat) : Int) = (n : Int) + 1 := by push_cast; rfl
            rw [(hpair n hm k (Or.inl hk)).1]
            have hdm : drainedIdx g world.length ((n + 1 : Nat) : Int) k := by
              rw [hcast]
              exact Or.inl ⟨by omega, by rw [← my_bins_end_eq_start _ _ _ hl]; exact hk⟩
            have h1 := hGF (n + 1) hn1 k (drained_mem_sweep g world.length _ k hP'
              ⟨by omega, by omega⟩ hw (by omega) hdm)
            rw [if_pos hdm] at h1
            have h2 := hC n (by omega) k (inRow_mem_pair_range g (by omega) _ k (Or.inl hk))
            exact h1.trans (h2.symm.map move)
      · -- an own bin that the flush leaves alone
        have hown : k ∈ (sweepPairs g (my_bins_start g.binCount world.length n)
            (my_bins_end g.binCount world.length n)).map (pairIndex g) := by
          rcases hog with h | h
          · exact h
          · exact absurd ((flushed_iff g world.length n k).2 (Or.inr h)) hfl
        rw [(hfin n hn).2 k, hnone hfl, List.append_nil]
        exact zl3 k hown hfl
    · rintro ⟨hnown, hngh⟩
      have hfl : ¬ flushedIdx g world.length n (my_bins_start g.binCount world.length n)
          (my_bins_end g.binCount world.length n) k := by
        intro hfl
        rcases (flushed_iff g world.length n k).1 hfl with hd | hgh
        · exact hnown (drained_mem_sweep g world.length n k hP' ⟨by omega, by omega⟩ hw
            (by omega) hd)
        · exact hngh hgh
      rw [(hfin n hn).2 k, hnone hfl, List.append_nil]
      exact zl2 k hnown hfl

/-- C7 (amended) on 3 ranks, one row each, the particles changing their velocity only. -/
theorem zero_motion_round_witness :
    (∀ n, n < ([grid3, grid3, grid3] : List (List bin_t)).length →
      ∃ bins3 rm, local_phase g3 speedUp ([grid3, grid3, grid3] : List (List bin_t)).length n
          (([grid3, grid3, grid3] : List (List bin_t)).getD n []) = .ok (bins3, rm) ∧
        rm.Perm (((if (n : Int) ≠ 0 then
            rowParticles g3 (([grid3, grid3, grid3] : List (List bin_t)).getD n [])
              (my_bins_start g3.binCount ([grid3, grid3, grid3] : List (List bin_t)).length n)
            else []) ++
          (if (n : Int) ≠ ([grid3, grid3, grid3] : List (List bin_t)).length - 1 ∧
              ¬ ((n : Int) ≠ 0 ∧
              my_bins_end g3.binCount ([grid3, grid3, grid3] : List (List bin_t)).length n - 1 =
                my_bins_start g3.binCount ([grid3, grid3, grid3] : List (List bin_t)).length n)
            then rowParticles g3 (([grid3, grid3, grid3] : List (List bin_t)).getD n [])
              (my_bins_end g3.binCount ([grid3, grid3, grid3] : List (List bin_t)).length n - 1)
            else [])).map speedUp) ∧
        (([grid3, grid3, grid3] : List (List bin_t)).length = 1 → rm = [])) ∧
    ∃ world', migration_round g3 speedUp [grid3, grid3, grid3] = .ok world' ∧
      ∀ n, n < ([grid3, grid3, grid3] : List (List bin_t)).length → ∀ k,
        (k ∈ ownIndices g3 ([grid3, grid3, grid3] : List (List bin_t)).length n ∨
            ghostIdx g3 ([grid3, grid3, grid3] : List (List bin_t)).length n k →
          (getBin (world'.getD n []) k).Perm
            ((getBin (([grid3, grid3, grid3] : List (List bin_t)).getD n []) k).map speedUp)) ∧
        (k ∉ ownIndices g3 ([grid3, grid3, grid3] : List (List bin_t)).length n ∧
            ¬ ghostIdx g3 ([grid3, grid3, grid3] : List (List bin_t)).length n k →
          getBin (world'.getD n []) k =
            getBin (([grid3, grid3, grid3] : List (List bin_t)).getD n []) k) :=
  zero_motion_round g3 (by decide!) speedUp [grid3, grid3, grid3] (by decide) (by decide)
    (by decide!) (by decide!) (by decide!)

/-! ## C12: diagnostics aggregation -/

theorem diag_fold (steps : List Reduced) (d : Diag) :
    (steps.foldl diag_step d).absavg = d.absavg + (stepAverages steps).sum ∧
    (steps.foldl diag_step d).nabsavg = d.nabsavg + (stepAverages steps).length ∧
    (steps.foldl diag_step d).absmin ≤ d.absmin ∧
    (∀ r ∈ steps, (steps.foldl diag_step d).absmin ≤ r.rdmin) ∧
    ((steps.foldl diag_step d).absmin = d.absmin ∨
      ∃ r ∈ steps, (steps.foldl diag_step d).absmin = r.rdmin) := by
  induction steps generalizing d with
  | nil => simp [stepAverages]
  | cons r rest ih =>
    obtain ⟨h1, h2, h3, h4, h5⟩ := ih (diag_step d r)
    have hstep : (diag_step d r).absavg = d.absavg + (if r.rnavg ≠ 0 then r.rdavg / r.rnavg else 0) ∧
        (diag_step d r).nabsavg = d.nabsavg + (if r.rnavg ≠ 0 then 1 else 0) ∧
        (diag_step d r).absmin = min r.rdmin d.absmin := by
      unfold diag_step
      by_cases hn : r.rnavg ≠ 0 <;> by_cases hm : r.rdmin < d.absmin
      · simp [hn, hm, min_eq_left (le_of_lt hm)]
      · simp [hn, hm, min_eq_right (not_lt.1 hm)]
      · simp [hn, hm, min_eq_left (le_of_lt hm)]
      · simp [hn, hm, min_eq_right (not_lt.1 hm)]
    obtain ⟨s1, s2, s3⟩ := hstep
    simp only [List.foldl_cons]
    refine ⟨?_, ?_, ?_, ?_, ?_⟩
    · rw [h1, s1]
      by_cases hn : r.rnavg ≠ 0 <;> simp [stepAverages, List.filter_cons, hn, add_assoc]
    · rw [h2, s2]
      by_cases hn : r.rnavg ≠ 0
      · simp [stepAverages, List.filter_cons, hn]; omega
      · simp [stepAverages, List.filter_cons, hn]
    · exact le_trans h3 (s3 ▸ min_le_right _ _)
    · intro r' hr'
      rcases List.mem_cons.1 hr' with rfl | hr'
      · exact le_trans h3 (s3 ▸ min_le_left _ _)
      · exact h4 r' hr'
    · rcases h5 with h5 | ⟨r', hr', h5⟩
      · rw [h5, s3]
        rcases min_choice r.rdmin d.absmin with hm | hm
        · exact Or.inr ⟨r, List.mem_cons_self _ _, hm⟩
        · exact Or.inl hm
      · exact Or.inr ⟨r', List.mem_cons_of_mem _ hr', h5⟩

/-- C12: from the per-step reduced values, each `rdmin ≤ 1`, the reported
`absmin` is the least `rdmin` of the run (`1` for a run of no steps) and the
reported `absavg` is the arithmetic mean of the quotients `rdavg / rnavg` of
the steps with `rnavg ≠ 0` (`0` when there is no such step). -/
theorem diagnostics_aggregation (steps : List Reduced) (hmin : ∀ r ∈ steps, r.rdmin ≤ 1) :
    (steps = [] → (diag_report steps).1 = 1) ∧
    (steps ≠ [] → (∃ r ∈ steps, (diag_report steps).1 = r.rdmin) ∧
      ∀ r ∈ steps, (diag_report steps).1 ≤ r.rdmin) ∧
    (diag_report steps).2 =
      if stepAverages steps = [] then 0
      else (stepAverages steps).sum / ((stepAverages steps).length : ℚ) := by
  obtain ⟨h1, h2, h3, h4, h5⟩ := diag_fold steps Diag.init
  have hfin : (diag_final (steps.foldl diag_step Diag.init)).absmin =
      (steps.foldl diag_step Diag.init).absmin := by
    unfold diag_final
    split <;> rfl
  refine ⟨?_, ?_, ?_⟩
  · intro h
    subst h
    rfl
  · intro hne
    show (∃ r ∈ steps, (diag_final _).absmin = r.rdmin) ∧
      ∀ r ∈ steps, (diag_final _).absmin ≤ r.rdmin
    rw [hfin]
    refine ⟨?_, h4⟩
    rcases h5 with h5 | h5
    · obtain ⟨r, hr⟩ := List.exists_mem_of_ne_nil steps hne
      refine ⟨r, hr, le_antisymm (h4 r hr) ?_⟩
      rw [h5]
      exact hmin r hr
    · exact h5
  · show (diag_final _).absavg = _
    unfold diag_final
    have h0 : Diag.init.absavg = 0 := rfl
    have hn0 : Diag.init.nabsavg = 0 := rfl
    rw [h0, zero_add] at h1
    rw [hn0, zero_add] at h2
    by_cases he : stepAverages steps = []
    · rw [he] at h1 h2
      simp only [List.length_nil, Nat.cast_zero] at h2
      simp [he, h2, h1]
    · have hl : ((stepAverages steps).length : Int) ≠ 0 := by
        have := List.length_pos.2 he
        omega
      rw [if_neg he, if_pos (by rw [h2]; exact hl)]
      simp only [h1, h2]
      push_cast
      rfl

/-- C12 on a run of three steps, the second without an interacting pair. -/
theorem diagnostics_aggregation_witness :
    (sampleSteps = [] → (diag_report sampleSteps).1 = 1) ∧
    (sampleSteps ≠ [] → (∃ r ∈ sampleSteps, (diag_report sampleSteps).1 = r.rdmin) ∧
      ∀ r ∈ sampleSteps, (diag_report sampleSteps).1 ≤ r.rdmin) ∧
    (diag_report sampleSteps).2 =
      if stepAverages sampleSteps = [] then 0
      else (stepAverages sampleSteps).sum / ((stepAverages sampleSteps).length : ℚ) :=
  diagnostics_aggregation sampleSteps (by decide!)

/-! ## C13: the run with one particle on two ranks -/

/-- C13, as stated, fails: for `n = 1`, `create_bins` sets `binCount = 3`
(`gridSize` is `sqrt(0.0005)`, here `0.02236`), the partition for two ranks
has `x_bins_per_proc = 1`, rank 0 has the rows `[0, 1)` and rank 1 the rows
`[1, 3)`: no rank has an empty row range. -/
theorem empty_partition_counterexample :
    create_bins (fun _ => 2236 / 100000) [pt (5 / 1000) (15 / 1000)] = .ok (g1, grid1) ∧
    g1.binCount = 3 ∧ x_bins_per_proc g1.binCount 2 = 1 ∧
    my_bins_start g1.binCount 2 0 = 0 ∧ my_bins_end g1.binCount 2 0 = 1 ∧
    my_bins_start g1.binCount 2 1 = 1 ∧ my_bins_end g1.binCount 2 1 = 3 ∧
    ¬ ∃ rank : Int, 0 ≤ rank ∧ rank < 2 ∧
      my_bins_start g1.binCount 2 rank = my_bins_end g1.binCount 2 rank := by
  refine ⟨by decide!, rfl, by decide, by decide, by decide, by decide, by decide, ?_⟩
  rintro ⟨rank, h0, h1, h⟩
  have hr : rank = 0 ∨ rank = 1 := by omega
  rcases hr with rfl | rfl
  · exact absurd h (by decide)
  · exact absurd h (by decide)

/-- C13 (amended): for `n = 1` and every value `s` of `sqrt(1 * 0.0005)` with
`0.02 ≤ s < 0.03` (the exact root is `0.02236...`), `create_bins` succeeds on
a particle of the domain and sets `binCount = 3`; on two ranks
`x_bins_per_proc = 1`, rank 0 has the row range `[0, 1)` and rank 1 the row
range `[1, 3)`, so neither range is empty. -/
theorem single_particle_partition (sqrt : ℚ → ℚ) (p : particle_t)
    (hlo : 2 / 100 ≤ sqrt (((1 : Int) : ℚ) * _density))
    (hhi : sqrt (((1 : Int) : ℚ) * _density) < 3 / 100)
    (hdom : 0 ≤ p.x ∧ 0 ≤ p.y ∧ p.x ≤ sqrt (((1 : Int) : ℚ) * _density) ∧
      p.y ≤ sqrt (((1 : Int) : ℚ) * _density)) :
    ∃ g bins, create_bins sqrt [p] = .ok (g, bins) ∧ g.binCount = 3 ∧
      x_bins_per_proc g.binCount 2 = 1 ∧
      my_bins_start g.binCount 2 0 = 0 ∧ my_bins_end g.binCount 2 0 = 1 ∧
      my_bins_start g.binCount 2 1 = 1 ∧ my_bins_end g.binCount 2 1 = 3 ∧
      ∀ rank : Int, 0 ≤ rank → rank < 2 →
        my_bins_start g.binCount 2 rank < my_bins_end g.binCount 2 rank := by
  have hcb : create_bins sqrt [p] =
      (match forEach (create_bins_body ⟨_cutoff, sqrt (((1 : Int) : ℚ) * _density),
          toInt (sqrt (((1 : Int) : ℚ) * _density) / _cutoff) + 1⟩) [p]
          (List.replicate ((toInt (sqrt (((1 : Int) : ℚ) * _density) / _cutoff) + 1) *
            (toInt (sqrt (((1 : Int) : ℚ) * _density) / _cutoff) + 1)).toNat []) with
        | .error e => Except.error e
        | .ok bins => Except.ok ((⟨_cutoff, sqrt (((1 : Int) : ℚ) * _density),
            toInt (sqrt (((1 : Int) : ℚ) * _density) / _cutoff) + 1⟩ : Globals), bins)) := rfl
  rw [hcb]
  clear hcb
  generalize sqrt (((1 : Int) : ℚ) * _density) = s at hlo hhi hdom ⊢
  have hs : (0 : ℚ) ≤ s := le_trans (by norm_num) hlo
  obtain ⟨bins, h1, -, -, -⟩ := create_bins_core s hs [p] (by
    intro q hq
    rw [List.mem_singleton] at hq
    subst hq
    exact hdom)
  have hbc : toInt (s / _cutoff) + 1 = 3 := by
    rw [toInt_eq_floor _ (div_nonneg hs (by unfold _cutoff; norm_num))]
    have : ⌊s / _cutoff⌋ = 2 := by
      rw [Int.floor_eq_iff]
      unfold _cutoff
      constructor
      · rw [le_div_iff₀ (by norm_num)]
        push_cast
        linarith
      · rw [div_lt_iff₀ (by norm_num)]
        push_cast
        linarith
    omega
  refine ⟨⟨_cutoff, s, 3⟩, bins, ?_, rfl, ?_, ?_, ?_, ?_, ?_, ?_⟩
  · rw [h1, hbc]
  · show x_bins_per_proc 3 2 = 1
    decide
  · show my_bins_start 3 2 0 = 0
    decide
  · show my_bins_end 3 2 0 = 1
    decide
  · show my_bins_start 3 2 1 = 1
    decide
  · show my_bins_end 3 2 1 = 3
    decide
  · intro rank h0 h2
    show my_bins_start 3 2 rank < my_bins_end 3 2 rank
    have hr : rank = 0 ∨ rank = 1 := by omega
    rcases hr with rfl | rfl <;> decide

/-- C13 (amended) with `0.02236` for `sqrt(0.0005)` and the particle at
`(0.005, 0.015)`. -/
theorem single_particle_partition_witness :
    ∃ g bins, create_bins (fun _ => 2236 / 100000) [pt (5 / 1000) (15 / 1000)] = .ok (g, bins) ∧
      g.binCount = 3 ∧ x_bins_per_proc g.binCount 2 = 1 ∧
      my_bins_start g.binCount 2 0 = 0 ∧ my_bins_end g.binCount 2 0 = 1 ∧
      my_bins_start g.binCount 2 1 = 1 ∧ my_bins_end g.binCount 2 1 = 3 ∧
      ∀ rank : Int, 0 ≤ rank → rank < 2 →
        my_bins_start g.binCount 2 rank < my_bins_end g.binCount 2 rank :=
  single_particle_partition (fun _ => 2236 / 100000) (pt (5 / 1000) (15 / 1000))
    (by norm_num) (by norm_num) (by decide!)

/-! ## C18: index safety of the ghost flush and of the routing -/

theorem push_back_at_fault (bins : List bin_t) (idx : Int) (p : particle_t) (e : Fault)
    (h : push_back_at bins idx p = .error e) : e = .outOfBounds := by
  unfold push_back_at at h
  split at h
  · cases h
  · injection h with h
    exact h.symm

/-- With a non-zero divisor the loop body of lines 275-287 does not fault on
a division. -/
theorem route_particle_divisor (g : Globals) (n_proc w : Int) (p : particle_t)
    (sp : List bin_t) (hw0 : w ≠ 0) : route_particle g n_proc w p sp ≠ .error .divByZero := by
  intro h
  unfold route_particle at h
  simp only [hw0, if_false] at h
  split at h
  · cases h
  · split at h
    · rename_i err heq
      injection h with h
      subst h
      exact absurd (push_back_at_fault _ _ _ _ heq) (by decide)
    · split at h
      · rename_i err heq
        injection h with h
        subst h
        split at heq
        · exact absurd (push_back_at_fault _ _ _ _ heq) (by decide)
        · cases heq
      · split at h
        · exact absurd (push_back_at_fault _ _ _ _ h) (by decide)
        · cases h

/-- C18: for `1 ≤ n_proc ≤ binCount` and every rank, `x_bins_per_proc ≥ 1`;
the rows `start - 1` and `start` touched by the ghost flush when `rank ≠ 0`
and the rows `end` and `end - 1` touched when `rank ≠ n_proc - 1` lie in
`[0, binCount)`; the ghost flush faults on no grid of `binCount * binCount`
bins, and the root's divisions by `x_bins_per_proc` have a non-zero divisor
(no `Fault.divByZero`). -/
theorem flush_and_routing_index_safety (g : Globals) (n_proc rank : Int)
    (hP : 1 ≤ n_proc) (hPb : n_proc ≤ g.binCount) (hr : 0 ≤ rank ∧ rank < n_proc) :
    1 ≤ x_bins_per_proc g.binCount n_proc ∧
    (rank ≠ 0 →
      (0 ≤ my_bins_start g.binCount n_proc rank - 1 ∧
        my_bins_start g.binCount n_proc rank - 1 < g.binCount) ∧
      (0 ≤ my_bins_start g.binCount n_proc rank ∧
        my_bins_start g.binCount n_proc rank < g.binCount)) ∧
    (rank ≠ n_proc - 1 →
      (0 ≤ my_bins_end g.binCount n_proc rank ∧
        my_bins_end g.binCount n_proc rank < g.binCount) ∧
      (0 ≤ my_bins_end g.binCount n_proc rank - 1 ∧
        my_bins_end g.binCount n_proc rank - 1 < g.binCount)) ∧
    (∀ (bins : List bin_t) (rm : bin_t), (bins.length : Int) = g.binCount * g.binCount →
      ∃ out, ghost_flush g n_proc rank (my_bins_start g.binCount n_proc rank)
        (my_bins_end g.binCount n_proc rank) (bins, rm) = .ok out) ∧
    (∀ (p : particle_t) (sp : List bin_t),
      route_particle g n_proc (x_bins_per_proc g.binCount n_proc) p sp ≠ .error .divByZero) := by
  have hb : 0 ≤ g.binCount := by omega
  have hw : 1 ≤ x_bins_per_proc g.binCount n_proc := by
    rw [x_bins_per_proc_eq _ _ hb (by omega)]
    exact (Int.le_ediv_iff_mul_le (by omega)).2 (by omega)
  obtain ⟨h0, hlt, he, hlo, hhi⟩ := partition_facts g.binCount n_proc rank hP hr hw hb
  refine ⟨hw, ?_, ?_, ?_, ?_⟩
  · intro h
    have := hlo h
    omega
  · intro h
    have := hhi h
    omega
  · intro bins rm hlen
    obtain ⟨bins', hfl, -, -⟩ := ghost_flush_spec g n_proc rank _ _ bins rm hlen hlt
      (fun h => ⟨hlo h, by omega⟩) (fun h => ⟨by omega, hhi h⟩)
    exact ⟨_, hfl⟩
  · intro p sp h
    have hw0 : x_bins_per_proc g.binCount n_proc ≠ 0 := by omega
    exact route_particle_divisor g n_proc _ p sp hw0 h

/-- C18 on the middle rank of three ranks over three rows. -/
theorem flush_and_routing_index_safety_witness :
    1 ≤ x_bins_per_proc g3.binCount 3 ∧
    ((1 : Int) ≠ 0 →
      (0 ≤ my_bins_start g3.binCount 3 1 - 1 ∧ my_bins_start g3.binCount 3 1 - 1 < g3.binCount) ∧
      (0 ≤ my_bins_start g3.binCount 3 1 ∧ my_bins_start g3.binCount 3 1 < g3.binCount)) ∧
    ((1 : Int) ≠ 3 - 1 →
      (0 ≤ my_bins_end g3.binCount 3 1 ∧ my_bins_end g3.binCount 3 1 < g3.binCount) ∧
      (0 ≤ my_bins_end g3.binCount 3 1 - 1 ∧ my_bins_end g3.binCount 3 1 - 1 < g3.binCount)) ∧
    (∀ (bins : List bin_t) (rm : bin_t), (bins.length : Int) = g3.binCount * g3.binCount →
      ∃ out, ghost_flush g3 3 1 (my_bins_start g3.binCount 3 1)
        (my_bins_end g3.binCount 3 1) (bins, rm) = .ok out) ∧
    (∀ (p : particle_t) (sp : List bin_t),
      route_particle g3 3 (x_bins_per_proc g3.binCount 3) p sp ≠ .error .divByZero) :=
  flush_and_routing_index_safety g3 3 1 (by decide) (by decide) (by decide)

/-! ## C19: bin index safety -/

/-- C19: with `binSize > 0` and `binCount = ⌊gridSize / binSize⌋ + 1`, for
every particle with `0 ≤ x ≤ gridSize` and `0 ≤ y ≤ gridSize` the index
`⌊x / binSize⌋ * binCount + ⌊y / binSize⌋` lies in `[0, binCount * binCount)`;
it is the index that `create_bins` and `push_particles_in_bin` compute, and
both insertions succeed on a grid of `binCount * binCount` bins. -/
theorem bin_index_safety (g : Globals) (p : particle_t) (hbs : 0 < g.binSize)
    (hbc : g.binCount = ⌊g.gridSize / g.binSize⌋ + 1)
    (hx : 0 ≤ p.x ∧ p.x ≤ g.gridSize) (hy : 0 ≤ p.y ∧ p.y ≤ g.gridSize) :
    (0 ≤ ⌊p.x / g.binSize⌋ * g.binCount + ⌊p.y / g.binSize⌋ ∧
      ⌊p.x / g.binSize⌋ * g.binCount + ⌊p.y / g.binSize⌋ < g.binCount * g.binCount) ∧
    toInt (p.x / g.binSize) * g.binCount + toInt (p.y / g.binSize) =
      ⌊p.x / g.binSize⌋ * g.binCount + ⌊p.y / g.binSize⌋ ∧
    ∀ bins : List bin_t, (bins.length : Int) = g.binCount * g.binCount →
      (∃ bins', create_bins_body g p bins = .ok bins') ∧
      ∃ bins', push_particles_in_bin g p bins = .ok bins' := by
  have hgs : 0 ≤ g.gridSize := le_trans hx.1 hx.2
  have hg : g.WF := ⟨hbs, hgs, by rw [toInt_eq_floor _ (div_nonneg hgs hbs.le)]; exact hbc⟩
  have hb := binIndex_bounds g hg p ⟨hx.1, hy.1, hx.2, hy.2⟩
  have hfx := toInt_eq_floor (p.x / g.binSize) (div_nonneg hx.1 hbs.le)
  have hfy := toInt_eq_floor (p.y / g.binSize) (div_nonneg hy.1 hbs.le)
  unfold binIndex at hb
  refine ⟨?_, by rw [hfx, hfy], ?_⟩
  · rw [← hfx, ← hfy]
    exact hb
  · intro bins hlen
    have hb' : 0 ≤ binIndex g p ∧ binIndex g p < bins.length := by
      unfold binIndex
      constructor
      · exact hb.1
      · rw [hlen]; exact hb.2
    exact ⟨⟨_, by rw [create_bins_body_eq]; exact push_back_at_ok bins _ p hb'⟩,
      ⟨_, by rw [push_particles_in_bin_eq]; exact push_back_at_ok bins _ p hb'⟩⟩

/-- C19 for the particle on the upper corner of the domain of `g3`. -/
theorem bin_index_safety_witness :
    (0 ≤ ⌊(pt 2 2).x / g3.binSize⌋ * g3.binCount + ⌊(pt 2 2).y / g3.binSize⌋ ∧
      ⌊(pt 2 2).x / g3.binSize⌋ * g3.binCount + ⌊(pt 2 2).y / g3.binSize⌋ <
        g3.binCount * g3.binCount) ∧
    toInt ((pt 2 2).x / g3.binSize) * g3.binCount + toInt ((pt 2 2).y / g3.binSize) =
      ⌊(pt 2 2).x / g3.binSize⌋ * g3.binCount + ⌊(pt 2 2).y / g3.binSize⌋ ∧
    ∀ bins : List bin_t, (bins.length : Int) = g3.binCount * g3.binCount →
      (∃ bins', create_bins_body g3 (pt 2 2) bins = .ok bins') ∧
      ∃ bins', push_particles_in_bin g3 (pt 2 2) bins = .ok bins' :=
  bin_index_safety g3 (pt 2 2) (by decide!) (by
    show (3 : Int) = ⌊(2 : ℚ) / 1⌋ + 1
    norm_num) (by decide!) (by decide!)

/-! ## C14 and C17: the move phase -/

/-- The three classes of lines 203-212 partition a list of moved particles. -/
theorem classify_perm (g : Globals) (s e i j : Int) (l : bin_t) :
    (l.filter (stays g s e i j) ++ l.filter (movesLocal g s e i j) ++
      l.filter (movesRemote g s e)).Perm l := by
  have h1 : (l.filter (stays g s e i j) ++ l.filter (movesLocal g s e i j)).Perm
      (l.filter (fun p => decide (s ≤ toInt (p.x / g.binSize) ∧ toInt (p.x / g.binSize) < e))) := by
    apply filter_split
    intro a _
    unfold stays movesLocal
    simp only [decide_eq_true_eq]
    constructor
    · constructor
      · intro h
        by_cases hc : toInt (a.x / g.binSize) = i ∧ toInt (a.y / g.binSize) = j
        · exact Or.inl ⟨h, hc⟩
        · exact Or.inr ⟨h, hc⟩
      · rintro (h | h) <;> exact h.1
    · rintro ⟨h1, h2⟩
      exact h2.2 h1.2
  have h2 : l.filter (movesRemote g s e) =
      l.filter (fun p => !decide (s ≤ toInt (p.x / g.binSize) ∧ toInt (p.x / g.binSize) < e)) := by
    apply List.filter_congr
    intro a _
    unfold movesRemote
    by_cases hc : s ≤ toInt (a.x / g.binSize) ∧ toInt (a.x / g.binSize) < e
    · rw [decide_eq_false (not_not.2 hc), decide_eq_true hc]
      rfl
    · rw [decide_eq_true hc, decide_eq_false hc]
      rfl
  rw [h2]
  exact (h1.append_right _).trans (List.filter_append_perm _ l)

/-- C14: for every owned bin `(i, j)` (`start ≤ i < end`, `0 ≤ j < binCount`)
the compaction of lines 197-215 succeeds, rewrites only that bin, and leaves
in it exactly the moved particles whose new bin coordinates are `(i, j)`;
`local_move` gains exactly those whose new row is in `[start, end)` but whose
new bin differs from `(i, j)`, `remote_move` exactly those whose new row is
outside `[start, end)`; the three groups together are a permutation of the
moved contents of the bin. -/
theorem move_phase_classification (g : Globals) (move : particle_t → particle_t)
    (s e i j : Int) (bins : List bin_t) (lm rm : bin_t)
    (hs : 0 ≤ s) (he : e ≤ g.binCount) (hi : s ≤ i ∧ i < e) (hj : 0 ≤ j ∧ j < g.binCount)
    (hlen : (bins.length : Int) = g.binCount * g.binCount) :
    ∃ bin' lm' rm',
      compact_bin g move s e i j (bins, lm, rm) =
        .ok (bins.set (i * g.binCount + j).toNat bin', lm', rm') ∧
      bin'.Perm (((getBin bins (i * g.binCount + j)).map move).filter
        (fun p => decide (toInt (p.x / g.binSize) = i ∧ toInt (p.y / g.binSize) = j))) ∧
      lm'.Perm (lm ++ ((getBin bins (i * g.binCount + j)).map move).filter
        (fun p => decide ((s ≤ toInt (p.x / g.binSize) ∧ toInt (p.x / g.binSize) < e) ∧
          ¬ (toInt (p.x / g.binSize) = i ∧ toInt (p.y / g.binSize) = j)))) ∧
      rm'.Perm (rm ++ ((getBin bins (i * g.binCount + j)).map move).filter
        (fun p => decide (¬ (s ≤ toInt (p.x / g.binSize) ∧ toInt (p.x / g.binSize) < e)))) ∧
      (((getBin bins (i * g.binCount + j)).map move).filter
          (fun p => decide (toInt (p.x / g.binSize) = i ∧ toInt (p.y / g.binSize) = j)) ++
        ((getBin bins (i * g.binCount + j)).map move).filter
          (fun p => decide ((s ≤ toInt (p.x / g.binSize) ∧ toInt (p.x / g.binSize) < e) ∧
            ¬ (toInt (p.x / g.binSize) = i ∧ toInt (p.y / g.binSize) = j))) ++
        ((getBin bins (i * g.binCount + j)).map move).filter
          (fun p => decide (¬ (s ≤ toInt (p.x / g.binSize) ∧ toInt (p.x / g.binSize) < e)))).Perm
        ((getBin bins (i * g.binCount + j)).map move) := by
  have hb : 0 ≤ i * g.binCount + j ∧ i * g.binCount + j < bins.length :=
    pairIndex_bounds g s e bins.length hs he hlen (i, j) ((mem_sweepPairs g s e (i, j)).2 ⟨hi, hj⟩)
  obtain ⟨bin', lm', rm', hc, h1, h2, h3⟩ := compact_bin_spec g move s e i j bins lm rm hb
  have hst : ∀ l : bin_t, l.filter (stays g s e i j) = l.filter
      (fun p => decide (toInt (p.x / g.binSize) = i ∧ toInt (p.y / g.binSize) = j)) := by
    intro l
    apply List.filter_congr
    intro a _
    unfold stays
    by_cases hc : toInt (a.x / g.binSize) = i ∧ toInt (a.y / g.binSize) = j
    · have hr : s ≤ toInt (a.x / g.binSize) ∧ toInt (a.x / g.binSize) < e := by
        rw [hc.1]; exact hi
      rw [decide_eq_true (And.intro hr hc), decide_eq_true hc]
    · rw [decide_eq_false hc, decide_eq_false (fun h => hc h.2)]
  have hcl := classify_perm g s e i j ((getBin bins (i * g.binCount + j)).map move)
  rw [hst] at h1 hcl
  exact ⟨bin', lm', rm', hc, h1, h2, h3, hcl⟩

/-- C14 on bin `(1, 0)` of `grid3`, owned by the middle rank of three, under
the motion law `flipX`. -/
theorem move_phase_classification_witness :
    ∃ bin' lm' rm',
      compact_bin g3 flipX 1 2 1 0 (grid3, [], []) =
        .ok (grid3.set (1 * g3.binCount + 0).toNat bin', lm', rm') ∧
      bin'.Perm (((getBin grid3 (1 * g3.binCount + 0)).map flipX).filter
        (fun p => decide (toInt (p.x / g3.binSize) = 1 ∧ toInt (p.y / g3.binSize) = 0))) ∧
      lm'.Perm ([] ++ ((getBin grid3 (1 * g3.binCount + 0)).map flipX).filter
        (fun p => decide ((1 ≤ toInt (p.x / g3.binSize) ∧ toInt (p.x / g3.binSize) < 2) ∧
          ¬ (toInt (p.x / g3.binSize) = 1 ∧ toInt (p.y / g3.binSize) = 0)))) ∧
      rm'.Perm ([] ++ ((getBin grid3 (1 * g3.binCount + 0)).map flipX).filter
        (fun p => decide (¬ (1 ≤ toInt (p.x / g3.binSize) ∧ toInt (p.x / g3.binSize) < 2)))) ∧
      (((getBin grid3 (1 * g3.binCount + 0)).map flipX).filter
          (fun p => decide (toInt (p.x / g3.binSize) = 1 ∧ toInt (p.y / g3.binSize) = 0)) ++
        ((getBin grid3 (1 * g3.binCount + 0)).map flipX).filter
          (fun p => decide ((1 ≤ toInt (p.x / g3.binSize) ∧ toInt (p.x / g3.binSize) < 2) ∧
            ¬ (toInt (p.x / g3.binSize) = 1 ∧ toInt (p.y / g3.binSize) = 0))) ++
        ((getBin grid3 (1 * g3.binCount + 0)).map flipX).filter
          (fun p => decide (¬ (1 ≤ toInt (p.x / g3.binSize) ∧ toInt (p.x / g3.binSize) < 2)))).Perm
        ((getBin grid3 (1 * g3.binCount + 0)).map flipX) :=
  move_phase_classification g3 flipX 1 2 1 0 grid3 [] [] (by decide) (by decide) (by decide)
    (by decide) (by decide)

/-- C17: in the move sweep of one rank (rows `[start, end)` of a grid of
`binCount * binCount` bins) the sweep succeeds and, for every motion law
`move`, the particles of the swept bins after the sweep together with
`local_move` and `remote_move` are, as a multiset, the images under `move` of
the particles of the swept bins before it: each of them is moved exactly once;
the other bins are untouched. The compaction loop of every bin ends within
`bin.size()` iterations, and when the moved particles are in the domain the
reinsertion of the local movers after the sweep keeps that multiset. -/
theorem each_particle_moved_once (g : Globals) (move : particle_t → particle_t) (s e : Int)
    (bins : List bin_t) (hs : 0 ≤ s) (he : e ≤ g.binCount)
    (hlen : (bins.length : Int) = g.binCount * g.binCount) :
    (∃ bins1 lm rm, move_sweep g move s e (bins, [], []) = .ok (bins1, lm, rm) ∧
      (sweptParticles g s e bins1 ++ lm ++ rm).Perm ((sweptParticles g s e bins).map move) ∧
      (∀ k, k ∉ (sweepPairs g s e).map (pairIndex g) → getBin bins1 k = getBin bins k) ∧
      (g.WF → (∀ q ∈ sweptParticles g s e bins, inDomain g (move q)) →
        ∃ bins2, forEach (push_particles_in_bin g) lm bins1 = .ok bins2 ∧
          (sweptParticles g s e bins2 ++ rm).Perm ((sweptParticles g s e bins).map move))) ∧
    (∀ (i j : Int) (bin lm rm : bin_t),
      ∃ out, compact_loop g move s e i j bin.length bin 0 bin.length lm rm = .ok out) := by
  constructor
  · obtain ⟨bins1, lm, rm, hsw, -, hother, hstay, hlm, hrm⟩ :=
      move_sweep_spec g move s e bins hs he hlen
    refine ⟨bins1, lm, rm, hsw, ?_, hother, ?_⟩
    · have h1 : (sweptParticles g s e bins1).Perm ((sweepPairs g s e).map (fun ij =>
          ((getBin bins (pairIndex g ij)).map move).filter (stays g s e ij.1 ij.2))).flatten :=
        flatten_map_perm _ _ _ hstay
      refine ((h1.append hlm).append hrm).trans ?_
      refine ((flatten_map_append_perm _ _ _).append_right _).trans ?_
      refine (flatten_map_append_perm _ _ _).trans ?_
      rw [map_sweptParticles]
      exact flatten_map_perm _ _ _ (fun ij _ => classify_perm g s e ij.1 ij.2 _)
    · intro hg hD
      obtain ⟨bins1', lm', rm', bins2, hsw', hpush, -, -, -, -, hcons⟩ :=
        rebin_spec g hg move s e bins hs he hlen hD
      rw [hsw] at hsw'
      injection hsw' with hsw'
      injection hsw' with hb1 hrest
      injection hrest with hl1 hr1
      subst hb1 hl1 hr1
      exact ⟨bins2, hpush, hcons⟩
  · intro i j bin lm rm
    obtain ⟨bin', k', lm', rm', h, -⟩ :=
      compact_loop_spec g move s e i j bin.length [] bin [] lm rm (le_refl _)
    simp only [List.nil_append, List.append_nil, List.length_nil, Nat.zero_add] at h
    exact ⟨_, h⟩

/-- C17 on the last rank of two over `grid3` (rows 1 and 2), under the motion
law `flipX`. -/
theorem each_particle_moved_once_witness :
    (∃ bins1 lm rm, move_sweep g3 flipX 1 3 (grid3, [], []) = .ok (bins1, lm, rm) ∧
      (sweptParticles g3 1 3 bins1 ++ lm ++ rm).Perm ((sweptParticles g3 1 3 grid3).map flipX) ∧
      (∀ k, k ∉ (sweepPairs g3 1 3).map (pairIndex g3) → getBin bins1 k = getBin grid3 k) ∧
      (g3.WF → (∀ q ∈ sweptParticles g3 1 3 grid3, inDomain g3 (flipX q)) →
        ∃ bins2, forEach (push_particles_in_bin g3) lm bins1 = .ok bins2 ∧
          (sweptParticles g3 1 3 bins2 ++ rm).Perm ((sweptParticles g3 1 3 grid3).map flipX))) ∧
    (∀ (i j : Int) (bin lm rm : bin_t),
      ∃ out, compact_loop g3 flipX 1 3 i j bin.length bin 0 bin.length lm rm = .ok out) :=
  each_particle_moved_once g3 flipX 1 3 grid3 (by decide) (by decide) (by decide)

/-! ## C20: the bin-membership invariant -/

/-- A particle of the domain with bin index `i * binCount + j`, `j` a column
of the grid, has the bin coordinates `(i, j)`. -/
theorem coords_of_index (g : Globals) (hg : g.WF) (p : particle_t) (hp : inDomain g p)
    (i j : Int) (hj : 0 ≤ j ∧ j < g.binCount) (h : binIndex g p = i * g.binCount + j) :
    ⌊p.x / g.binSize⌋ = i ∧ ⌊p.y / g.binSize⌋ = j := by
  obtain ⟨hx0, hy0, hx1, hy1⟩ := hp
  have hbs := hg.1
  have hy := coord_bounds g hg p.y hy0 hy1
  rw [← toInt_eq_floor _ (div_nonneg hx0 hbs.le), ← toInt_eq_floor _ (div_nonneg hy0 hbs.le)]
  exact index_inj g.binCount _ _ _ _ hy hj h

/-- C20: if every particle stored in every bin `(i, j)` of the grid replica
of rank `n` has the bin coordinates `(i, j)` before a step, then, with
`x_bins_per_proc ≥ 1` and the moved particles inside the domain, the step
succeeds and the same holds for that replica after it (move, compaction,
reinsertion of the local movers, ghost flush, insertion of the received
particles). -/
theorem bin_membership_invariant (g : Globals) (hg : g.WF) (move : particle_t → particle_t)
    (world : List (List bin_t)) (hP : 0 < world.length)
    (hw : 1 ≤ x_bins_per_proc g.binCount world.length) (hready : StepReady g move world)
    (n : Nat) (hn : n < world.length) (hinv : BinMembership g (world.getD n [])) :
    ∃ world', migration_round g move world = .ok world' ∧
      BinMembership g (world'.getD n []) := by
  obtain ⟨locals, world', -, -, hloc, hdom, hround, -, hfin⟩ :=
    round_spec g hg move world hP hw hready
  refine ⟨world', hround, ?_⟩
  intro i hi j hj p hp
  rw [mem_intRange] at hi hj
  rw [(hfin n hn).2, List.mem_append] at hp
  rcases hp with hp | hp
  · obtain ⟨bins2, rm0, -, hother, hown, -, -, -, hflush, -⟩ := hloc n hn
    rw [hflush] at hp
    split at hp
    · exact absurd hp (List.not_mem_nil _)
    · by_cases hk : i * g.binCount + j ∈
          (sweepPairs g (my_bins_start g.binCount world.length n)
            (my_bins_end g.binCount world.length n)).map (pairIndex g)
      · have hq := (hown _ hk).subset hp
        rw [List.mem_filter, List.mem_map] at hq
        obtain ⟨⟨q, hq, rfl⟩, hidx⟩ := hq
        exact coords_of_index g hg _ ((hready n hn).2 q hq) i j hj (of_decide_eq_true hidx)
      · rw [hother _ hk] at hp
        exact hinv i (by rw [mem_intRange]; exact hi) j (by rw [mem_intRange]; exact hj) p hp
  · rw [List.mem_filter, List.mem_filter] at hp
    exact coords_of_index g hg p (hdom p hp.1.1) i j hj (of_decide_eq_true hp.2)

/-- C20 for the middle rank of three ranks over `grid3`, under the motion
law `flipX`. -/
theorem bin_membership_invariant_witness :
    ∃ world', migration_round g3 flipX [grid3, grid3, grid3] = .ok world' ∧
      BinMembership g3 (world'.getD 1 []) :=
  bin_membership_invariant g3 (by decide!) flipX [grid3, grid3, grid3] (by decide) (by decide)
    (by decide!) 1 (by decide) (by decide!)

/-! ## C16: routing exactness -/

/-- C16 on a failing input: in the run with `n = 1` on two ranks
(`binCount = 3`, `x_bins_per_proc = 1`, rank 0 owns row 0 and has the ghost
row 1, rank 1 owns rows 1 and 2) a gathered particle of row 2 is sent to its
owner, rank 1, and, because `2 % 1 = 0`, also to rank 0, which neither owns
row 2 nor has it as a ghost row. In the round in which the particle of
`grid1` jumps from row 0 to row 2, rank 0 ends with the particle in bin
`(2, 1)` of its replica. -/
theorem routing_exactness_failing_input :
    g1.WF ∧ x_bins_per_proc g1.binCount 2 = 1 ∧
    inDomain g1 (pt (21 / 1000) (15 / 1000)) ∧
    toInt ((pt (21 / 1000) (15 / 1000)).x / g1.binSize) = 2 ∧
    route_particle g1 2 (x_bins_per_proc g1.binCount 2) (pt (21 / 1000) (15 / 1000)) [[], []] =
      .ok [[pt (21 / 1000) (15 / 1000)], [pt (21 / 1000) (15 / 1000)]] ∧
    ¬ inRange g1.binCount 2 0 2 ∧
    (2 : Int) ≠ my_bins_start g1.binCount 2 0 - 1 ∧ (2 : Int) ≠ my_bins_end g1.binCount 2 0 ∧
    migration_round g1 jumpX [grid1, grid1] =
      .ok [[[], [], [], [], [], [], [], [pt (21 / 1000) (15 / 1000)], []],
        [[], [], [], [], [], [], [], [pt (21 / 1000) (15 / 1000)], []]] := by
  refine ⟨by decide!, by decide, by decide!, by decide!, by decide!, by decide, by decide,
    by decide, by decide!⟩

/-- Below the remainder rows of the last rank the routing is exact: for a
row `x < x_bins_per_proc * n_proc`, a rank that is sent a copy owns row `x`
or has it as a ghost row. -/
theorem routing_exact_below_remainder (g : Globals) (n_proc : Int) (p : particle_t)
    (hP : 1 ≤ n_proc) (hw : 1 ≤ x_bins_per_proc g.binCount n_proc) (hb : 0 ≤ g.binCount)
    (hx : 0 ≤ toInt (p.x / g.binSize) ∧
      toInt (p.x / g.binSize) < x_bins_per_proc g.binCount n_proc * n_proc)
    (r : Int) (hr : 0 ≤ r ∧ r < n_proc) (h : receives g n_proc r p = true) :
    inRange g.binCount n_proc r (toInt (p.x / g.binSize)) ∨
    toInt (p.x / g.binSize) = my_bins_start g.binCount n_proc r - 1 ∨
    toInt (p.x / g.binSize) = my_bins_end g.binCount n_proc r := by
  have hle := x_bins_per_proc_mul_le g.binCount n_proc hb hP
  have hxb : 0 ≤ toInt (p.x / g.binSize) ∧ toInt (p.x / g.binSize) < g.binCount :=
    ⟨hx.1, by linarith [hx.2]⟩
  have hdiv : (toInt (p.x / g.binSize)).tdiv (x_bins_per_proc g.binCount n_proc) =
      toInt (p.x / g.binSize) / x_bins_per_proc g.binCount n_proc :=
    Int.tdiv_eq_ediv hx.1 (by omega)
  have hmod : (toInt (p.x / g.binSize)).tmod (x_bins_per_proc g.binCount n_proc) =
      toInt (p.x / g.binSize) % x_bins_per_proc g.binCount n_proc :=
    Int.tmod_eq_emod hx.1 (by omega)
  have hq : toInt (p.x / g.binSize) / x_bins_per_proc g.binCount n_proc ≤ n_proc - 1 := by
    have : toInt (p.x / g.binSize) / x_bins_per_proc g.binCount n_proc < n_proc :=
      Int.ediv_lt_of_lt_mul (by omega) (by rw [mul_comm]; exact hx.2)
    omega
  have hdm := Int.emod_add_ediv (toInt (p.x / g.binSize)) (x_bins_per_proc g.binCount n_proc)
  dsimp only [receives] at h
  rw [hdiv, hmod, min_eq_left hq] at h
  simp only [Bool.or_eq_true, decide_eq_true_eq] at h
  rcases h with (h | ⟨h1, h2, h3⟩) | ⟨h1, h2, h3⟩
  · left
    rw [inRange_iff_owner g.binCount n_proc r _ hP (by omega) hb hr hxb, min_eq_left hq]
    exact h
  · right; right
    unfold my_bins_end
    rw [if_neg (by omega), h1]
    rw [h2] at hdm
    linarith
  · right; left
    unfold my_bins_start
    rw [h1]
    rw [h2] at hdm
    linarith

/-! ## C15: the force stencil -/

/-- Two grids with the same number of bins and the same bin sizes. -/
theorem sameShape_set (bins : List bin_t) (idx : Int) (b : bin_t)
    (h : 0 ≤ idx ∧ idx < bins.length) (hb : b.length = (getBin bins idx).length) :
    (bins.set idx.toNat b).length = bins.length ∧
    ∀ m, (getBin (bins.set idx.toNat b) m).length = (getBin bins m).length := by
  refine ⟨List.length_set _ _ _, ?_⟩
  intro m
  rw [getBin_set bins idx m b h]
  split
  · rename_i hm
    rw [hm, hb]
  · rfl

theorem forEach_range_succ {σ : Type} (body : Nat → σ → Except Fault σ) (n : Nat) (st : σ) :
    forEach body (List.range (n + 1)) st =
      match forEach body (List.range n) st with
      | .error err => .error err
      | .ok st1 => body n st1 := by
  rw [List.range_succ, forEach_append_bind]
  cases forEach body (List.range n) st with
  | error err => rfl
  | ok st1 =>
    simp only [forEach]
    cases body n st1 <;> rfl

theorem zero_acc_upto (idx : Int) (bins : List bin_t) (h : 0 ≤ idx ∧ idx < bins.length) (n : Nat)
    (hn : n ≤ (getBin bins idx).length) :
    forEach (fun k b => zero_acc_at idx k b) (List.range n) bins =
      .ok (bins.set idx.toNat (((getBin bins idx).take n).map zeroed ++
        (getBin bins idx).drop n)) := by
  induction n with
  | zero =>
    simp only [List.range_zero, forEach, List.take_zero, List.map_nil, List.nil_append,
      List.drop_zero]
    congr 1
    apply grid_ext _ _ (List.length_set _ _ _).symm
    intro k
    rw [getBin_set bins idx k _ h]
    split
    · rename_i hk; rw [hk]
    · rfl
  | succ n ih =>
    rw [forEach_range_succ, ih (by omega)]
    simp only
    have hlt : n < (getBin bins idx).length := by omega
    have hget : (bins.set idx.toNat (((getBin bins idx).take n).map zeroed ++
        (getBin bins idx).drop n)).getD idx.toNat [] =
        ((getBin bins idx).take n).map zeroed ++ (getBin bins idx).drop n := by
      rw [getBin_eq_getD _ idx h.1, getBin_set bins idx idx _ h, if_pos rfl]
    unfold zero_acc_at
    rw [hget]
    have hlen' : (((getBin bins idx).take n).map zeroed ++ (getBin bins idx).drop n).length =
        (getBin bins idx).length := by
      simp only [List.length_append, List.length_map, List.length_take, List.length_drop]
      omega
    rw [if_pos ⟨h.1, by rw [List.length_set]; exact h.2, by rw [hlen']; exact hlt⟩]
    congr 1
    rw [List.set_set]
    congr 1
    have htl : ((getBin bins idx).take n).length = n := by
      rw [List.length_take]; omega
    have hml : (((getBin bins idx).take n).map zeroed).length = n := by
      rw [List.length_map, htl]
    have hdrop : (getBin bins idx).drop n =
        (getBin bins idx).getD n default :: (getBin bins idx).drop (n + 1) := by
      rw [List.getD_eq_getElem _ _ hlt]
      exact List.drop_eq_getElem_cons hlt
    rw [hdrop]
    have hgetn : (((getBin bins idx).take n).map zeroed ++
        (getBin bins idx).getD n default :: (getBin bins idx).drop (n + 1)).getD n default =
        (getBin bins idx).getD n default := by
      rw [List.getD_eq_getElem?_getD, List.getElem?_append_right (by omega), hml,
        Nat.sub_self, List.getElem?_cons_zero]
      rfl
    rw [hgetn]
    have hset : (((getBin bins idx).take n).map zeroed ++
        (getBin bins idx).getD n default :: (getBin bins idx).drop (n + 1)).set n
          (zeroed ((getBin bins idx).getD n default)) =
        ((getBin bins idx).take n).map zeroed ++
          zeroed ((getBin bins idx).getD n default) :: (getBin bins idx).drop (n + 1) := by
      rw [List.set_append_right _ _ (by omega), hml, Nat.sub_self]
      rfl
    show (((getBin bins idx).take n).map zeroed ++
        (getBin bins idx).getD n default :: (getBin bins idx).drop (n + 1)).set n
          (zeroed ((getBin bins idx).getD n default)) = _
    rw [hset, List.take_succ, List.map_append]
    rw [List.getD_eq_getElem _ _ hlt, List.getElem?_eq_getElem hlt]
    simp

/-- Lines 27-32 set `ax = ay = 0` on every particle of `bins[idx]` and change
nothing else. -/
theorem zero_acc_spec (idx : Int) (bins : List bin_t) (h : 0 ≤ idx ∧ idx < bins.length) :
    zero_acc idx bins = .ok (bins.set idx.toNat ((getBin bins idx).map zeroed)) := by
  unfold zero_acc
  rw [zero_acc_upto idx bins h _ (le_refl _)]
  simp

theorem force_call_ok (af : particle_t → particle_t → Stats → particle_t × Stats)
    (idx idx2 : Int) (k l : Nat) (st : List bin_t × Stats)
    (h1 : 0 ≤ idx ∧ idx < st.1.length) (h2 : 0 ≤ idx2 ∧ idx2 < st.1.length)
    (hk : k < (getBin st.1 idx).length) (hl : l < (getBin st.1 idx2).length) :
    ∃ st', force_call af idx idx2 k l st = .ok st' ∧ st'.1.length = st.1.length ∧
      (∀ m, (getBin st'.1 m).length = (getBin st.1 m).length) ∧
      ∀ m, m ≠ idx → getBin st'.1 m = getBin st.1 m := by
  unfold force_call
  rw [if_pos ⟨h1.1, h1.2, h2.1, h2.2⟩, getBin_eq_getD _ idx h1.1, getBin_eq_getD _ idx2 h2.1,
    if_pos ⟨hk, hl⟩]
  refine ⟨_, rfl, ?_, ?_, ?_⟩
  · exact List.length_set _ _ _
  · exact (sameShape_set st.1 idx _ h1 (List.length_set _ _ _)).2
  · intro m hm
    show getBin (st.1.set idx.toNat _) m = _
    rw [getBin_set st.1 idx m _ h1, if_neg hm]

theorem force_pairs_eq (af : particle_t → particle_t → Stats → particle_t × Stats)
    (idx idx2 : Int) (st : List bin_t × Stats) (h2 : 0 ≤ idx2 ∧ idx2 < st.1.length) :
    force_pairs af idx idx2 st =
      forEach (fun c s => force_call af idx c.2.1 c.1 c.2.2 s)
        (pairCalls (getBin st.1 idx).length (getBin st.1 idx2).length idx2) st := by
  unfold force_pairs pairCalls
  rw [if_pos h2, forEach_nested]
  have : (List.range (getBin st.1 idx).length).flatMap (fun k =>
      (List.range (getBin st.1 idx2).length).map (fun l => (k, idx2, l))) =
      ((List.range (getBin st.1 idx).length).flatMap (fun k =>
        (List.range (getBin st.1 idx2).length).map (fun l => (k, l)))).map
          (fun kl => (kl.1, idx2, kl.2)) := by
    rw [List.map_flatMap]
    simp only [List.map_map]
    rfl
  rw [this, forEach_map]

theorem forEach_preserves {α σ : Type} (body : α → σ → Except Fault σ) (Inv : σ → Prop)
    (l : List α) (st st' : σ) (h0 : Inv st)
    (hpres : ∀ a ∈ l, ∀ s s', Inv s → body a s = .ok s' → Inv s')
    (h : forEach body l st = .ok st') : Inv st' := by
  induction l generalizing st with
  | nil =>
    simp only [forEach] at h
    cases h
    exact h0
  | cons a as ih =>
    simp only [forEach] at h
    cases hb : body a st with
    | error e => rw [hb] at h; cases h
    | ok s1 =>
      rw [hb] at h
      exact ih s1 (hpres a (List.mem_cons_self _ _) st s1 h0 hb)
        (fun a' ha' => hpres a' (List.mem_cons_of_mem _ ha')) h

/-- A loop whose body is itself a loop over a list `F a` that depends only on
an invariant of the state is the loop over the concatenated lists. -/
theorem forEach_flatMap_inv {α β σ : Type} (body' : α → σ → Except Fault σ)
    (body : β → σ → Except Fault σ) (F : α → List β) (Inv : σ → Prop) (L : List α) (st : σ)
    (h0 : Inv st)
    (hstep : ∀ a ∈ L, ∀ s, Inv s → body' a s = forEach body (F a) s)
    (hpres : ∀ b ∈ L.flatMap F, ∀ s s', Inv s → body b s = .ok s' → Inv s') :
    forEach body' L st = forEach body (L.flatMap F) st := by
  induction L generalizing st with
  | nil => rfl
  | cons a as ih =>
    simp only [forEach, List.flatMap_cons]
    rw [forEach_append_bind, hstep a (List.mem_cons_self _ _) st h0]
    cases hb : forEach body (F a) st with
    | error e => rfl
    | ok s1 =>
      simp only
      have hinv : Inv s1 := forEach_preserves body Inv (F a) st s1 h0
        (fun b hb' => hpres b (by
          rw [List.flatMap_cons]
          exact List.mem_append_left _ hb')) hb
      exact ih s1 hinv (fun a' ha' => hstep a' (List.mem_cons_of_mem _ ha'))
        (fun b hb' => hpres b (by
          rw [List.flatMap_cons]
          exact List.mem_append_right _ hb'))

theorem mem_pairCalls (n m : Nat) (idx2 : Int) (c : Nat × Int × Nat) :
    c ∈ pairCalls n m idx2 ↔ c.1 < n ∧ c.2.1 = idx2 ∧ c.2.2 < m := by
  unfold pairCalls
  simp only [List.mem_flatMap, List.mem_map, List.mem_range]
  constructor
  · rintro ⟨k, hk, l, hl, rfl⟩
    exact ⟨hk, rfl, hl⟩
  · rintro ⟨hk, hx, hl⟩
    exact ⟨c.1, hk, c.2.2, hl, by rw [← hx]⟩

theorem nodup_pairCalls (n m : Nat) (idx2 : Int) : (pairCalls n m idx2).Nodup := by
  unfold pairCalls
  rw [List.nodup_flatMap]
  constructor
  · intro k _
    apply (List.nodup_range m).map
    intro a b h
    simpa using h
  · apply (List.nodup_range n).imp_of_mem
    intro k k' _ _ hne c hc hc'
    simp only [List.mem_map, List.mem_range] at hc hc'
    obtain ⟨l, _, rfl⟩ := hc
    obtain ⟨l', _, h⟩ := hc'
    simp only [Prod.mk.injEq] at h
    exact hne h.1.symm

theorem mem_stencilOffsets (d : Int × Int) :
    d ∈ stencilOffsets ↔ (-1 ≤ d.1 ∧ d.1 ≤ 1) ∧ (-1 ≤ d.2 ∧ d.2 ≤ 1) := by
  unfold stencilOffsets
  simp only [List.mem_flatMap, List.mem_map, mem_intRange]
  constructor
  · rintro ⟨dx, hdx, dy, hdy, rfl⟩
    exact ⟨⟨hdx.1, by omega⟩, ⟨hdy.1, by omega⟩⟩
  · rintro ⟨hdx, hdy⟩
    exact ⟨d.1, ⟨hdx.1, by omega⟩, d.2, ⟨hdy.1, by omega⟩, rfl⟩

theorem nodup_stencilOffsets : stencilOffsets.Nodup := by decide

theorem mem_cellCalls (g : Globals) (bins : List bin_t) (i j : Int) (d : Int × Int)
    (c : Nat × Int × Nat) :
    c ∈ cellCalls g bins i j d ↔
      ((0 ≤ i + d.1 ∧ i + d.1 < g.binCount) ∧ (0 ≤ j + d.2 ∧ j + d.2 < g.binCount)) ∧
      c.1 < (getBin bins (i * g.binCount + j)).length ∧
      c.2.1 = (i + d.1) * g.binCount + (j + d.2) ∧
      c.2.2 < (getBin bins c.2.1).length := by
  unfold cellCalls
  have hassoc : (i + d.1) * g.binCount + j + d.2 = (i + d.1) * g.binCount + (j + d.2) := by ring
  by_cases h : i + d.1 ≥ 0 ∧ i + d.1 < g.binCount ∧ j + d.2 ≥ 0 ∧ j + d.2 < g.binCount
  · rw [if_pos h, mem_pairCalls, hassoc]
    constructor
    · rintro ⟨h1, h2, h3⟩
      exact ⟨⟨⟨h.1, h.2.1⟩, ⟨h.2.2.1, h.2.2.2⟩⟩, h1, h2, by rw [h2]; exact h3⟩
    · rintro ⟨_, h1, h2, h3⟩
      exact ⟨h1, h2, by rw [h2] at h3; exact h3⟩
  · rw [if_neg h]
    constructor
    · intro hc
      exact absurd hc (List.not_mem_nil _)
    · rintro ⟨⟨⟨a, b⟩, ⟨c', d'⟩⟩, _⟩
      exact absurd ⟨a, b, c', d'⟩ h

theorem mem_stencilCalls (g : Globals) (bins : List bin_t) (i j : Int) (c : Nat × Int × Nat) :
    c ∈ stencilCalls g bins i j ↔
      (c.1 < (getBin bins (i * g.binCount + j)).length ∧ c.2.2 < (getBin bins c.2.1).length) ∧
      ∃ dx dy : Int, (-1 ≤ dx ∧ dx ≤ 1) ∧ (-1 ≤ dy ∧ dy ≤ 1) ∧
        (0 ≤ i + dx ∧ i + dx < g.binCount) ∧ (0 ≤ j + dy ∧ j + dy < g.binCount) ∧
        c.2.1 = (i + dx) * g.binCount + (j + dy) := by
  unfold stencilCalls
  simp only [List.mem_flatMap, mem_stencilOffsets, mem_cellCalls]
  constructor
  · rintro ⟨d, ⟨hdx, hdy⟩, ⟨hi, hj⟩, h1, h2, h3⟩
    exact ⟨⟨h1, h3⟩, d.1, d.2, hdx, hdy, hi, hj, h2⟩
  · rintro ⟨⟨h1, h3⟩, dx, dy, hdx, hdy, hi, hj, h2⟩
    exact ⟨(dx, dy), ⟨hdx, hdy⟩, ⟨hi, hj⟩, h1, h2, h3⟩

theorem nodup_stencilCalls (g : Globals) (bins : List bin_t) (i j : Int) :
    (stencilCalls g bins i j).Nodup := by
  unfold stencilCalls
  rw [List.nodup_flatMap]
  constructor
  · intro d _
    unfold cellCalls
    split
    · exact nodup_pairCalls _ _ _
    · exact List.nodup_nil
  · apply nodup_stencilOffsets.imp_of_mem
    intro d d' _ _ hne c hc hc'
    rw [mem_cellCalls] at hc hc'
    obtain ⟨⟨_, hj⟩, _, h2, _⟩ := hc
    obtain ⟨⟨_, hj'⟩, _, h2', _⟩ := hc'
    have := index_inj g.binCount _ _ _ _ hj hj' (h2.symm.trans h2')
    apply hne
    apply Prod.ext
    · omega
    · omega

theorem force_call_shape (af : particle_t → particle_t → Stats → particle_t × Stats)
    (idx idx2 : Int) (k l : Nat) (st st' : List bin_t × Stats)
    (h : force_call af idx idx2 k l st = .ok st') :
    st'.1.length = st.1.length ∧ (∀ m, (getBin st'.1 m).length = (getBin st.1 m).length) ∧
      ∀ m, m ≠ idx → getBin st'.1 m = getBin st.1 m := by
  have hc : (0 ≤ idx ∧ idx < st.1.length ∧ 0 ≤ idx2 ∧ idx2 < st.1.length) ∧
      (k < (st.1.getD idx.toNat []).length ∧ l < (st.1.getD idx2.toNat []).length) := by
    unfold force_call at h
    split at h
    · rename_i h1
      split at h
      · rename_i h2
        exact ⟨h1, h2⟩
      · cases h
    · cases h
  obtain ⟨⟨a, b, c, d⟩, hk, hl⟩ := hc
  rw [getBin_eq_getD _ idx a] at hk
  rw [getBin_eq_getD _ idx2 c] at hl
  obtain ⟨st2, h2, p1, p2, p3⟩ := force_call_ok af idx idx2 k l st ⟨a, b⟩ ⟨c, d⟩ hk hl
  rw [h] at h2
  injection h2 with h2
  subst h2
  exact ⟨p1, p2, p3⟩

/-- On a grid with the bin sizes of `bins` the body of the loop over `dy` is
the sequence of the calls of `cellCalls`. -/
theorem force_neighbor_eq (af : particle_t → particle_t → Stats → particle_t × Stats)
    (g : Globals) (bins : List bin_t) (i j : Int) (d : Int × Int) (st : List bin_t × Stats)
    (hlen : (bins.length : Int) = g.binCount * g.binCount)
    (hl : st.1.length = bins.length)
    (hs : ∀ m, (getBin st.1 m).length = (getBin bins m).length) :
    force_neighbor af g i j d.1 d.2 st =
      forEach (fun c s => force_call af (i * g.binCount + j) c.2.1 c.1 c.2.2 s)
        (cellCalls g bins i j d) st := by
  unfold force_neighbor cellCalls
  by_cases h : i + d.1 ≥ 0 ∧ i + d.1 < g.binCount ∧ j + d.2 ≥ 0 ∧ j + d.2 < g.binCount
  · rw [if_pos h, if_pos h]
    have hb : 0 ≤ (i + d.1) * g.binCount + j + d.2 ∧
        (i + d.1) * g.binCount + j + d.2 < st.1.length := by
      rw [hl, hlen]
      obtain ⟨a, b, c, e⟩ := h
      have h0 : 0 ≤ (i + d.1) * g.binCount := mul_nonneg (by omega) (by omega)
      have h1 : (i + d.1 + 1) * g.binCount ≤ g.binCount * g.binCount :=
        mul_le_mul_of_nonneg_right (by omega) (by omega)
      constructor
      · omega
      · linarith
    rw [force_pairs_eq af _ _ st hb, hs, hs]
  · rw [if_neg h, if_neg h]
    rfl

/-- Inside the bounds the call of line 41 applies `apply_force` to particle
`k` of `bins[idx]` and particle `l` of `bins[idx2]`, stores the new value of
the first in place and takes over the new statistics. -/
theorem force_call_eq (af : particle_t → particle_t → Stats → particle_t × Stats)
    (idx idx2 : Int) (k l : Nat) (st : List bin_t × Stats)
    (h1 : 0 ≤ idx ∧ idx < st.1.length) (h2 : 0 ≤ idx2 ∧ idx2 < st.1.length)
    (hk : k < (getBin st.1 idx).length) (hl : l < (getBin st.1 idx2).length) :
    force_call af idx idx2 k l st =
      .ok (st.1.set idx.toNat ((getBin st.1 idx).set k
          (af ((getBin st.1 idx).getD k default) ((getBin st.1 idx2).getD l default) st.2).1),
        (af ((getBin st.1 idx).getD k default) ((getBin st.1 idx2).getD l default) st.2).2) := by
  unfold force_call
  rw [if_pos ⟨h1.1, h1.2, h2.1, h2.2⟩, getBin_eq_getD _ idx h1.1, getBin_eq_getD _ idx2 h2.1,
    if_pos ⟨hk, hl⟩]

/-- A sequence of calls that stay inside the bins of a grid with the bin
sizes of `bins` succeeds, and its result is the left fold of the calls. -/
theorem force_calls_fold (af : particle_t → particle_t → Stats → particle_t × Stats)
    (idx : Int) (bins : List bin_t) (calls : List (Nat × Int × Nat))
    (hidx : 0 ≤ idx ∧ idx < bins.length)
    (hvalid : ∀ c ∈ calls, (0 ≤ c.2.1 ∧ c.2.1 < bins.length) ∧
      c.1 < (getBin bins idx).length ∧ c.2.2 < (getBin bins c.2.1).length)
    (st : List bin_t × Stats) (hl : st.1.length = bins.length)
    (hs : ∀ m, (getBin st.1 m).length = (getBin bins m).length) :
    forEach (fun c s => force_call af idx c.2.1 c.1 c.2.2 s) calls st =
      .ok (calls.foldl (fun (s : List bin_t × Stats) (c : Nat × Int × Nat) =>
        (s.1.set idx.toNat ((getBin s.1 idx).set c.1
            (af ((getBin s.1 idx).getD c.1 default) ((getBin s.1 c.2.1).getD c.2.2 default)
              s.2).1),
          (af ((getBin s.1 idx).getD c.1 default) ((getBin s.1 c.2.1).getD c.2.2 default)
            s.2).2)) st) := by
  induction calls generalizing st with
  | nil => rfl
  | cons c cs ih =>
    obtain ⟨hb, hk, hl2⟩ := hvalid c (List.mem_cons_self _ _)
    have hidx' : 0 ≤ idx ∧ idx < st.1.length := by rw [hl]; exact hidx
    simp only [forEach, List.foldl_cons]
    rw [force_call_eq af idx c.2.1 c.1 c.2.2 st hidx' (by rw [hl]; exact hb)
      (by rw [hs]; exact hk) (by rw [hs]; exact hl2)]
    simp only
    obtain ⟨q1, q2⟩ := sameShape_set st.1 idx ((getBin st.1 idx).set c.1
      (af ((getBin st.1 idx).getD c.1 default) ((getBin st.1 c.2.1).getD c.2.2 default)
        st.2).1) hidx' (List.length_set _ _ _)
    exact ih (fun c' hc' => hvalid c' (List.mem_cons_of_mem _ hc')) _ (q1.trans hl)
      (fun m => (q2 m).trans (hs m))

/-- Under a force law that counts its calls in `navg`, the fold of a list of
calls adds the length of the list to `navg`. -/
theorem force_calls_count (af : particle_t → particle_t → Stats → particle_t × Stats)
    (hcount : ∀ p q s, (af p q s).2.navg = s.navg + 1)
    (idx : Int) (calls : List (Nat × Int × Nat)) (st : List bin_t × Stats) :
    (calls.foldl (fun (s : List bin_t × Stats) (c : Nat × Int × Nat) =>
        (s.1.set idx.toNat ((getBin s.1 idx).set c.1
            (af ((getBin s.1 idx).getD c.1 default) ((getBin s.1 c.2.1).getD c.2.2 default)
              s.2).1),
          (af ((getBin s.1 idx).getD c.1 default) ((getBin s.1 c.2.1).getD c.2.2 default)
            s.2).2)) st).2.navg = st.2.navg + calls.length := by
  induction calls generalizing st with
  | nil => simp
  | cons c cs ih =>
    rw [List.foldl_cons, ih]
    simp only [hcount, List.length_cons]
    push_cast
    ring

/-- C15: for every grid of `binCount * binCount` bins and every bin `(i, j)`
of it, `force_compute_for_bins` returns without an out-of-bounds access, and
its result is: first `ax = ay = 0` on every particle of bin `(i, j)`, then,
call after call of a list `calls` of triples `(k, idx2, l)`, `apply_force`
applied to particle `k` of bin `(i, j)`, to particle `l` of bin `idx2` and to
the statistics, its first result stored as particle `k` of bin `(i, j)` and
its second as the statistics. In `calls` no triple occurs twice, and it holds
exactly the triples with `k` a particle of bin `(i, j)`, `idx2` the index of
a bin `(i + dx, j + dy)`, `dx, dy ∈ {-1, 0, 1}`, inside the grid and `l` a
particle of that bin; every such index lies in `[0, binCount * binCount)`.
Only bin `(i, j)` changes, and not in size; a force law that counts its calls
in `navg` is called `calls.length` times. -/
theorem force_stencil (g : Globals) (bins : List bin_t) (i j : Int)
    (hi : 0 ≤ i ∧ i < g.binCount) (hj : 0 ≤ j ∧ j < g.binCount)
    (hlen : (bins.length : Int) = g.binCount * g.binCount) :
    ∃ calls : List (Nat × Int × Nat),
      calls.Nodup ∧
      (∀ k idx2 l, (k, idx2, l) ∈ calls ↔
        (k < (getBin bins (i * g.binCount + j)).length ∧ l < (getBin bins idx2).length) ∧
        ∃ dx dy : Int, (-1 ≤ dx ∧ dx ≤ 1) ∧ (-1 ≤ dy ∧ dy ≤ 1) ∧
          (0 ≤ i + dx ∧ i + dx < g.binCount) ∧ (0 ≤ j + dy ∧ j + dy < g.binCount) ∧
          idx2 = (i + dx) * g.binCount + (j + dy)) ∧
      (∀ c ∈ calls, 0 ≤ c.2.1 ∧ c.2.1 < g.binCount * g.binCount) ∧
      ∀ (apply_force : particle_t → particle_t → Stats → particle_t × Stats) (stats : Stats),
        ∃ out, force_compute_for_bins apply_force g i j (bins, stats) = .ok out ∧
          out = calls.foldl (fun (s : List bin_t × Stats) (c : Nat × Int × Nat) =>
            (s.1.set (i * g.binCount + j).toNat ((getBin s.1 (i * g.binCount + j)).set c.1
                (apply_force ((getBin s.1 (i * g.binCount + j)).getD c.1 default)
                  ((getBin s.1 c.2.1).getD c.2.2 default) s.2).1),
              (apply_force ((getBin s.1 (i * g.binCount + j)).getD c.1 default)
                ((getBin s.1 c.2.1).getD c.2.2 default) s.2).2))
            (bins.set (i * g.binCount + j).toNat
              ((getBin bins (i * g.binCount + j)).map
                (fun p => { p with ax := 0, ay := 0 })), stats) ∧
          out.1.length = bins.length ∧
          (∀ m, m ≠ i * g.binCount + j → getBin out.1 m = getBin bins m) ∧
          (getBin out.1 (i * g.binCount + j)).length =
            (getBin bins (i * g.binCount + j)).length ∧
          ((∀ p q s, (apply_force p q s).2.navg = s.navg + 1) →
            out.2.navg = stats.navg + calls.length) := by
  have hidx : 0 ≤ i * g.binCount + j ∧ i * g.binCount + j < bins.length := by
    rw [hlen]
    have h0 : 0 ≤ i * g.binCount := mul_nonneg (by omega) (by omega)
    have h1 : (i + 1) * g.binCount ≤ g.binCount * g.binCount :=
      mul_le_mul_of_nonneg_right (by omega) (by omega)
    constructor
    · omega
    · linarith
  have hrange : ∀ c ∈ stencilCalls g bins i j, 0 ≤ c.2.1 ∧ c.2.1 < g.binCount * g.binCount := by
    intro c hc
    obtain ⟨-, dx, dy, -, -, hx, hy, he⟩ := (mem_stencilCalls g bins i j c).1 hc
    rw [he]
    have h0 : 0 ≤ (i + dx) * g.binCount := mul_nonneg (by omega) (by omega)
    have h1 : (i + dx + 1) * g.binCount ≤ g.binCount * g.binCount :=
      mul_le_mul_of_nonneg_right (by omega) (by omega)
    constructor
    · omega
    · linarith
  refine ⟨stencilCalls g bins i j, nodup_stencilCalls g bins i j,
    fun k idx2 l => mem_stencilCalls g bins i j (k, idx2, l), hrange, ?_⟩
  intro af stats
  obtain ⟨hz1, hz2⟩ := sameShape_set bins (i * g.binCount + j)
    ((getBin bins (i * g.binCount + j)).map zeroed) hidx (List.length_map _ _)
  -- the sequence of calls succeeds and keeps the shape of the grid
  obtain ⟨out, hout, hinv⟩ := forEach_rule
    (fun c s => force_call af (i * g.binCount + j) c.2.1 c.1 c.2.2 s)
    (fun _ (s : List bin_t × Stats) => s.1.length = bins.length ∧
      (∀ m, (getBin s.1 m).length = (getBin bins m).length) ∧
      ∀ m, m ≠ i * g.binCount + j → getBin s.1 m = getBin bins m)
    (stencilCalls g bins i j)
    (bins.set (i * g.binCount + j).toNat ((getBin bins (i * g.binCount + j)).map zeroed), stats)
    ⟨hz1, hz2, fun m hm => by
      show getBin (bins.set _ _) m = _
      rw [getBin_set bins _ m _ hidx, if_neg hm]⟩
    (by
      intro pre c post s hL ⟨hs1, hs2, hs3⟩
      have hc : c ∈ stencilCalls g bins i j := by
        rw [hL]
        exact List.mem_append_right _ (List.mem_cons_self _ _)
      obtain ⟨⟨hk, hl⟩, -⟩ := (mem_stencilCalls g bins i j c).1 hc
      have hr := hrange c hc
      obtain ⟨s', hs', p1, p2, p3⟩ := force_call_ok af (i * g.binCount + j) c.2.1 c.1 c.2.2 s
        (by rw [hs1]; exact hidx) (by rw [hs1, hlen]; exact hr)
        (by rw [hs2]; exact hk) (by rw [hs2]; exact hl)
      exact ⟨s', hs', p1.trans hs1, fun m => (p2 m).trans (hs2 m),
        fun m hm => (p3 m hm).trans (hs3 m hm)⟩)
  -- the same sequence as a fold of applications of the force law
  have hfold := force_calls_fold af (i * g.binCount + j) bins (stencilCalls g bins i j) hidx
    (fun c hc => by
      obtain ⟨⟨hk, hl⟩, -⟩ := (mem_stencilCalls g bins i j c).1 hc
      have hr := hrange c hc
      exact ⟨⟨hr.1, by rw [hlen]; exact hr.2⟩, hk, hl⟩)
    (bins.set (i * g.binCount + j).toNat ((getBin bins (i * g.binCount + j)).map zeroed), stats)
    hz1 hz2
  rw [hout] at hfold
  injection hfold with hfold
  refine ⟨out, ?_, hfold, hinv.1, hinv.2.2, hinv.2.1 _, ?_⟩
  · unfold force_compute_for_bins
    simp only
    rw [if_pos hidx, zero_acc_spec _ bins hidx]
    simp only
    rw [forEach_nested]
    rw [← hout]
    exact forEach_flatMap_inv
      (fun (d : Int × Int) s => force_neighbor af g i j d.1 d.2 s)
      (fun c s => force_call af (i * g.binCount + j) c.2.1 c.1 c.2.2 s)
      (cellCalls g bins i j)
      (fun s => s.1.length = bins.length ∧ ∀ m, (getBin s.1 m).length = (getBin bins m).length)
      stencilOffsets
      (bins.set (i * g.binCount + j).toNat ((getBin bins (i * g.binCount + j)).map zeroed),
        stats)
      ⟨hz1, hz2⟩
      (fun d _ s hs => force_neighbor_eq af g bins i j d s hlen hs.1 hs.2)
      (fun c _ s s' hs hcall => by
        obtain ⟨p1, p2, -⟩ := force_call_shape af _ _ _ _ s s' hcall
        exact ⟨p1.trans hs.1, fun m => (p2 m).trans (hs.2 m)⟩)
  · intro hcount
    rw [hfold]
    exact force_calls_count af hcount _ _ _

/-- C15 on bin `(1, 0)` of `grid3`. -/
theorem force_stencil_witness :
    ∃ calls : List (Nat × Int × Nat),
      calls.Nodup ∧
      (∀ k idx2 l, (k, idx2, l) ∈ calls ↔
        (k < (getBin grid3 (1 * g3.binCount + 0)).length ∧ l < (getBin grid3 idx2).length) ∧
        ∃ dx dy : Int, (-1 ≤ dx ∧ dx ≤ 1) ∧ (-1 ≤ dy ∧ dy ≤ 1) ∧
          (0 ≤ 1 + dx ∧ 1 + dx < g3.binCount) ∧ (0 ≤ 0 + dy ∧ 0 + dy < g3.binCount) ∧
          idx2 = (1 + dx) * g3.binCount + (0 + dy)) ∧
      (∀ c ∈ calls, 0 ≤ c.2.1 ∧ c.2.1 < g3.binCount * g3.binCount) ∧
      ∀ (apply_force : particle_t → particle_t → Stats → particle_t × Stats) (stats : Stats),
        ∃ out, force_compute_for_bins apply_force g3 1 0 (grid3, stats) = .ok out ∧
          out = calls.foldl (fun (s : List bin_t × Stats) (c : Nat × Int × Nat) =>
            (s.1.set (1 * g3.binCount + 0).toNat ((getBin s.1 (1 * g3.binCount + 0)).set c.1
                (apply_force ((getBin s.1 (1 * g3.binCount + 0)).getD c.1 default)
                  ((getBin s.1 c.2.1).getD c.2.2 default) s.2).1),
              (apply_force ((getBin s.1 (1 * g3.binCount + 0)).getD c.1 default)
                ((getBin s.1 c.2.1).getD c.2.2 default) s.2).2))
            (grid3.set (1 * g3.binCount + 0).toNat
              ((getBin grid3 (1 * g3.binCount + 0)).map
                (fun p => { p with ax := 0, ay := 0 })), stats) ∧
          out.1.length = grid3.length ∧
          (∀ m, m ≠ 1 * g3.binCount + 0 → getBin out.1 m = getBin grid3 m) ∧
          (getBin out.1 (1 * g3.binCount + 0)).length =
            (getBin grid3 (1 * g3.binCount + 0)).length ∧
          ((∀ p q s, (apply_force p q s).2.navg = s.navg + 1) →
            out.2.navg = stats.navg + calls.length) :=
  force_stencil g3 grid3 1 0 (by decide) (by decide) (by decide)

/-- Bin `(1, 0)` of `grid3` has two particles and four particles in its
clipped stencil: the sample force law is called eight times. -/
theorem force_stencil_sample :
    (force_compute_for_bins sampleForce g3 1 0 (grid3, ⟨1, 0, 0⟩)).map (fun out => out.2.navg) =
      .ok 8 ∧
    (stencilCalls g3 grid3 1 0).length = 8 := by
  constructor
  · decide!
  · decide

end Particles
